import Mathlib

/-! # User policy records of `proto/user_proto.go`

A verification development for the access-control policy record of the `proto`
package: the owned-volume list, the volume-to-actions mapping, and the five
operations on them (`AddOwnVol`, `RemoveOwnVol`, `Add`, `Delete`, `CleanPolicy`)
together with the helper `removeSlice`.

Modelling conventions:

* A Go `string` is a Lean `String`; only equality of strings is used by the code.
* A Go `[]string` is, in the value model below, the `List String` of its
  elements `s[0], ..., s[len(s)-1]`.  `append(s, t...)` is `s ++ t`, `s[:i]` is
  `s.take i` and `s[i+1:]` is `s.drop (i+1)`.  The value model is used for the
  operations on one record and for the result in the receiver of an operation
  whose argument shares no backing array with it.
* In the store model a slice is a header (array, offset, length, capacity) and
  the backing arrays are passed explicitly.  Elements are read from the arrays
  when the code reads them, `append` writes in place when the capacity allows
  it, and `Add` stores the header of its argument's list when it adopts a key.
  How much spare capacity a newly allocated array gets is left to a parameter
  `grow`, and the general statements hold for every `grow`.  Every statement
  about two records (`Delete`, `Add` followed by `Delete`, `Add` twice) is made
  in the store model, where the argument can share an array with the receiver
  or be the receiver; the section on refinement proves that the store model of
  `append` and of `removeSlice` computes the value model on slices that do not
  share an array.
* A Go `map[string][]string` is an association list with pairwise distinct keys
  (`AList`).  `m[k]` with the `ok` flag is `AList.lookup`, `m[k] = v` is
  `AList.insert`, and `for k, v := range m` is a left fold over the entries.
  Go leaves the iteration order unspecified; the order of the entry list stands
  for the order chosen by the runtime, and every statement below is phrased
  through `lookup` and key membership only, for every entry list.
* The mutex `mu` guards every operation for its whole duration, so each
  operation is a function from the state before the call to the state after it.
  The section on two concurrent callers makes the mutex explicit and lets the
  steps of two calls interleave.
* In the value model and in the store model the containers of a record are
  initialised, as `NewUserPolicy` builds them and as every operation leaves
  them.  The nil map, on which an assignment panics, is a value of the records
  of the section on totality only.
-/

namespace Proto

/-- The Go type `map[string][]string`: volume name to list of action names. -/
abbrev GoMap := AList (fun _ : String => List String)

/-- The Go type `map[string]bool`, used as a "seen" set by `CleanPolicy`. -/
abbrev SeenMap := AList (fun _ : String => Bool)

/-- The record `UserPolicy` (the mutex field carries no data). -/
structure UserPolicy where
  OwnVols : List String
  AuthorizedVols : GoMap

/-- The constructor `NewUserPolicy`, lines 86-91: both containers initialised and
empty. -/
def NewUserPolicy : UserPolicy :=
  { OwnVols := [], AuthorizedVols := ∅ }

/-- The membership scan of `AddOwnVol`:
`for _, ownVol := range policy.OwnVols { if ownVol == volume { return } }`.
Returns `true` when the loop returns early. -/
def AddOwnVol.scan (volume : String) : List String → Bool
  | [] => false
  | ownVol :: rest => if ownVol = volume then true else AddOwnVol.scan volume rest

/-- The function `(policy *UserPolicy) AddOwnVol(volume string)`, lines 103-112. -/
def UserPolicy.AddOwnVol (policy : UserPolicy) (volume : String) : UserPolicy :=
  if AddOwnVol.scan volume policy.OwnVols then policy
  else { policy with OwnVols := policy.OwnVols ++ [volume] }

/-- The loop of `RemoveOwnVol` over `policy.OwnVols`, at index `i` with the
elements from index `i` on still to visit; `vols` is `policy.OwnVols`. -/
def RemoveOwnVol.loop (vols : List String) (volume : String) : Nat → List String → List String
  | _, [] => vols
  | i, ownVol :: rest =>
    if ownVol = volume then
      if i = vols.length - 1 then vols.take i
      else vols.take i ++ vols.drop (i + 1)
    else RemoveOwnVol.loop vols volume (i + 1) rest

/-- The function `(policy *UserPolicy) RemoveOwnVol(volume string)`, lines 114-127. -/
def UserPolicy.RemoveOwnVol (policy : UserPolicy) (volume : String) : UserPolicy :=
  { policy with OwnVols := RemoveOwnVol.loop policy.OwnVols volume 0 policy.OwnVols }

/-- One iteration of the map loop of `Add` for the entry `k, v` of
`addPolicy.AuthorizedVols`; `m` is `policy.AuthorizedVols` so far. -/
def Add.step (addVols : GoMap) (m : GoMap) (e : Sigma (fun _ : String => List String)) : GoMap :=
  match m.lookup e.1 with
  | some apis => m.insert e.1 (apis ++ (addVols.lookup e.1).getD [])
  | none => m.insert e.1 e.2

/-- The function `(policy *UserPolicy) Add(addPolicy *UserPolicy)`, lines 129-140,
on records with initialised maps: the lists of the receiver after the call.
What the call does to a list of the argument that shares its backing array with
a list of the receiver is the subject of `Shared.Add`, and the nil map that of
`RawPolicy.Add`. -/
def UserPolicy.Add (policy addPolicy : UserPolicy) : UserPolicy :=
  { OwnVols := policy.OwnVols ++ addPolicy.OwnVols
    AuthorizedVols :=
      addPolicy.AuthorizedVols.entries.foldl (Add.step addPolicy.AuthorizedVols)
        policy.AuthorizedVols }

/-- The inner loop of `removeSlice` for one `elem`:
`for i, v := range s { if v == elem { s = append(s[:i], s[i+1:]...); break } }`,
at index `i` with the elements from index `i` on still to visit. -/
def removeSlice.scan (s : List String) (elem : String) : Nat → List String → List String
  | _, [] => s
  | i, v :: rest =>
    if v = elem then s.take i ++ s.drop (i + 1)
    else removeSlice.scan s elem (i + 1) rest

/-- The function `removeSlice(s []string, removeSlice []string) []string`, lines
153-166, on the elements of two slices that do not share a backing array, so
that the removal list is the same list at every iteration.  `Shared.removeSlice`
is the function on slices that may share an array; `Shared_removeSlice_refines`
relates the two. -/
def removeSlice (s : List String) (rm : List String) : List String :=
  if s.length = 0 then s
  else rm.foldl (fun s elem => removeSlice.scan s elem 0 s) s

/-- One iteration of the map loop of `Delete` for the entry `k, v` of
`deletePolicy.AuthorizedVols`. -/
def Delete.step (m : GoMap) (e : Sigma (fun _ : String => List String)) : GoMap :=
  match m.lookup e.1 with
  | some apis => m.insert e.1 (removeSlice apis e.2)
  | none => m

/-- The function `(policy *UserPolicy) Delete(deletePolicy *UserPolicy)`, lines
142-151, on the elements of two records that share no backing array.
`Shared.Delete` is the function on records that may share arrays;
`Shared_Delete_separate` relates the two. -/
def UserPolicy.Delete (policy deletePolicy : UserPolicy) : UserPolicy :=
  { OwnVols := removeSlice policy.OwnVols deletePolicy.OwnVols
    AuthorizedVols := deletePolicy.AuthorizedVols.entries.foldl Delete.step policy.AuthorizedVols }

/-- One iteration of a deduplication loop of `CleanPolicy`:
`if _, exist := m[x]; !exist { m[x] = true; out = append(out, x) }`.
The state is the seen-map and the output list. -/
def CleanPolicy.step (st : SeenMap × List String) (x : String) : SeenMap × List String :=
  match st.1.lookup x with
  | some _ => st
  | none => (st.1.insert x true, st.2 ++ [x])

/-- A whole deduplication loop of `CleanPolicy`, from an empty seen-map and an
empty output list. -/
def CleanPolicy.clean (xs : List String) : List String :=
  (xs.foldl CleanPolicy.step (∅, [])).2

/-- The function `CleanPolicy(policy *UserPolicy) (newUserPolicy *UserPolicy)`,
lines 168-191.  The two deduplication loops (over `OwnVols` with the map `m`,
over each action list with the map `checkMap`) have the same body. -/
def CleanPolicy (policy : UserPolicy) : UserPolicy :=
  { OwnVols := CleanPolicy.clean policy.OwnVols
    AuthorizedVols :=
      policy.AuthorizedVols.entries.foldl
        (fun m e => m.insert e.1 (CleanPolicy.clean e.2)) NewUserPolicy.AuthorizedVols }

/-- A map holding the single entry `k ↦ v`. -/
def GoMap.single (k : String) (v : List String) : GoMap :=
  (∅ : GoMap).insert k v

/-- The list `l` with every element that already occurred earlier in `l`
dropped: position `i` is kept exactly when `l[i]` does not occur in `l[:i]`. -/
def firstOccurrences (l : List String) : List String :=
  (l.enum.filter (fun p => decide (p.2 ∉ l.take p.1))).map Prod.snd

/-- The list `s` from which, for each entry of `rm` taken in order, the first
remaining exact match (if any) has been deleted. -/
def removeFirstEach (s rm : List String) : List String :=
  rm.foldl (fun acc elem => acc.erase elem) s

/-! ## Store model: slices as windows into backing arrays

In Go a slice value is a header (pointer, length, capacity) and two slices may
point into the same backing array.  The definitions of this section pass the
backing arrays explicitly: an operation takes the store before the call and
returns the store after it.  Elements are read from the store at the moment the
code reads them and `append` writes in place whenever the capacity allows it.
-/

/-- A Go slice header: backing array `arr`, offset `off` of element 0 in that
array, length and capacity. -/
structure Slice where
  arr : Nat
  off : Nat
  len : Nat
  cap : Nat
deriving DecidableEq

/-- The backing arrays, by identifier. -/
abbrev Store := List (List String)

/-- The cell `i` of backing array `arr`. -/
def Store.cell (h : Store) (arr i : Nat) : String :=
  (h.getD arr []).getD i ""

/-- The elements `s[0], ..., s[len(s)-1]` of the slice `s`: the cells
`off, ..., off + len - 1` of its backing array. -/
def Store.read (h : Store) (s : Slice) : List String :=
  ((h.getD s.arr []).drop s.off).take s.len

/-- The store with `vals` written into the cells `pos, ..., pos + len(vals) - 1`
of array `arr` (cells that exist whenever the code writes: `append` writes
within the capacity of a slice). -/
def Store.write (h : Store) (arr pos : Nat) (vals : List String) : Store :=
  h.set arr ((h.getD arr []).take pos ++ vals ++ (h.getD arr []).drop (pos + vals.length))

/-- A slice header that fits the store: its array exists and the window of its
capacity lies inside the array. -/
abbrev Slice.inStore (h : Store) (s : Slice) : Prop :=
  s.arr < h.length ∧ s.len ≤ s.cap ∧ s.off + s.cap ≤ (h.getD s.arr []).length

/-- The store `h'` has the arrays of `h`, all unchanged except possibly the
contents (not the length) of array `arr`. -/
def Store.sameExcept (h h' : Store) (arr : Nat) : Prop :=
  h'.length = h.length ∧ (h'.getD arr []).length = (h.getD arr []).length
    ∧ ∀ arr', arr' ≠ arr → h'.getD arr' [] = h.getD arr' []

/-- The slice expression `s[:i]`. -/
def Slice.upTo (s : Slice) (i : Nat) : Slice :=
  { s with len := i }

/-- The slice expression `s[i:]`. -/
def Slice.fromIdx (s : Slice) (i : Nat) : Slice :=
  { arr := s.arr, off := s.off + i, len := s.len - i, cap := s.cap - i }

/-- The builtin `append(s, elems...)`, where `elems` are the values read from the
second operand before anything is written: in place when `len(s) + len(elems)`
fits the capacity of `s`, into a newly allocated array otherwise.  How much
spare capacity a new array gets is the business of the runtime: `grow c n` is
the number of spare cells it adds when a slice of capacity `c` has to hold `n`
elements, and every statement about `append` is made for every `grow`.  The
spare cells of a new array hold the zero value `""`. -/
def Store.append (grow : Nat → Nat → Nat) (h : Store) (s : Slice) (elems : List String) :
    Slice × Store :=
  if s.len + elems.length ≤ s.cap then
    ({ s with len := s.len + elems.length }, h.write s.arr (s.off + s.len) elems)
  else
    ({ arr := h.length, off := 0, len := s.len + elems.length,
       cap := s.len + elems.length + grow s.cap (s.len + elems.length) },
      h ++ [h.read s ++ elems ++ List.replicate (grow s.cap (s.len + elems.length)) ""])

/-- The growth policy that adds no spare capacity: the policy at which the
statements made for every growth policy are instantiated in closed examples. -/
def noSpare : Nat → Nat → Nat :=
  fun _ _ => 0

/-- The type `map[string][]string` with slice headers as values. -/
abbrev SliceMap := AList (fun _ : String => Slice)

/-- The record `UserPolicy` with slice headers instead of element lists. -/
structure SharedPolicy where
  OwnVols : Slice
  AuthorizedVols : SliceMap

/-- The nil slice, the value of `m[k]` for an absent key. -/
def Slice.nil : Slice :=
  { arr := 0, off := 0, len := 0, cap := 0 }

/-- One iteration of the map loop of `Add` in the store model. -/
def Shared.Add.step (grow : Nat → Nat → Nat) (addVols : SliceMap) (st : SliceMap × Store)
    (e : Sigma (fun _ : String => Slice)) : SliceMap × Store :=
  match st.1.lookup e.1 with
  | some apis =>
    let r := st.2.append grow apis (st.2.read ((addVols.lookup e.1).getD Slice.nil))
    (st.1.insert e.1 r.1, r.2)
  | none => (st.1.insert e.1 e.2, st.2)

/-- The function `(policy *UserPolicy) Add(addPolicy *UserPolicy)` in the store model. -/
def Shared.Add (grow : Nat → Nat → Nat) (h : Store) (policy addPolicy : SharedPolicy) :
    SharedPolicy × Store :=
  let own := h.append grow policy.OwnVols (h.read addPolicy.OwnVols)
  let r := addPolicy.AuthorizedVols.entries.foldl
    (Shared.Add.step grow addPolicy.AuthorizedVols) (policy.AuthorizedVols, own.2)
  ({ OwnVols := own.1, AuthorizedVols := r.1 }, r.2)

/-- The inner loop of `removeSlice` in the store model, at index `i` with `n`
iterations left: `v` is read from the store, and on a match
`s = append(s[:i], s[i+1:]...)` shifts the tail one cell to the left in place. -/
def Shared.removeSlice.scan (grow : Nat → Nat → Nat) (h : Store) (s : Slice) (elem : String) :
    Nat → Nat → Slice × Store
  | 0, _ => (s, h)
  | n + 1, i =>
    if h.cell s.arr (s.off + i) = elem then
      h.append grow (s.upTo i) (h.read (s.fromIdx (i + 1)))
    else Shared.removeSlice.scan grow h s elem n (i + 1)

/-- The outer loop of `removeSlice` in the store model, at index `j` of the
removal slice `rm` with `n` iterations left: `elem` is read from the store as
it is when iteration `j` starts. -/
def Shared.removeSlice.loop (grow : Nat → Nat → Nat) (rm : Slice) :
    Nat → Nat → Slice × Store → Slice × Store
  | 0, _, st => st
  | n + 1, j, st =>
    Shared.removeSlice.loop grow rm n (j + 1)
      (Shared.removeSlice.scan grow st.2 st.1 (st.2.cell rm.arr (rm.off + j)) st.1.len 0)

/-- The function `removeSlice(s []string, removeSlice []string) []string` in the store model. -/
def Shared.removeSlice (grow : Nat → Nat → Nat) (h : Store) (s rm : Slice) : Slice × Store :=
  if s.len = 0 then (s, h)
  else Shared.removeSlice.loop grow rm rm.len 0 (s, h)

/-- One iteration of the map loop of `Delete` in the store model. -/
def Shared.Delete.step (grow : Nat → Nat → Nat) (st : SliceMap × Store)
    (e : Sigma (fun _ : String => Slice)) : SliceMap × Store :=
  match st.1.lookup e.1 with
  | some apis =>
    let r := Shared.removeSlice grow st.2 apis e.2
    (st.1.insert e.1 r.1, r.2)
  | none => st

/-- The function `(policy *UserPolicy) Delete(deletePolicy *UserPolicy)` in the store model. -/
def Shared.Delete (grow : Nat → Nat → Nat) (h : Store) (policy deletePolicy : SharedPolicy) :
    SharedPolicy × Store :=
  let own := Shared.removeSlice grow h policy.OwnVols deletePolicy.OwnVols
  let r := deletePolicy.AuthorizedVols.entries.foldl (Shared.Delete.step grow)
    (policy.AuthorizedVols, own.2)
  ({ OwnVols := own.1, AuthorizedVols := r.1 }, r.2)

/-- A slice map holding the single entry `k ↦ s`. -/
def SliceMap.single (k : String) (s : Slice) : SliceMap :=
  (∅ : SliceMap).insert k s

/-- The list read through the entry of key `k`, empty when the key is absent. -/
def SharedPolicy.actions (h : Store) (p : SharedPolicy) (k : String) : List String :=
  h.read ((p.AuthorizedVols.lookup k).getD Slice.nil)

/-- The store of the sharing scenario: array 0 backs the list of `sharingB`,
array 1 the list of `sharingC`. -/
def sharingStore : Store :=
  [["read", "write"], ["read"]]

/-- The empty record `NewUserPolicy()`. -/
def sharingA : SharedPolicy :=
  { OwnVols := Slice.nil, AuthorizedVols := ∅ }

/-- The record `{"vol1": ["read","write"]}`, its list in array 0. -/
def sharingB : SharedPolicy :=
  { OwnVols := Slice.nil
    AuthorizedVols := SliceMap.single "vol1" { arr := 0, off := 0, len := 2, cap := 2 } }

/-- The record `{"vol1": ["read"]}`, its list in array 1. -/
def sharingC : SharedPolicy :=
  { OwnVols := Slice.nil
    AuthorizedVols := SliceMap.single "vol1" { arr := 1, off := 0, len := 1, cap := 1 } }

/-! ## Records that share no backing array

The statements about two records are made for records whose lists live in
pairwise different backing arrays.  A slice without a backing array (a nil
slice, or one of capacity 0) is a window of capacity 0 into an array of its
own, which may be empty: it reads no cell and `append` never writes through
it.  So Go records no two of whose lists can reach a common cell have a
representation in which no two lists share an array.
-/

/-- The store `h'` keeps the arrays of `h`: it has at least as many arrays, and
every array of `h` has in `h'` the length it has in `h`. -/
def Store.keeps (h h' : Store) : Prop :=
  h.length ≤ h'.length ∧ ∀ arr, arr < h.length → (h'.getD arr []).length = (h.getD arr []).length

/-- The lists of the map `m` fit the store, live in pairwise different arrays,
away from the arrays `P`, and away from the lists of `bm` at other keys; and
the lists of `bm` fit the store, live in pairwise different arrays, away from
the arrays `P`, all of which exist.  A list of `m` may share its array with the
list of `bm` at the same key, as happens after `Add` adopted it. -/
def MapsApart (h : Store) (m bm : SliceMap) (P : List Nat) : Prop :=
  (∀ k s, m.lookup k = some s → s.inStore h ∧ s.arr ∉ P)
  ∧ (∀ k k' s s', k ≠ k' → m.lookup k = some s → m.lookup k' = some s' → s.arr ≠ s'.arr)
  ∧ (∀ k k' s s', k ≠ k' → m.lookup k = some s → bm.lookup k' = some s' → s.arr ≠ s'.arr)
  ∧ (∀ k s, bm.lookup k = some s → s.inStore h ∧ s.arr ∉ P)
  ∧ (∀ k k' s s', k ≠ k' → bm.lookup k = some s → bm.lookup k' = some s' → s.arr ≠ s'.arr)
  ∧ (∀ x ∈ P, x < h.length)

/-- The backing arrays of the lists of a record: that of `OwnVols`, then those
of the action lists. -/
def SharedPolicy.arrays (p : SharedPolicy) : List Nat :=
  p.OwnVols.arr :: p.AuthorizedVols.entries.map (fun e => e.2.arr)

/-- Every list of the record fits the store. -/
abbrev SharedPolicy.fits (h : Store) (p : SharedPolicy) : Prop :=
  p.OwnVols.inStore h ∧ ∀ e ∈ p.AuthorizedVols.entries, e.2.inStore h

/-- The two records share no backing array: their lists fit the store and no
two of them live in the same array. -/
abbrev Separate (h : Store) (a b : SharedPolicy) : Prop :=
  a.fits h ∧ b.fits h ∧ (a.arrays ++ b.arrays).Nodup

/-- The condition under which `a.Add(b)` appends as on lists: the two `OwnVols`
fit the store in different arrays, and the action lists are apart from them
and from each other, except that a list of `a` may be a list adopted from `b`
at the same key. -/
def AddReady (h : Store) (a b : SharedPolicy) : Prop :=
  a.OwnVols.inStore h ∧ b.OwnVols.inStore h ∧ a.OwnVols.arr ≠ b.OwnVols.arr
  ∧ MapsApart h a.AuthorizedVols b.AuthorizedVols [a.OwnVols.arr, b.OwnVols.arr]

/-- The calls `a.Add(b)` and then `a.Delete(b)` in the store model, for an
argument `b` that is another record than the receiver `a`: neither call assigns
a field of `b`, so the second call gets the slice headers of `b` that the first
one got, and reads their elements from the store as it is by then. -/
def Shared.AddDelete (grow : Nat → Nat → Nat) (h : Store) (a b : SharedPolicy) :
    SharedPolicy × Store :=
  Shared.Delete grow (Shared.Add grow h a b).2 (Shared.Add grow h a b).1 b

/-- The calls `a.Add(a)` and then `a.Delete(a)` in the store model: the argument
of the second call is the receiver as the first call has left it. -/
def Shared.AddDeleteSelf (grow : Nat → Nat → Nat) (h : Store) (a : SharedPolicy) :
    SharedPolicy × Store :=
  Shared.Delete grow (Shared.Add grow h a a).2 (Shared.Add grow h a a).1 (Shared.Add grow h a a).1

/-- The call `a.Add(b)` made twice in a row in the store model, for an argument
`b` that is another record than the receiver `a`. -/
def Shared.AddTwice (grow : Nat → Nat → Nat) (h : Store) (a b : SharedPolicy) :
    SharedPolicy × Store :=
  Shared.Add grow (Shared.Add grow h a b).2 (Shared.Add grow h a b).1 b

/-! ## Scenarios with shared backing arrays

The fields of `UserPolicy` are exported, `Add` stores the slices of its argument
in the receiver, and nothing stops a caller from passing a record to itself: so
records whose lists share a backing array arise from the operations themselves.
The scenarios of this section are such records, each given with the store it
lives in.  No call in them allocates, so their outcome under the policy
`noSpare` is their outcome under every growth policy, as is proved with the
statements about them.
-/

/-- The store of the adoption scenario: array 0 backs the list of `adoptB`. -/
def adoptStore : Store :=
  [["read", "write", "list"]]

/-- The record `{"vol1": ["read","write","list"]}`, its list in array 0. -/
def adoptB : SharedPolicy :=
  { OwnVols := Slice.nil
    AuthorizedVols := SliceMap.single "vol1" { arr := 0, off := 0, len := 3, cap := 3 } }

/-- The empty record `NewUserPolicy()` after `Add(adoptB)`, with the store after
the call: the record has adopted the list of `adoptB`. -/
def adoptedState : SharedPolicy × Store :=
  Shared.Add noSpare adoptStore sharingA adoptB

/-- The store of the self-argument scenario: array 0 backs `OwnVols` of
`selfA` and has room for four entries. -/
def selfStore : Store :=
  [["vol1", "vol2", "", ""]]

/-- The record with `OwnVols = ["vol1","vol2"]` (capacity 4) and no keys. -/
def selfA : SharedPolicy :=
  { OwnVols := { arr := 0, off := 0, len := 2, cap := 4 }, AuthorizedVols := ∅ }

/-- The store of the trimming scenario: array 0 has room for ten actions and
backs the list of `trimB`, array 1 backs the list of `trimC`. -/
def trimStore : Store :=
  [["read", "write", "list", "delete", "", "", "", "", "", ""], ["delete", "list", "write"]]

/-- The record `{"vol1": ["read","write","list","delete"]}`, its list in array 0
with capacity 10. -/
def trimB : SharedPolicy :=
  { OwnVols := Slice.nil
    AuthorizedVols := SliceMap.single "vol1" { arr := 0, off := 0, len := 4, cap := 10 } }

/-- The record `{"vol1": ["delete","list","write"]}`, its list in array 1. -/
def trimC : SharedPolicy :=
  { OwnVols := Slice.nil
    AuthorizedVols := SliceMap.single "vol1" { arr := 1, off := 0, len := 3, cap := 3 } }

/-- The empty record `NewUserPolicy()` after `Add(trimB)` and `Delete(trimC)`,
with the store after the two calls: the record holds `{"vol1": ["read"]}`, a
window of length 1 into the array of the list of `trimB`. -/
def trimmedState : SharedPolicy × Store :=
  Shared.Delete noSpare (Shared.Add noSpare trimStore sharingA trimB).2
    (Shared.Add noSpare trimStore sharingA trimB).1 trimC

/-! ## A scenario without sharing -/

/-- The store of two records that share nothing: every list has an array of its
own. -/
def apartStore : Store :=
  [["vol1", "vol2"], ["vol1"], ["read", "write"], ["read"]]

/-- The record `{OwnVols: ["vol1","vol2"], "vol1": ["read","write"]}`. -/
def apartA : SharedPolicy :=
  { OwnVols := { arr := 0, off := 0, len := 2, cap := 2 }
    AuthorizedVols := SliceMap.single "vol1" { arr := 2, off := 0, len := 2, cap := 2 } }

/-- The record `{OwnVols: ["vol1"], "vol1": ["read"]}`. -/
def apartB : SharedPolicy :=
  { OwnVols := { arr := 1, off := 0, len := 1, cap := 1 }
    AuthorizedVols := SliceMap.single "vol1" { arr := 3, off := 0, len := 1, cap := 1 } }

/-! ## User roles -/

/-- The type `UserType uint8`, lines 19-26: a byte. -/
abbrev UserType := Fin 256

/-- The constant `UserTypeInvalid UserType = 0x0`. -/
def UserTypeInvalid : UserType := 0

/-- The constant `UserTypeRoot UserType = 0x1`. -/
def UserTypeRoot : UserType := 1

/-- The constant `UserTypeAdmin UserType = 0x2`. -/
def UserTypeAdmin : UserType := 2

/-- The constant `UserTypeNormal UserType = 0x3`. -/
def UserTypeNormal : UserType := 3

/-- The function `(u UserType) Valid() bool`, lines 28-37. -/
def UserType.Valid (u : UserType) : Bool :=
  if u = UserTypeRoot ∨ u = UserTypeAdmin ∨ u = UserTypeNormal then true
  else false

/-- The function `(u UserType) String() string`, lines 39-50. -/
def UserType.String (u : UserType) : String :=
  if u = UserTypeRoot then "root"
  else if u = UserTypeAdmin then "admin"
  else if u = UserTypeNormal then "normal"
  else "invalid"

/-- The function `UserTypeFromString(name string) UserType`, lines 52-63. -/
def UserTypeFromString (name : String) : UserType :=
  if name = "root" then UserTypeRoot
  else if name = "admin" then UserTypeAdmin
  else if name = "normal" then UserTypeNormal
  else UserTypeInvalid

/-! ## Slice expressions with their bounds

The slice expressions `s[:i]` and `s[i+1:]` of `RemoveOwnVol` and `removeSlice`
panic at run time when a bound is out of range.  The definitions of this
section follow the two functions again with every slice expression checked
against the current length of the slice: `none` stands for the panic.  The
operations on whole records, with the map assignments checked as well, follow
in the section on the nil map.
-/

/-- The slice expression `s[:i]`, checked: `i` must not exceed `len(s)`. -/
def boundedUpTo (s : List String) (i : Nat) : Option (List String) :=
  if i ≤ s.length then some (s.take i) else none

/-- The slice expression `s[i:]`, checked: `i` must not exceed `len(s)`. -/
def boundedFrom (s : List String) (i : Nat) : Option (List String) :=
  if i ≤ s.length then some (s.drop i) else none

/-- The loop of `RemoveOwnVol` with checked slice expressions. -/
def RemoveOwnVol.loopBounded (vols : List String) (volume : String) :
    Nat → List String → Option (List String)
  | _, [] => some vols
  | i, ownVol :: rest =>
    if ownVol = volume then
      if i = vols.length - 1 then boundedUpTo vols i
      else (boundedUpTo vols i).bind (fun hd => (boundedFrom vols (i + 1)).map (fun tl => hd ++ tl))
    else RemoveOwnVol.loopBounded vols volume (i + 1) rest

/-- The inner loop of `removeSlice` with checked slice expressions. -/
def removeSlice.scanBounded (s : List String) (elem : String) :
    Nat → List String → Option (List String)
  | _, [] => some s
  | i, v :: rest =>
    if v = elem then
      (boundedUpTo s i).bind (fun hd => (boundedFrom s (i + 1)).map (fun tl => hd ++ tl))
    else removeSlice.scanBounded s elem (i + 1) rest

/-- The function `removeSlice` with checked slice expressions. -/
def removeSliceBounded (s : List String) (rm : List String) : Option (List String) :=
  if s.length = 0 then some s
  else rm.foldlM (fun s elem => removeSlice.scanBounded s elem 0 s) s

/-! ## Records as Go holds them: the nil map

A record that was not built by `NewUserPolicy` (the zero value `&UserPolicy{}`,
or a record decoded from JSON without the field `authorized_vols`) has a nil
`AuthorizedVols`.  Reading a key of a nil map and ranging over a nil map are
defined and find no entry; assigning to a key of a nil map panics.  The
definitions of this section follow the five operations again on records whose
map may be nil, with every map assignment and every slice expression checked:
`none` stands for the panic.  A nil slice behaves as the empty slice in every
expression of the code (`range`, `len`, `append`, and `s[:0]`), so the lists
stay lists.  Whether a map assignment or a slice expression fails depends on
the nil-ness of the map, on the index and on the length of the slice only, not
on which backing array a slice lives in.
-/

/-- The record `UserPolicy` with a map that may be nil (`none`). -/
structure RawPolicy where
  OwnVols : List String
  AuthorizedVols : Option GoMap

/-- The record with initialised map that the value model speaks about. -/
def UserPolicy.raw (policy : UserPolicy) : RawPolicy :=
  { OwnVols := policy.OwnVols, AuthorizedVols := some policy.AuthorizedVols }

/-- The expression `v, ok := m[k]` on a map that may be nil: a nil map has no
key. -/
def mapIndex (m : Option GoMap) (k : String) : Option (List String) :=
  match m with
  | some g => g.lookup k
  | none => none

/-- The statement `m[k] = v` on a map that may be nil: it panics on a nil map. -/
def mapAssign (m : Option GoMap) (k : String) (v : List String) : Option (Option GoMap) :=
  match m with
  | some g => some (some (g.insert k v))
  | none => none

/-- The entries visited by `for k, v := range m` on a map that may be nil: none
for a nil map. -/
def mapRange (m : Option GoMap) : List (Sigma (fun _ : String => List String)) :=
  match m with
  | some g => g.entries
  | none => []

/-- The function `AddOwnVol`, lines 103-112, on a record whose map may be nil:
it evaluates no map expression and no slice expression. -/
def RawPolicy.AddOwnVol (policy : RawPolicy) (volume : String) : Option RawPolicy :=
  if AddOwnVol.scan volume policy.OwnVols then some policy
  else some { policy with OwnVols := policy.OwnVols ++ [volume] }

/-- The function `RemoveOwnVol`, lines 114-127, on a record whose map may be
nil, with checked slice expressions. -/
def RawPolicy.RemoveOwnVol (policy : RawPolicy) (volume : String) : Option RawPolicy :=
  (RemoveOwnVol.loopBounded policy.OwnVols volume 0 policy.OwnVols).map
    (fun vols => { policy with OwnVols := vols })

/-- One iteration of the map loop of `Add`, lines 133-139, with checked map
assignments. -/
def RawPolicy.Add.step (addVols : Option GoMap) (m : Option GoMap)
    (e : Sigma (fun _ : String => List String)) : Option (Option GoMap) :=
  match mapIndex m e.1 with
  | some apis => mapAssign m e.1 (apis ++ (mapIndex addVols e.1).getD [])
  | none => mapAssign m e.1 e.2

/-- The function `Add`, lines 129-140, on records whose maps may be nil, with
checked map assignments. -/
def RawPolicy.Add (policy addPolicy : RawPolicy) : Option RawPolicy :=
  ((mapRange addPolicy.AuthorizedVols).foldlM (RawPolicy.Add.step addPolicy.AuthorizedVols)
    policy.AuthorizedVols).map
    (fun m => { OwnVols := policy.OwnVols ++ addPolicy.OwnVols, AuthorizedVols := m })

/-- One iteration of the map loop of `Delete`, lines 146-150, with checked slice
expressions and a checked map assignment. -/
def RawPolicy.Delete.step (m : Option GoMap) (e : Sigma (fun _ : String => List String)) :
    Option (Option GoMap) :=
  match mapIndex m e.1 with
  | some apis => (removeSliceBounded apis e.2).bind (fun l => mapAssign m e.1 l)
  | none => some m

/-- The function `Delete`, lines 142-151, on records whose maps may be nil, with
checked slice expressions and checked map assignments. -/
def RawPolicy.Delete (policy deletePolicy : RawPolicy) : Option RawPolicy :=
  (removeSliceBounded policy.OwnVols deletePolicy.OwnVols).bind (fun own =>
    ((mapRange deletePolicy.AuthorizedVols).foldlM RawPolicy.Delete.step
      policy.AuthorizedVols).map
      (fun m => { OwnVols := own, AuthorizedVols := m }))

/-- One iteration of the map loop of `CleanPolicy`, lines 179-189, with the
assignment `newUserPolicy.AuthorizedVols[vol] = newAPI` checked. -/
def RawPolicy.CleanPolicy.step (m : Option GoMap) (e : Sigma (fun _ : String => List String)) :
    Option (Option GoMap) :=
  mapAssign m e.1 (CleanPolicy.clean e.2)

/-- The function `CleanPolicy`, lines 168-191, on a record whose map may be nil,
with the assignments to the map of the new record checked.  The new record
comes from `NewUserPolicy`, so its map is initialised; the seen-maps are made by
`make` inside the function. -/
def RawPolicy.CleanPolicy (policy : RawPolicy) : Option RawPolicy :=
  ((mapRange policy.AuthorizedVols).foldlM RawPolicy.CleanPolicy.step
    (some NewUserPolicy.AuthorizedVols)).map
    (fun m => { OwnVols := CleanPolicy.clean policy.OwnVols, AuthorizedVols := m })

/-- The slice expression `s[:i]` in the store model, checked against the current
length of `s` (Go itself checks against the capacity, which is no smaller). -/
def Slice.upToChecked (s : Slice) (i : Nat) : Option Slice :=
  if i ≤ s.len then some (s.upTo i) else none

/-- The slice expression `s[i:]` in the store model, checked against the current
length of `s`. -/
def Slice.fromIdxChecked (s : Slice) (i : Nat) : Option Slice :=
  if i ≤ s.len then some (s.fromIdx i) else none

/-- The inner loop of `removeSlice` in the store model with checked slice
expressions. -/
def Shared.removeSlice.scanChecked (grow : Nat → Nat → Nat) (h : Store) (s : Slice)
    (elem : String) : Nat → Nat → Option (Slice × Store)
  | 0, _ => some (s, h)
  | n + 1, i =>
    if h.cell s.arr (s.off + i) = elem then
      (s.upToChecked i).bind (fun hd =>
        (s.fromIdxChecked (i + 1)).map (fun tl => h.append grow hd (h.read tl)))
    else Shared.removeSlice.scanChecked grow h s elem n (i + 1)

/-- The outer loop of `removeSlice` in the store model with checked slice
expressions. -/
def Shared.removeSlice.loopChecked (grow : Nat → Nat → Nat) (rm : Slice) :
    Nat → Nat → Slice × Store → Option (Slice × Store)
  | 0, _, st => some st
  | n + 1, j, st =>
    (Shared.removeSlice.scanChecked grow st.2 st.1 (st.2.cell rm.arr (rm.off + j))
      st.1.len 0).bind (Shared.removeSlice.loopChecked grow rm n (j + 1))

/-- The function `removeSlice` in the store model with checked slice
expressions. -/
def Shared.removeSliceChecked (grow : Nat → Nat → Nat) (h : Store) (s rm : Slice) :
    Option (Slice × Store) :=
  if s.len = 0 then some (s, h)
  else Shared.removeSlice.loopChecked grow rm rm.len 0 (s, h)

/-! ## Two concurrent callers of `AddOwnVol`

Two goroutines call `AddOwnVol` on the same record.  A caller is the list of
volumes of the calls it still has to make and a program counter inside its
current call; the record is `OwnVols` and the mutex `mu`.  A step is taken by
one of the two callers, chosen by the scheduler: `mu.Lock()` (enabled only when
nobody holds the mutex), the membership loop, the evaluation of
`append(policy.OwnVols, volume)`, the assignment to `policy.OwnVols`, and the
deferred `mu.Unlock()`.  The steps of the two callers interleave in any order.
-/

/-- The program counter of a caller inside `AddOwnVol(volume)`. -/
inductive PC where
  /-- Between two calls: the next step is `policy.mu.Lock()` of the next call. -/
  | idle
  /-- The mutex is held; the next step is the loop over `policy.OwnVols`. -/
  | locked (volume : String)
  /-- The loop found no match; the next step evaluates
  `append(policy.OwnVols, volume)`. -/
  | scanned (volume : String)
  /-- The value `val` of `append(policy.OwnVols, volume)` is computed; the next
  step assigns it to `policy.OwnVols`. -/
  | assigning (volume : String) (val : List String)
  /-- The body is finished; the next step is the deferred `policy.mu.Unlock()`. -/
  | leaving (volume : String)
deriving DecidableEq

/-- A caller: the volumes of the calls not yet started, and where it stands. -/
structure Caller where
  pending : List String
  pc : PC
deriving DecidableEq

/-- The record shared by the two callers, with its mutex (`none` when free,
otherwise the caller that holds it), and the two callers. -/
structure World where
  OwnVols : List String
  mu : Option Bool
  first : Caller
  second : Caller
deriving DecidableEq

/-- The caller named `t`: `false` is the first, `true` the second. -/
def World.caller (w : World) (t : Bool) : Caller :=
  if t then w.second else w.first

/-- The world with the caller named `t` replaced. -/
def World.setCaller (w : World) (t : Bool) (c : Caller) : World :=
  if t then { w with second := c } else { w with first := c }

/-- One step of the caller `t`; `none` when the caller cannot move (it has made
all its calls, or it waits for the mutex). -/
def World.step (w : World) (t : Bool) : Option World :=
  match (w.caller t).pc with
  | PC.idle =>
    match (w.caller t).pending with
    | [] => none
    | volume :: rest =>
      match w.mu with
      | some _ => none
      | none => some ({ w with mu := some t }.setCaller t ⟨rest, PC.locked volume⟩)
  | PC.locked volume =>
    if AddOwnVol.scan volume w.OwnVols then
      some (w.setCaller t ⟨(w.caller t).pending, PC.leaving volume⟩)
    else some (w.setCaller t ⟨(w.caller t).pending, PC.scanned volume⟩)
  | PC.scanned volume =>
    some (w.setCaller t ⟨(w.caller t).pending, PC.assigning volume (w.OwnVols ++ [volume])⟩)
  | PC.assigning volume val =>
    some ({ w with OwnVols := val }.setCaller t ⟨(w.caller t).pending, PC.leaving volume⟩)
  | PC.leaving _ =>
    some ({ w with mu := none }.setCaller t ⟨(w.caller t).pending, PC.idle⟩)

/-- The execution of a schedule: the list of the callers that move, in order. -/
def World.run : List Bool → World → Option World
  | [], w => some w
  | t :: ts, w => (w.step t).bind (World.run ts)

/-- The start: `OwnVols` empty, the mutex free, the first caller about to add
the volumes `xs` one by one and the second the volumes `ys`. -/
def World.start (xs ys : List String) : World :=
  { OwnVols := [], mu := none, first := ⟨xs, PC.idle⟩, second := ⟨ys, PC.idle⟩ }

/-- Both callers have completed all their calls. -/
def World.finished (w : World) : Prop :=
  w.first = ⟨[], PC.idle⟩ ∧ w.second = ⟨[], PC.idle⟩

/-- The volumes of a caller that its calls have not yet put into `OwnVols`. -/
def Caller.remaining (c : Caller) : List String :=
  match c.pc with
  | PC.idle => c.pending
  | PC.locked volume => volume :: c.pending
  | PC.scanned volume => volume :: c.pending
  | PC.assigning volume _ => volume :: c.pending
  | PC.leaving _ => c.pending

/-- The invariant of the executions from `World.start xs ys`: `OwnVols` and the
remaining volumes make up `xs ++ ys`; a caller inside a call holds the mutex;
and the value a caller is about to assign is the current `OwnVols` with its
volume appended. -/
def World.Inv (xs ys : List String) (w : World) : Prop :=
  (w.OwnVols ++ w.first.remaining ++ w.second.remaining).Perm (xs ++ ys)
  ∧ (∀ t, (w.caller t).pc ≠ PC.idle → w.mu = some t)
  ∧ (∀ t volume val, (w.caller t).pc = PC.assigning volume val → val = w.OwnVols ++ [volume])

/-! ## Lists: the loops over slices -/

theorem AddOwnVol_scan_eq (volume : String) (l : List String) :
    AddOwnVol.scan volume l = decide (volume ∈ l) := by
  induction l with
  | nil => simp [AddOwnVol.scan]
  | cons x xs ih =>
    by_cases h : x = volume
    · simp [AddOwnVol.scan, h]
    · have h' : ¬ volume = x := fun e => h e.symm
      simp [AddOwnVol.scan, h, h', ih]

theorem take_append_drop_succ (pre rest : List String) (x : String) :
    (pre ++ x :: rest).take pre.length ++ (pre ++ x :: rest).drop (pre.length + 1)
      = pre ++ rest := by
  simp [List.take_append_eq_append_take, List.drop_append_eq_append_drop]

theorem RemoveOwnVol_loop_eq (volume : String) (rest pre : List String) (hpre : volume ∉ pre) :
    RemoveOwnVol.loop (pre ++ rest) volume pre.length rest = pre ++ rest.erase volume := by
  induction rest generalizing pre with
  | nil => simp [RemoveOwnVol.loop]
  | cons x xs ih =>
    by_cases h : x = volume
    · subst h
      rw [RemoveOwnVol.loop, if_pos rfl, List.erase_cons_head]
      split
      · rename_i hlast
        have hxs : xs = [] := by
          simp only [List.length_append, List.length_cons] at hlast
          apply List.eq_nil_of_length_eq_zero
          omega
        subst hxs
        simp
      · exact take_append_drop_succ pre xs x
    · have hne : ¬ (x == volume) = true := by simpa using h
      rw [RemoveOwnVol.loop, if_neg h, List.erase_cons_tail hne]
      have hpre' : volume ∉ pre ++ [x] := by
        simp only [List.mem_append, List.mem_singleton, not_or]
        exact ⟨hpre, fun e => h e.symm⟩
      have := ih (pre ++ [x]) hpre'
      simpa using this

theorem removeSlice_scan_eq (elem : String) (rest pre : List String) (hpre : elem ∉ pre) :
    removeSlice.scan (pre ++ rest) elem pre.length rest = pre ++ rest.erase elem := by
  induction rest generalizing pre with
  | nil => simp [removeSlice.scan]
  | cons x xs ih =>
    by_cases h : x = elem
    · subst h
      rw [removeSlice.scan, if_pos rfl, List.erase_cons_head]
      exact take_append_drop_succ pre xs x
    · have hne : ¬ (x == elem) = true := by simpa using h
      rw [removeSlice.scan, if_neg h, List.erase_cons_tail hne]
      have hpre' : elem ∉ pre ++ [x] := by
        simp only [List.mem_append, List.mem_singleton, not_or]
        exact ⟨hpre, fun e => h e.symm⟩
      have := ih (pre ++ [x]) hpre'
      simpa using this

theorem removeSlice_scan_zero (elem : String) (s : List String) :
    removeSlice.scan s elem 0 s = s.erase elem := by
  simpa using removeSlice_scan_eq elem s [] (by simp)

theorem removeSlice_eq (s rm : List String) :
    removeSlice s rm = removeFirstEach s rm := by
  unfold removeFirstEach
  have hfun : (fun (s : List String) elem => removeSlice.scan s elem 0 s)
      = (fun acc elem => acc.erase elem) := by
    funext s elem
    exact removeSlice_scan_zero elem s
  unfold removeSlice
  rw [hfun]
  split
  · rename_i h0
    have hs : s = [] := List.eq_nil_of_length_eq_zero h0
    subst hs
    clear h0
    induction rm with
    | nil => rfl
    | cons e es ih => simpa using ih
  · rfl

/-! ## Maps: the loops over `AuthorizedVols` -/

theorem Add_step_lookup (addVols m : GoMap) (e : Sigma (fun _ : String => List String))
    (he : addVols.lookup e.1 = some e.2) (k : String) :
    (Add.step addVols m e).lookup k
      = if k = e.1 then some ((m.lookup e.1).getD [] ++ e.2) else m.lookup k := by
  unfold Add.step
  cases hm : m.lookup e.1 with
  | none =>
    by_cases hk : k = e.1
    · subst hk; simp
    · simp [hk, AList.lookup_insert_ne hk]
  | some apis =>
    by_cases hk : k = e.1
    · subst hk; simp [he]
    · simp [hk, AList.lookup_insert_ne hk]

theorem Add_fold_lookup (addVols : GoMap) (l : List (Sigma (fun _ : String => List String)))
    (hnd : l.NodupKeys) (hsub : ∀ e ∈ l, addVols.lookup e.1 = some e.2) (m : GoMap)
    (k : String) :
    (l.foldl (Add.step addVols) m).lookup k
      = match l.dlookup k with
        | some bs => some ((m.lookup k).getD [] ++ bs)
        | none => m.lookup k := by
  induction l generalizing m with
  | nil => simp
  | cons e es ih =>
    obtain ⟨hnot, hes⟩ := List.nodupKeys_cons.mp hnd
    have he := hsub e (List.mem_cons_self _ _)
    rw [List.foldl_cons, ih hes (fun x hx => hsub x (List.mem_cons_of_mem _ hx)),
      Add_step_lookup addVols m e he k]
    by_cases hk : k = e.1
    · subst hk
      have h1 : List.dlookup e.1 es = none := List.dlookup_eq_none.mpr hnot
      have h2 : List.dlookup e.1 (e :: es) = some e.2 := by
        obtain ⟨a, b⟩ := e
        exact List.dlookup_cons_eq es a b
      rw [h1, h2]
      simp
    · rw [List.dlookup_cons_ne es e hk]
      simp [hk]

theorem Delete_step_lookup (m : GoMap) (e : Sigma (fun _ : String => List String))
    (k : String) :
    (Delete.step m e).lookup k
      = if k = e.1 then (m.lookup e.1).map (fun apis => removeSlice apis e.2)
        else m.lookup k := by
  unfold Delete.step
  cases hm : m.lookup e.1 with
  | none =>
    by_cases hk : k = e.1
    · subst hk; simp [hm]
    · simp [hk]
  | some apis =>
    by_cases hk : k = e.1
    · subst hk; simp
    · simp [hk, AList.lookup_insert_ne hk]

theorem Delete_fold_lookup (l : List (Sigma (fun _ : String => List String)))
    (hnd : l.NodupKeys) (m : GoMap) (k : String) :
    (l.foldl Delete.step m).lookup k
      = match l.dlookup k with
        | some bs => (m.lookup k).map (fun apis => removeSlice apis bs)
        | none => m.lookup k := by
  induction l generalizing m with
  | nil => simp
  | cons e es ih =>
    obtain ⟨hnot, hes⟩ := List.nodupKeys_cons.mp hnd
    rw [List.foldl_cons, ih hes, Delete_step_lookup m e k]
    by_cases hk : k = e.1
    · subst hk
      have h1 : List.dlookup e.1 es = none := List.dlookup_eq_none.mpr hnot
      have h2 : List.dlookup e.1 (e :: es) = some e.2 := by
        obtain ⟨a, b⟩ := e
        exact List.dlookup_cons_eq es a b
      rw [h1, h2]
      simp
    · rw [List.dlookup_cons_ne es e hk]
      simp [hk]

theorem CleanPolicy_fold_lookup (l : List (Sigma (fun _ : String => List String)))
    (hnd : l.NodupKeys) (m : GoMap) (k : String) :
    (l.foldl (fun m e => m.insert e.1 (CleanPolicy.clean e.2)) m).lookup k
      = match l.dlookup k with
        | some apis => some (CleanPolicy.clean apis)
        | none => m.lookup k := by
  induction l generalizing m with
  | nil => simp
  | cons e es ih =>
    obtain ⟨hnot, hes⟩ := List.nodupKeys_cons.mp hnd
    rw [List.foldl_cons, ih hes]
    by_cases hk : k = e.1
    · subst hk
      have h1 : List.dlookup e.1 es = none := List.dlookup_eq_none.mpr hnot
      have h2 : List.dlookup e.1 (e :: es) = some e.2 := by
        obtain ⟨a, b⟩ := e
        exact List.dlookup_cons_eq es a b
      rw [h1, h2]
      simp
    · rw [List.dlookup_cons_ne es e hk]
      simp [AList.lookup_insert_ne hk]

/-- The map of `a.Add(b)`, key by key. -/
theorem Add_lookup (a b : UserPolicy) (k : String) :
    (a.Add b).AuthorizedVols.lookup k
      = match b.AuthorizedVols.lookup k with
        | some bs => some ((a.AuthorizedVols.lookup k).getD [] ++ bs)
        | none => a.AuthorizedVols.lookup k :=
  Add_fold_lookup b.AuthorizedVols b.AuthorizedVols.entries b.AuthorizedVols.nodupKeys
    (fun e he => by
      obtain ⟨x, y⟩ := e
      exact AList.mem_lookup_iff.mpr he) a.AuthorizedVols k

/-- The map of `a.Delete(b)`, key by key. -/
theorem Delete_lookup (a b : UserPolicy) (k : String) :
    (a.Delete b).AuthorizedVols.lookup k
      = match b.AuthorizedVols.lookup k with
        | some bs => (a.AuthorizedVols.lookup k).map (fun apis => removeSlice apis bs)
        | none => a.AuthorizedVols.lookup k :=
  Delete_fold_lookup b.AuthorizedVols.entries b.AuthorizedVols.nodupKeys a.AuthorizedVols k

/-- The map of `CleanPolicy(r)`, key by key. -/
theorem CleanPolicy_lookup (r : UserPolicy) (k : String) :
    (CleanPolicy r).AuthorizedVols.lookup k
      = (r.AuthorizedVols.lookup k).map CleanPolicy.clean := by
  have h := CleanPolicy_fold_lookup r.AuthorizedVols.entries r.AuthorizedVols.nodupKeys
    NewUserPolicy.AuthorizedVols k
  unfold CleanPolicy
  simp only
  rw [h]
  change _ = (List.dlookup k r.AuthorizedVols.entries).map CleanPolicy.clean
  cases List.dlookup k r.AuthorizedVols.entries with
  | none => simp [NewUserPolicy]
  | some v => simp

/-- The result of `Add` depends on the two maps through their lookups only: the
order in which the runtime ranges over `b.AuthorizedVols` does not matter. -/
theorem Add_lookup_congr (a a' b b' : UserPolicy)
    (ha : ∀ k, a.AuthorizedVols.lookup k = a'.AuthorizedVols.lookup k)
    (hb : ∀ k, b.AuthorizedVols.lookup k = b'.AuthorizedVols.lookup k) (k : String) :
    (a.Add b).AuthorizedVols.lookup k = (a'.Add b').AuthorizedVols.lookup k := by
  rw [Add_lookup, Add_lookup, ha, hb]

/-- The result of `Delete` depends on the two maps through their lookups only. -/
theorem Delete_lookup_congr (a a' b b' : UserPolicy)
    (ha : ∀ k, a.AuthorizedVols.lookup k = a'.AuthorizedVols.lookup k)
    (hb : ∀ k, b.AuthorizedVols.lookup k = b'.AuthorizedVols.lookup k) (k : String) :
    (a.Delete b).AuthorizedVols.lookup k = (a'.Delete b').AuthorizedVols.lookup k := by
  rw [Delete_lookup, Delete_lookup, ha, hb]

/-- The result of `CleanPolicy` depends on the map through its lookups only. -/
theorem CleanPolicy_lookup_congr (r r' : UserPolicy)
    (h : ∀ k, r.AuthorizedVols.lookup k = r'.AuthorizedVols.lookup k) (k : String) :
    (CleanPolicy r).AuthorizedVols.lookup k = (CleanPolicy r').AuthorizedVols.lookup k := by
  rw [CleanPolicy_lookup, CleanPolicy_lookup, h]

/-! ## Deduplication -/

theorem CleanPolicy_step_eq (m : SeenMap) (out : List String) (x : String) :
    CleanPolicy.step (m, out) x
      = if x ∈ m then (m, out) else (m.insert x true, out ++ [x]) := by
  unfold CleanPolicy.step
  cases h : m.lookup x with
  | none =>
    have : x ∉ m := AList.lookup_eq_none.mp h
    simp [this]
  | some v =>
    have : x ∈ m := by
      rw [← AList.lookup_isSome, h]; rfl
    simp [this]

theorem CleanPolicy_fold_eq (xs p : List String) (m : SeenMap) (out : List String)
    (hm : ∀ x, x ∈ m ↔ x ∈ p) :
    (xs.foldl CleanPolicy.step (m, out)).2
      = out ++ ((xs.enumFrom p.length).filter
          (fun q => decide (q.2 ∉ (p ++ xs).take q.1))).map Prod.snd := by
  induction xs generalizing p m out with
  | nil => simp
  | cons x xs ih =>
    have e : p ++ x :: xs = (p ++ [x]) ++ xs := by simp
    have hlen : p.length + 1 = (p ++ [x]).length := by simp
    rw [List.foldl_cons, CleanPolicy_step_eq, List.enumFrom_cons, List.filter_cons]
    have htake : (p ++ x :: xs).take p.length = p := by simp
    simp only [htake]
    rw [e, hlen]
    by_cases hx : x ∈ p
    · have hxm : x ∈ m := (hm x).mpr hx
      rw [if_pos hxm]
      have hm' : ∀ y, y ∈ m ↔ y ∈ p ++ [x] := by
        intro y
        rw [hm y]
        simp only [List.mem_append, List.mem_singleton]
        constructor
        · exact Or.inl
        · rintro (h | h)
          · exact h
          · exact h ▸ hx
      rw [ih (p ++ [x]) m out hm']
      simp [hx]
    · have hxm : x ∉ m := fun h => hx ((hm x).mp h)
      rw [if_neg hxm]
      have hm' : ∀ y, y ∈ m.insert x true ↔ y ∈ p ++ [x] := by
        intro y
        rw [AList.mem_insert, hm y]
        simp only [List.mem_append, List.mem_singleton]
        exact or_comm
      rw [ih (p ++ [x]) (m.insert x true) (out ++ [x]) hm']
      simp [hx]

/-- The deduplication loop keeps exactly the first occurrences, in order. -/
theorem CleanPolicy_clean_eq (xs : List String) :
    CleanPolicy.clean xs = firstOccurrences xs := by
  have h := CleanPolicy_fold_eq xs [] ∅ [] (fun x => by simp)
  unfold CleanPolicy.clean firstOccurrences
  rw [h]
  simp [List.enum]

theorem CleanPolicy_fold_seen (xs p : List String) (m : SeenMap) (out : List String)
    (hm : ∀ x, x ∈ m ↔ x ∈ p) :
    ∀ x, x ∈ (xs.foldl CleanPolicy.step (m, out)).1 ↔ x ∈ p ++ xs := by
  induction xs generalizing p m out with
  | nil => simpa using hm
  | cons y ys ih =>
    have e : p ++ y :: ys = (p ++ [y]) ++ ys := by simp
    rw [List.foldl_cons, CleanPolicy_step_eq, e]
    by_cases hy : y ∈ m
    · rw [if_pos hy]
      apply ih
      intro z
      rw [hm z]
      simp only [List.mem_append, List.mem_singleton]
      constructor
      · exact Or.inl
      · rintro (h | h)
        · exact h
        · exact h ▸ (hm y).mp hy
    · rw [if_neg hy]
      apply ih
      intro z
      rw [AList.mem_insert, hm z]
      simp only [List.mem_append, List.mem_singleton]
      exact or_comm

theorem CleanPolicy_clean_concat (ys : List String) (x : String) :
    CleanPolicy.clean (ys ++ [x]) = CleanPolicy.clean ys ++ (if x ∈ ys then [] else [x]) := by
  unfold CleanPolicy.clean
  rw [List.foldl_append, List.foldl_cons, List.foldl_nil]
  have hseen := CleanPolicy_fold_seen ys [] ∅ [] (fun z => by simp) x
  rw [List.nil_append] at hseen
  generalize List.foldl CleanPolicy.step (∅, []) ys = st at hseen
  obtain ⟨m, out⟩ := st
  rw [CleanPolicy_step_eq]
  by_cases hx : x ∈ ys
  · rw [if_pos (hseen.mpr hx), if_pos hx]; simp
  · rw [if_neg (fun h => hx (hseen.mp h)), if_neg hx]

/-- The deduplication loop, through the library's `dedup` (which keeps last
occurrences) on the reversed list. -/
theorem CleanPolicy_clean_eq_dedup (xs : List String) :
    CleanPolicy.clean xs = (xs.reverse.dedup).reverse := by
  induction xs using List.reverseRecOn with
  | nil => rfl
  | append_singleton ys x ih =>
    rw [CleanPolicy_clean_concat, ih, List.reverse_append, List.reverse_singleton,
      List.singleton_append]
    by_cases hx : x ∈ ys
    · rw [if_pos hx, List.dedup_cons_of_mem (List.mem_reverse.mpr hx)]; simp
    · rw [if_neg hx, List.dedup_cons_of_not_mem (fun h => hx (List.mem_reverse.mp h))]; simp

theorem CleanPolicy_clean_nodup (xs : List String) : (CleanPolicy.clean xs).Nodup := by
  rw [CleanPolicy_clean_eq_dedup]
  exact List.nodup_reverse.mpr (List.nodup_dedup _)

theorem CleanPolicy_clean_idem (xs : List String) :
    CleanPolicy.clean (CleanPolicy.clean xs) = CleanPolicy.clean xs := by
  rw [CleanPolicy_clean_eq_dedup (CleanPolicy.clean xs), CleanPolicy_clean_eq_dedup xs,
    List.reverse_reverse, List.dedup_idem]

/-! ## Add followed by Delete -/

theorem removeFirstEach_perm {l₁ l₂ : List String} (h : l₁.Perm l₂) (rm : List String) :
    (removeFirstEach l₁ rm).Perm (removeFirstEach l₂ rm) := by
  unfold removeFirstEach
  induction rm generalizing l₁ l₂ with
  | nil => simpa using h
  | cons e es ih =>
    rw [List.foldl_cons, List.foldl_cons]
    exact ih (h.erase e)

theorem removeFirstEach_append (as bs : List String) :
    (removeFirstEach (as ++ bs) bs).Perm as := by
  induction bs generalizing as with
  | nil => simp [removeFirstEach]
  | cons e es ih =>
    have hmem : e ∈ as ++ e :: es := by simp
    have h1 : (e :: (as ++ e :: es).erase e).Perm (e :: (as ++ es)) :=
      (List.perm_cons_erase hmem).symm.trans List.perm_middle
    have h2 : ((as ++ e :: es).erase e).Perm (as ++ es) := h1.cons_inv
    have h3 : removeFirstEach (as ++ e :: es) (e :: es)
        = removeFirstEach ((as ++ e :: es).erase e) es := by
      simp [removeFirstEach]
    rw [h3]
    exact (removeFirstEach_perm h2 es).trans (ih as)

theorem removeFirstEach_count (s rm : List String) (x : String) :
    (removeFirstEach s rm).count x = s.count x - rm.count x := by
  unfold removeFirstEach
  induction rm generalizing s with
  | nil => simp
  | cons e es ih =>
    rw [List.foldl_cons, ih, List.count_erase, List.count_cons]
    omega

/-! ## The operations, claim by claim -/

/-- C1: after `a.Add(b)`, `a.OwnVols` is the old list followed by `b.OwnVols`
(nothing is deduplicated); a key of both records holds `a`'s old action list
followed by `b`'s; a key of `b` only holds `b`'s list; and a key that `b` does
not have keeps what it had in `a`. -/
theorem C1_Add_appends (a b : UserPolicy) :
    (a.Add b).OwnVols = a.OwnVols ++ b.OwnVols
    ∧ (∀ k as bs, a.AuthorizedVols.lookup k = some as → b.AuthorizedVols.lookup k = some bs →
        (a.Add b).AuthorizedVols.lookup k = some (as ++ bs))
    ∧ (∀ k bs, k ∉ a.AuthorizedVols → b.AuthorizedVols.lookup k = some bs →
        (a.Add b).AuthorizedVols.lookup k = some bs)
    ∧ (∀ k, k ∉ b.AuthorizedVols →
        (a.Add b).AuthorizedVols.lookup k = a.AuthorizedVols.lookup k) := by
  refine ⟨rfl, ?_, ?_, ?_⟩
  · intro k as bs ha hb
    rw [Add_lookup, hb, ha]
    rfl
  · intro k bs ha hb
    rw [Add_lookup, hb, AList.lookup_eq_none.mpr ha]
    rfl
  · intro k hb
    rw [Add_lookup, AList.lookup_eq_none.mpr hb]

/-- C1 at the records `{"vol1": ["read"]}` and `{"vol1": ["write"]}`. -/
theorem C1_Add_appends_witness :
    ((UserPolicy.mk [] (GoMap.single "vol1" ["read"])).Add
      (UserPolicy.mk [] (GoMap.single "vol1" ["write"]))).AuthorizedVols.lookup "vol1"
      = some ["read", "write"] :=
  (C1_Add_appends (UserPolicy.mk [] (GoMap.single "vol1" ["read"]))
    (UserPolicy.mk [] (GoMap.single "vol1" ["write"]))).2.1 "vol1" ["read"] ["write"]
    (by decide) (by decide)

/-- C3: `CleanPolicy(r)` returns a record whose `OwnVols` is `r.OwnVols` with
every element that already occurred earlier dropped, whose mapping has exactly
the keys of `r.AuthorizedVols`, and whose action list for each key is `r`'s list
for that key with every later repeat dropped. -/
theorem C3_CleanPolicy_first_occurrences (r : UserPolicy) :
    (CleanPolicy r).OwnVols = firstOccurrences r.OwnVols
    ∧ (∀ k, k ∈ (CleanPolicy r).AuthorizedVols ↔ k ∈ r.AuthorizedVols)
    ∧ (∀ k apis, r.AuthorizedVols.lookup k = some apis →
        (CleanPolicy r).AuthorizedVols.lookup k = some (firstOccurrences apis)) := by
  refine ⟨CleanPolicy_clean_eq r.OwnVols, ?_, ?_⟩
  · intro k
    rw [← AList.lookup_isSome, ← AList.lookup_isSome, CleanPolicy_lookup]
    cases r.AuthorizedVols.lookup k <;> simp
  · intro k apis h
    rw [CleanPolicy_lookup, h, ← CleanPolicy_clean_eq]
    rfl

/-- C3 at `OwnVols = ["vol1","vol1","vol2"]`. -/
theorem C3_CleanPolicy_first_occurrences_witness :
    (CleanPolicy (UserPolicy.mk ["vol1", "vol1", "vol2"] ∅)).OwnVols = ["vol1", "vol2"] :=
  (C3_CleanPolicy_first_occurrences (UserPolicy.mk ["vol1", "vol1", "vol2"] ∅)).1.trans
    (by decide)

/-- C4: `AddOwnVol(v)` leaves `OwnVols` unchanged when `v` already occurs in it
and otherwise appends `v` at the end, for every string `v`; the mapping is
unchanged in both cases. -/
theorem C4_AddOwnVol_appends_unless_present (r : UserPolicy) (v : String) :
    (r.AddOwnVol v).OwnVols = (if v ∈ r.OwnVols then r.OwnVols else r.OwnVols ++ [v])
    ∧ (r.AddOwnVol v).AuthorizedVols = r.AuthorizedVols := by
  unfold UserPolicy.AddOwnVol
  rw [AddOwnVol_scan_eq]
  by_cases h : v ∈ r.OwnVols <;> simp [h]

/-- C4 at `["vol1"]`: adding `"vol2"` appends it, adding `"vol1"` again changes
nothing, and the empty string is appended like any other name. -/
theorem C4_AddOwnVol_appends_unless_present_witness :
    ((UserPolicy.mk ["vol1"] ∅).AddOwnVol "vol2").OwnVols = ["vol1", "vol2"]
    ∧ (((UserPolicy.mk ["vol1"] ∅).AddOwnVol "vol2").AddOwnVol "vol1").OwnVols
        = ["vol1", "vol2"]
    ∧ ((UserPolicy.mk ["vol1"] ∅).AddOwnVol "").OwnVols = ["vol1", ""] :=
  ⟨(C4_AddOwnVol_appends_unless_present (UserPolicy.mk ["vol1"] ∅) "vol2").1.trans (by decide),
    (C4_AddOwnVol_appends_unless_present
      ((UserPolicy.mk ["vol1"] ∅).AddOwnVol "vol2") "vol1").1.trans (by decide),
    (C4_AddOwnVol_appends_unless_present (UserPolicy.mk ["vol1"] ∅) "").1.trans (by decide)⟩

/-- C5: `RemoveOwnVol(v)` deletes exactly the first occurrence of `v` from
`OwnVols` and keeps all other elements in their order, also when that occurrence
is the last element; when `v` does not occur the list is unchanged. -/
theorem C5_RemoveOwnVol_removes_first (r : UserPolicy) (v : String) :
    (r.RemoveOwnVol v).OwnVols = r.OwnVols.erase v
    ∧ (∀ p q, r.OwnVols = p ++ v :: q → v ∉ p → (r.RemoveOwnVol v).OwnVols = p ++ q)
    ∧ (v ∉ r.OwnVols → (r.RemoveOwnVol v).OwnVols = r.OwnVols)
    ∧ (r.RemoveOwnVol v).AuthorizedVols = r.AuthorizedVols := by
  have h : (r.RemoveOwnVol v).OwnVols = r.OwnVols.erase v := by
    simpa using RemoveOwnVol_loop_eq v r.OwnVols [] (by simp)
  refine ⟨h, ?_, ?_, rfl⟩
  · intro p q hpq hp
    rw [h, hpq, List.erase_append_right _ hp, List.erase_cons_head]
  · intro hv
    rw [h, List.erase_of_not_mem hv]

/-- C5 at `["a","b","a"]` (first of two copies) and at `["a","b"]` (last
element). -/
theorem C5_RemoveOwnVol_removes_first_witness :
    ((UserPolicy.mk ["a", "b", "a"] ∅).RemoveOwnVol "a").OwnVols = ["b", "a"]
    ∧ ((UserPolicy.mk ["a", "b"] ∅).RemoveOwnVol "b").OwnVols = ["a"] :=
  ⟨(C5_RemoveOwnVol_removes_first (UserPolicy.mk ["a", "b", "a"] ∅) "a").2.1 [] ["b", "a"]
      rfl (by simp),
    (C5_RemoveOwnVol_removes_first (UserPolicy.mk ["a", "b"] ∅) "b").2.1 ["a"] []
      rfl (by decide)⟩

/-- C10: `CleanPolicy` is idempotent: `CleanPolicy(CleanPolicy(r))` has the same
`OwnVols` list as `CleanPolicy(r)`, the same keys, and the same action list for
every key. -/
theorem C10_CleanPolicy_idempotent (r : UserPolicy) :
    (CleanPolicy (CleanPolicy r)).OwnVols = (CleanPolicy r).OwnVols
    ∧ (∀ k, k ∈ (CleanPolicy (CleanPolicy r)).AuthorizedVols ↔ k ∈ (CleanPolicy r).AuthorizedVols)
    ∧ (∀ k, (CleanPolicy (CleanPolicy r)).AuthorizedVols.lookup k
        = (CleanPolicy r).AuthorizedVols.lookup k) := by
  have hmap : ∀ k, (CleanPolicy (CleanPolicy r)).AuthorizedVols.lookup k
      = (CleanPolicy r).AuthorizedVols.lookup k := by
    intro k
    rw [CleanPolicy_lookup (CleanPolicy r), CleanPolicy_lookup r]
    cases r.AuthorizedVols.lookup k with
    | none => rfl
    | some v => simp [CleanPolicy_clean_idem]
  refine ⟨CleanPolicy_clean_idem r.OwnVols, ?_, hmap⟩
  intro k
  rw [← AList.lookup_isSome, ← AList.lookup_isSome, hmap k]

/-! ## Sharing of adopted action lists -/

theorem Shared_Add_step_lookup_ne (grow : Nat → Nat → Nat) (addVols : SliceMap)
    (st : SliceMap × Store)
    (e : Sigma (fun _ : String => Slice)) (k : String) (hk : k ≠ e.1) :
    (Shared.Add.step grow addVols st e).1.lookup k = st.1.lookup k := by
  unfold Shared.Add.step
  cases st.1.lookup e.1 with
  | none => exact AList.lookup_insert_ne hk
  | some apis => exact AList.lookup_insert_ne hk

theorem Shared_Add_fold_absent (grow : Nat → Nat → Nat) (addVols : SliceMap)
    (l : List (Sigma (fun _ : String => Slice)))
    (k : String) (hk : k ∉ l.keys) (st : SliceMap × Store) :
    (l.foldl (Shared.Add.step grow addVols) st).1.lookup k = st.1.lookup k := by
  induction l generalizing st with
  | nil => rfl
  | cons e es ih =>
    rw [List.keys_cons, List.mem_cons, not_or] at hk
    rw [List.foldl_cons, ih hk.2, Shared_Add_step_lookup_ne grow addVols st e k hk.1]

theorem Shared_Add_fold_adopts (grow : Nat → Nat → Nat) (addVols : SliceMap)
    (l : List (Sigma (fun _ : String => Slice)))
    (hnd : l.NodupKeys) (k : String) (s : Slice) (hl : l.dlookup k = some s)
    (st : SliceMap × Store) (hst : st.1.lookup k = none) :
    (l.foldl (Shared.Add.step grow addVols) st).1.lookup k = some s := by
  induction l generalizing st with
  | nil => simp at hl
  | cons e es ih =>
    obtain ⟨hnot, hes⟩ := List.nodupKeys_cons.mp hnd
    rw [List.foldl_cons]
    by_cases hk : k = e.1
    · subst hk
      have h2 : List.dlookup e.1 (e :: es) = some e.2 := by
        obtain ⟨x, y⟩ := e
        exact List.dlookup_cons_eq es x y
      rw [h2] at hl
      rw [Shared_Add_fold_absent grow addVols es e.1 hnot]
      unfold Shared.Add.step
      rw [hst]
      simpa using hl
    · rw [List.dlookup_cons_ne es e hk] at hl
      apply ih hes hl
      rw [Shared_Add_step_lookup_ne grow addVols st e k hk]
      exact hst

/-- C6, as stated, fails.  From three records whose lists live in different
arrays: `a.Add(b)` adopts `b`'s list for `"vol1"`; then `a.Delete(c)` removes
`"read"` from `a`'s list in place and `b`'s list for `"vol1"`, which was
`["read","write"]`, reads `["write","write"]`; and `b.Delete(c)` instead of
`a.Delete(c)` is observed through `a` in the same way. -/
theorem C6_adopted_list_is_not_a_copy :
    sharingA.AuthorizedVols.lookup "vol1" = none
    ∧ sharingB.actions (Shared.Add noSpare sharingStore sharingA sharingB).2 "vol1" = ["read", "write"]
    ∧ (Shared.Add noSpare sharingStore sharingA sharingB).1.actions
        (Shared.Add noSpare sharingStore sharingA sharingB).2 "vol1" = ["read", "write"]
    ∧ (Shared.Delete noSpare (Shared.Add noSpare sharingStore sharingA sharingB).2
        (Shared.Add noSpare sharingStore sharingA sharingB).1 sharingC).1.actions
        (Shared.Delete noSpare (Shared.Add noSpare sharingStore sharingA sharingB).2
          (Shared.Add noSpare sharingStore sharingA sharingB).1 sharingC).2 "vol1" = ["write"]
    ∧ sharingB.actions
        (Shared.Delete noSpare (Shared.Add noSpare sharingStore sharingA sharingB).2
          (Shared.Add noSpare sharingStore sharingA sharingB).1 sharingC).2 "vol1" = ["write", "write"]
    ∧ (Shared.Add noSpare sharingStore sharingA sharingB).1.actions
        (Shared.Delete noSpare (Shared.Add noSpare sharingStore sharingA sharingB).2
          sharingB sharingC).2 "vol1" = ["write", "write"] := by
  decide

/-- C6, amended: when `a.Add(b)` adopts the list of a key `k` of `b` that is
not a key of `a`, the entry of `a` for `k` is the very slice header of `b`'s
entry (same backing array, offset, length and capacity): nothing is copied, and
the two records share the cells of that list. -/
theorem C6_Add_adopts_the_same_slice (grow : Nat → Nat → Nat) (h : Store) (a b : SharedPolicy)
    (k : String) (s : Slice)
    (ha : k ∉ a.AuthorizedVols) (hb : b.AuthorizedVols.lookup k = some s) :
    (Shared.Add grow h a b).1.AuthorizedVols.lookup k = some s :=
  Shared_Add_fold_adopts grow b.AuthorizedVols b.AuthorizedVols.entries b.AuthorizedVols.nodupKeys
    k s hb _ (AList.lookup_eq_none.mpr ha)

/-- C6 amended, at the sharing scenario: after `a.Add(b)` the entry of `a` for
`"vol1"` is the slice of `b` in array 0. -/
theorem C6_Add_adopts_the_same_slice_witness :
    (Shared.Add noSpare sharingStore sharingA sharingB).1.AuthorizedVols.lookup "vol1"
      = some { arr := 0, off := 0, len := 2, cap := 2 } :=
  C6_Add_adopts_the_same_slice noSpare sharingStore sharingA sharingB "vol1"
    { arr := 0, off := 0, len := 2, cap := 2 } (by decide) (by decide)

/-! ## The store model refines the value model

On slices that fit the store and do not share a backing array, the two places
where the code writes to a backing array, `append` and the in-place shift of
`removeSlice`, compute on the elements what the value model computes on lists.
-/

theorem Store_read_length (h : Store) (s : Slice) (hs : s.inStore h) :
    (h.read s).length = s.len := by
  unfold Store.read
  rw [List.length_take, List.length_drop]
  obtain ⟨_, h2, h3⟩ := hs
  omega

theorem Store_cell_eq (h : Store) (s : Slice) (i : Nat) (hi : i < s.len) :
    h.cell s.arr (s.off + i) = (h.read s).getD i "" := by
  simp only [Store.cell, Store.read, List.getD_eq_getElem?_getD, List.getElem?_take_of_lt hi,
    List.getElem?_drop]

theorem Store_write_length (h : Store) (arr pos : Nat) (vals : List String) :
    (h.write arr pos vals).length = h.length := by
  simp [Store.write]

theorem Store_write_getD_ne (h : Store) (arr pos : Nat) (vals : List String) (arr' : Nat)
    (hne : arr' ≠ arr) : (h.write arr pos vals).getD arr' [] = h.getD arr' [] := by
  simp only [Store.write, List.getD_eq_getElem?_getD]
  rw [List.getElem?_set_ne (Ne.symm hne)]

theorem Store_write_getD_eq (h : Store) (arr pos : Nat) (vals : List String)
    (harr : arr < h.length) :
    (h.write arr pos vals).getD arr []
      = (h.getD arr []).take pos ++ vals ++ (h.getD arr []).drop (pos + vals.length) := by
  simp only [Store.write, List.getD_eq_getElem?_getD]
  rw [List.getElem?_set_self harr]
  rfl

theorem shift_list (A : List String) (off len i : Nat) (hb : off + len ≤ A.length)
    (hi : i < len) :
    ((A.take (off + i) ++ (A.drop (off + (i + 1))).take (len - (i + 1))
        ++ A.drop (off + i + ((A.drop (off + (i + 1))).take (len - (i + 1))).length)).drop
        off).take (len - 1)
      = ((A.drop off).take len).take i ++ ((A.drop off).take len).drop (i + 1) := by
  apply List.ext_getElem?
  intro t
  have hE : ((A.drop (off + (i + 1))).take (len - (i + 1))).length = len - (i + 1) := by
    rw [List.length_take, List.length_drop]; omega
  have hX : (A.take (off + i)).length = off + i := by
    rw [List.length_take]; omega
  rw [hE]
  by_cases h1 : t < len - 1
  · rw [List.getElem?_take_of_lt h1, List.getElem?_drop]
    by_cases h2 : t < i
    · rw [List.append_assoc, List.getElem?_append_left (by omega),
        List.getElem?_take_of_lt (by omega)]
      rw [List.getElem?_append_left
        (by rw [List.length_take, List.length_take, List.length_drop]; omega)]
      rw [List.getElem?_take_of_lt h2, List.getElem?_take_of_lt (by omega), List.getElem?_drop]
    · rw [List.getElem?_append_left (by rw [List.length_append, hX, hE]; omega),
        List.getElem?_append_right (by omega), hX]
      rw [List.getElem?_take_of_lt (by omega), List.getElem?_drop]
      rw [List.getElem?_append_right
        (by rw [List.length_take, List.length_take, List.length_drop]; omega)]
      rw [List.length_take, List.length_take, List.length_drop, List.getElem?_drop,
        List.getElem?_take_of_lt (by omega), List.getElem?_drop]
      congr 1
      omega
  · rw [List.getElem?_eq_none (by rw [List.length_take]; omega)]
    rw [List.getElem?_eq_none]
    rw [List.length_append, List.length_take, List.length_take, List.length_drop,
      List.length_drop, List.length_take, List.length_drop]
    omega

theorem Store_append_shift (grow : Nat → Nat → Nat) (h : Store) (s : Slice) (hs : s.inStore h)
    (i : Nat)
    (hi : i < s.len) :
    h.append grow (s.upTo i) (h.read (s.fromIdx (i + 1)))
      = ({ s with len := s.len - 1 },
          h.write s.arr (s.off + i) (h.read (s.fromIdx (i + 1)))) := by
  obtain ⟨h1, h2, h3⟩ := hs
  have hlen : (h.read (s.fromIdx (i + 1))).length = s.len - (i + 1) := by
    simp only [Store.read, Slice.fromIdx]
    rw [List.length_take, List.length_drop]; omega
  unfold Store.append
  rw [hlen]
  simp only [Slice.upTo]
  rw [if_pos (by omega)]
  have : i + (s.len - (i + 1)) = s.len - 1 := by omega
  rw [this]

theorem Store_shift_read (h : Store) (s : Slice) (hs : s.inStore h) (i : Nat)
    (hi : i < s.len) :
    (h.write s.arr (s.off + i) (h.read (s.fromIdx (i + 1)))).read { s with len := s.len - 1 }
      = (h.read s).take i ++ (h.read s).drop (i + 1) := by
  obtain ⟨h1, h2, h3⟩ := hs
  simp only [Store.read]
  rw [Store_write_getD_eq h s.arr _ _ h1]
  simp only [Store.read, Slice.fromIdx]
  exact shift_list (h.getD s.arr []) s.off s.len i (by omega) hi

theorem Store_sameExcept_refl (h : Store) (arr : Nat) : h.sameExcept h arr :=
  ⟨rfl, rfl, fun _ _ => rfl⟩

theorem Store_sameExcept_trans {h₁ h₂ h₃ : Store} {arr : Nat} (h12 : h₁.sameExcept h₂ arr)
    (h23 : h₂.sameExcept h₃ arr) : h₁.sameExcept h₃ arr :=
  ⟨h23.1.trans h12.1, h23.2.1.trans h12.2.1,
    fun arr' hne => (h23.2.2 arr' hne).trans (h12.2.2 arr' hne)⟩

theorem Store_sameExcept_write (h : Store) (arr pos : Nat) (vals : List String)
    (harr : arr < h.length) (hpos : pos + vals.length ≤ (h.getD arr []).length) :
    h.sameExcept (h.write arr pos vals) arr := by
  refine ⟨Store_write_length h arr pos vals, ?_, fun arr' hne =>
    Store_write_getD_ne h arr pos vals arr' hne⟩
  rw [Store_write_getD_eq h arr pos vals harr]
  simp only [List.length_append, List.length_take, List.length_drop]
  omega

theorem Store_sameExcept_read {h h' : Store} {arr : Nat} (hh : h.sameExcept h' arr)
    (s : Slice) (hne : s.arr ≠ arr) : h'.read s = h.read s := by
  simp only [Store.read, hh.2.2 s.arr hne]

theorem Store_sameExcept_inStore {h h' : Store} {arr : Nat} (hh : h.sameExcept h' arr)
    (s : Slice) (hs : s.inStore h) : s.inStore h' := by
  obtain ⟨h1, h2, h3⟩ := hs
  refine ⟨hh.1 ▸ h1, h2, ?_⟩
  by_cases hne : s.arr = arr
  · rw [hne, hh.2.1, ← hne]; exact h3
  · rw [hh.2.2 s.arr hne]; exact h3

/-- The inner loop of `removeSlice` in the store model computes, on the elements
of `s`, what the inner loop of the value model computes, and touches no array
but the one of `s`. -/
theorem Shared_scan_refines (grow : Nat → Nat → Nat) (h : Store) (s : Slice) (elem : String)
    (hs : s.inStore h) :
    ∀ n i, i + n = s.len →
      (Shared.removeSlice.scan grow h s elem n i).1.inStore (Shared.removeSlice.scan grow h s elem n i).2
      ∧ (Shared.removeSlice.scan grow h s elem n i).1.arr = s.arr
      ∧ (Shared.removeSlice.scan grow h s elem n i).2.read (Shared.removeSlice.scan grow h s elem n i).1
          = removeSlice.scan (h.read s) elem i ((h.read s).drop i)
      ∧ h.sameExcept (Shared.removeSlice.scan grow h s elem n i).2 s.arr := by
  intro n
  induction n with
  | zero =>
    intro i hi
    have hdrop : (h.read s).drop i = [] := by
      apply List.drop_eq_nil_of_le
      rw [Store_read_length h s hs]; omega
    rw [hdrop]
    exact ⟨hs, rfl, rfl, Store_sameExcept_refl h s.arr⟩
  | succ n ih =>
    intro i hi
    have hlt : i < s.len := by omega
    have hlt' : i < (h.read s).length := by rw [Store_read_length h s hs]; exact hlt
    have hdrop : (h.read s).drop i = (h.read s)[i] :: (h.read s).drop (i + 1) :=
      List.drop_eq_getElem_cons hlt'
    have hcell : h.cell s.arr (s.off + i) = (h.read s)[i] := by
      rw [Store_cell_eq h s i hlt, List.getD_eq_getElem _ _ hlt']
    rw [hdrop]
    unfold Shared.removeSlice.scan removeSlice.scan
    rw [hcell]
    by_cases hm : (h.read s)[i] = elem
    · rw [if_pos hm, if_pos hm, Store_append_shift grow h s hs i hlt]
      obtain ⟨h1, h2, h3⟩ := hs
      have hwl : (h.read (s.fromIdx (i + 1))).length = s.len - (i + 1) := by
        simp only [Store.read, Slice.fromIdx]
        rw [List.length_take, List.length_drop]; omega
      have hframe := Store_sameExcept_write h s.arr (s.off + i) (h.read (s.fromIdx (i + 1))) h1
        (by rw [hwl]; omega)
      refine ⟨?_, rfl, Store_shift_read h s ⟨h1, h2, h3⟩ i hlt, hframe⟩
      have := Store_sameExcept_inStore hframe s ⟨h1, h2, h3⟩
      exact ⟨this.1, by simp only; omega, this.2.2⟩
    · rw [if_neg hm, if_neg hm]
      exact ih (i + 1) (by omega)

/-- The outer loop of `removeSlice` in the store model, when the removal slice
`rm` lives in another array than `s`. -/
theorem Shared_loop_refines (grow : Nat → Nat → Nat) (rm : Slice) :
    ∀ n j (st : Slice × Store), j + n = rm.len → st.1.inStore st.2 → rm.inStore st.2 →
      st.1.arr ≠ rm.arr →
      (Shared.removeSlice.loop grow rm n j st).2.read (Shared.removeSlice.loop grow rm n j st).1
          = ((st.2.read rm).drop j).foldl (fun acc e => removeSlice.scan acc e 0 acc)
              (st.2.read st.1)
      ∧ st.2.sameExcept (Shared.removeSlice.loop grow rm n j st).2 st.1.arr := by
  intro n
  induction n with
  | zero =>
    intro j st hj _ hrm _
    have hdrop : (st.2.read rm).drop j = [] := by
      apply List.drop_eq_nil_of_le
      rw [Store_read_length st.2 rm hrm]; omega
    rw [hdrop]
    exact ⟨rfl, Store_sameExcept_refl st.2 st.1.arr⟩
  | succ n ih =>
    intro j st hj hs hrm hne
    have hlt : j < rm.len := by omega
    have hlt' : j < (st.2.read rm).length := by rw [Store_read_length st.2 rm hrm]; exact hlt
    have hdrop : (st.2.read rm).drop j = (st.2.read rm)[j] :: (st.2.read rm).drop (j + 1) :=
      List.drop_eq_getElem_cons hlt'
    have hcell : st.2.cell rm.arr (rm.off + j) = (st.2.read rm)[j] := by
      rw [Store_cell_eq st.2 rm j hlt, List.getD_eq_getElem _ _ hlt']
    obtain ⟨w1, w2, w3, w4⟩ :=
      Shared_scan_refines grow st.2 st.1 (st.2.cell rm.arr (rm.off + j)) hs st.1.len 0 (by omega)
    have hrm' := Store_sameExcept_inStore w4 rm hrm
    have hread : (Shared.removeSlice.scan grow st.2 st.1 (st.2.cell rm.arr (rm.off + j))
        st.1.len 0).2.read rm = st.2.read rm :=
      Store_sameExcept_read w4 rm (Ne.symm hne)
    obtain ⟨r1, r2⟩ := ih (j + 1) _ (by omega) w1 hrm' (by rw [w2]; exact hne)
    unfold Shared.removeSlice.loop
    rw [w2] at r2
    refine ⟨?_, Store_sameExcept_trans w4 r2⟩
    rw [hdrop, List.foldl_cons, r1, hread, w3, hcell, List.drop_zero]

/-- The store model of `removeSlice` refines the value model: when `s` and the
removal slice `rm` fit the store and live in different backing arrays, the
elements of the returned slice are `removeSlice` of the elements of `s` and of
`rm`, and the elements of `rm` are unchanged. -/
theorem Shared_removeSlice_refines (grow : Nat → Nat → Nat) (h : Store) (s rm : Slice)
    (hs : s.inStore h)
    (hrm : rm.inStore h) (hne : s.arr ≠ rm.arr) :
    (Shared.removeSlice grow h s rm).2.read (Shared.removeSlice grow h s rm).1
        = removeSlice (h.read s) (h.read rm)
    ∧ (Shared.removeSlice grow h s rm).2.read rm = h.read rm := by
  unfold Shared.removeSlice removeSlice
  rw [Store_read_length h s hs]
  by_cases h0 : s.len = 0
  · rw [if_pos h0, if_pos h0]
    exact ⟨rfl, rfl⟩
  · rw [if_neg h0, if_neg h0]
    obtain ⟨r1, r2⟩ := Shared_loop_refines grow rm rm.len 0 (s, h) (by omega) hs hrm hne
    refine ⟨?_, Store_sameExcept_read r2 rm (Ne.symm hne)⟩
    rw [r1, List.drop_zero]

theorem append_list (A : List String) (off len : Nat) (elems : List String)
    (hb : off + len ≤ A.length) :
    ((A.take (off + len) ++ elems ++ A.drop (off + len + elems.length)).drop off).take
        (len + elems.length)
      = (A.drop off).take len ++ elems := by
  have hA : A.take (off + len) = A.take off ++ (A.drop off).take len := List.take_add _ _ _
  have hl1 : (A.take off).length = off := by rw [List.length_take]; omega
  have hl2 : ((A.drop off).take len ++ elems).length = len + elems.length := by
    rw [List.length_append, List.length_take, List.length_drop]; omega
  rw [hA, List.append_assoc, List.append_assoc, List.drop_left' hl1, ← List.append_assoc,
    List.take_left' hl2]

/-- The builtin `append` in the store model refines list concatenation: the
elements of the returned slice are the elements of `s` followed by `elems`,
whether the values are written in place or into a new array. -/
theorem Store_append_refines (grow : Nat → Nat → Nat) (h : Store) (s : Slice) (elems : List String)
    (hs : s.inStore h) :
    (h.append grow s elems).2.read (h.append grow s elems).1 = h.read s ++ elems := by
  obtain ⟨h1, h2, h3⟩ := hs
  have hWl : (h.read s).length = s.len := Store_read_length h s ⟨h1, h2, h3⟩
  unfold Store.append
  by_cases hfit : s.len + elems.length ≤ s.cap
  · rw [if_pos hfit]
    simp only [Store.read]
    rw [Store_write_getD_eq h s.arr _ _ h1]
    exact append_list (h.getD s.arr []) s.off s.len elems (by omega)
  · rw [if_neg hfit]
    have hnew : ∀ a : List String, (h ++ [a]).getD h.length [] = a := by
      intro a
      rw [List.getD_eq_getElem?_getD, List.getElem?_append_right (le_refl _)]
      simp
    show ((List.getD (h ++ [h.read s ++ elems
        ++ List.replicate (grow s.cap (s.len + elems.length)) ""]) h.length []).drop 0).take
      (s.len + elems.length) = h.read s ++ elems
    rw [hnew, List.drop_zero, List.take_left' (by rw [List.length_append, hWl])]

/-! ## Duplicates and set difference -/

theorem removeFirstEach_sublist (s rm : List String) : (removeFirstEach s rm).Sublist s := by
  unfold removeFirstEach
  induction rm generalizing s with
  | nil => exact List.Sublist.refl s
  | cons e es ih =>
    rw [List.foldl_cons]
    exact (ih (s.erase e)).trans (List.erase_sublist e s)

theorem removeFirstEach_of_not_mem (s rm : List String) (h : ∀ x ∈ rm, x ∉ s) :
    removeFirstEach s rm = s := by
  unfold removeFirstEach
  induction rm with
  | nil => rfl
  | cons e es ih =>
    rw [List.foldl_cons, List.erase_of_not_mem (h e (List.mem_cons_self _ _))]
    exact ih (fun x hx => h x (List.mem_cons_of_mem _ hx))

theorem removeFirstEach_nodup_not_mem (s rm : List String) (hs : s.Nodup) :
    ∀ x ∈ rm, x ∉ removeFirstEach s rm := by
  intro x hx hmem
  have hc := removeFirstEach_count s rm x
  have h1 : 0 < (removeFirstEach s rm).count x := List.count_pos_iff.mpr hmem
  have h2 : s.count x ≤ 1 := List.nodup_iff_count_le_one.mp hs x
  have h3 : 0 < rm.count x := List.count_pos_iff.mpr hx
  omega

theorem AddOwnVol_OwnVols (r : UserPolicy) (v : String) :
    (r.AddOwnVol v).OwnVols = if v ∈ r.OwnVols then r.OwnVols else r.OwnVols ++ [v] := by
  unfold UserPolicy.AddOwnVol
  rw [AddOwnVol_scan_eq]
  by_cases h : v ∈ r.OwnVols <;> simp [h]

theorem AddOwnVol_mem (r : UserPolicy) (v : String) : v ∈ (r.AddOwnVol v).OwnVols := by
  rw [AddOwnVol_OwnVols]
  by_cases h : v ∈ r.OwnVols <;> simp [h]

theorem AddOwnVol_count (r : UserPolicy) (v : String) :
    (r.AddOwnVol v).OwnVols.count v = max 1 (r.OwnVols.count v) := by
  rw [AddOwnVol_OwnVols]
  by_cases h : v ∈ r.OwnVols
  · rw [if_pos h]
    have : 0 < r.OwnVols.count v := List.count_pos_iff.mpr h
    omega
  · rw [if_neg h, List.count_append, List.count_eq_zero_of_not_mem h]
    simp

theorem RemoveOwnVol_OwnVols (r : UserPolicy) (v : String) :
    (r.RemoveOwnVol v).OwnVols = r.OwnVols.erase v := by
  simpa using RemoveOwnVol_loop_eq v r.OwnVols [] (by simp)

/-- C11, as stated, fails: on the record with `OwnVols = ["vol1","vol1"]` two
calls of `AddOwnVol("vol1")` leave two occurrences of `"vol1"`, not one. -/
theorem C11_AddOwnVol_twice_keeps_old_duplicates :
    (((UserPolicy.mk ["vol1", "vol1"] ∅).AddOwnVol "vol1").AddOwnVol "vol1").OwnVols
        = ["vol1", "vol1"]
    ∧ (((UserPolicy.mk ["vol1", "vol1"] ∅).AddOwnVol "vol1").AddOwnVol "vol1").OwnVols.count
        "vol1" ≠ 1 := by
  decide

/-- C11, amended: for every volume `v` and every record `r` whose `OwnVols`
holds `v` at most once (every duplicate-free record in particular), calling
`AddOwnVol(v)` twice in sequence leaves exactly one occurrence of `v`; the
second call changes nothing. -/
theorem C11_AddOwnVol_twice_one_occurrence (r : UserPolicy) (v : String)
    (h : r.OwnVols.count v ≤ 1) :
    ((r.AddOwnVol v).AddOwnVol v).OwnVols.count v = 1
    ∧ ((r.AddOwnVol v).AddOwnVol v).OwnVols = (r.AddOwnVol v).OwnVols := by
  have h2 : ((r.AddOwnVol v).AddOwnVol v).OwnVols = (r.AddOwnVol v).OwnVols := by
    rw [AddOwnVol_OwnVols (r.AddOwnVol v), if_pos (AddOwnVol_mem r v)]
  refine ⟨?_, h2⟩
  rw [h2, AddOwnVol_count]
  omega

/-- C11 amended, at `OwnVols = ["vol1"]` and the new volume `"vol2"`. -/
theorem C11_AddOwnVol_twice_one_occurrence_witness :
    (((UserPolicy.mk ["vol1"] ∅).AddOwnVol "vol2").AddOwnVol "vol2").OwnVols.count "vol2" = 1
    ∧ (((UserPolicy.mk ["vol1"] ∅).AddOwnVol "vol2").AddOwnVol "vol2").OwnVols
      = ((UserPolicy.mk ["vol1"] ∅).AddOwnVol "vol2").OwnVols :=
  C11_AddOwnVol_twice_one_occurrence (UserPolicy.mk ["vol1"] ∅) "vol2" (by decide)

/-- C12: `Delete` never removes a volume key: the key set of `a.AuthorizedVols`
after `a.Delete(b)` is the key set before, and a key all of whose actions were
removed stays in the mapping with an empty action list. -/
theorem C12_Delete_keeps_keys (a b : UserPolicy) :
    (∀ k, k ∈ (a.Delete b).AuthorizedVols ↔ k ∈ a.AuthorizedVols)
    ∧ (∀ k as bs, a.AuthorizedVols.lookup k = some as → b.AuthorizedVols.lookup k = some bs →
        (∀ x, as.count x ≤ bs.count x) → (a.Delete b).AuthorizedVols.lookup k = some []) := by
  constructor
  · intro k
    rw [← AList.lookup_isSome, ← AList.lookup_isSome, Delete_lookup]
    cases b.AuthorizedVols.lookup k <;> cases a.AuthorizedVols.lookup k <;> simp
  · intro k as bs ha hb hall
    rw [Delete_lookup, hb, ha]
    show some (removeSlice as bs) = some []
    rw [removeSlice_eq]
    have hnil : removeFirstEach as bs = [] := by
      apply List.eq_nil_iff_forall_not_mem.mpr
      intro x hx
      have h1 : 0 < (removeFirstEach as bs).count x := List.count_pos_iff.mpr hx
      have h2 := removeFirstEach_count as bs x
      have h3 := hall x
      omega
    rw [hnil]

/-- C12 at `a = {"vol1": ["read"]}`, `b = {"vol1": ["read"]}`: the key stays,
with an empty list. -/
theorem C12_Delete_keeps_keys_witness :
    ((UserPolicy.mk [] (GoMap.single "vol1" ["read"])).Delete
      (UserPolicy.mk [] (GoMap.single "vol1" ["read"]))).AuthorizedVols.lookup "vol1" = some [] :=
  (C12_Delete_keeps_keys (UserPolicy.mk [] (GoMap.single "vol1" ["read"]))
    (UserPolicy.mk [] (GoMap.single "vol1" ["read"]))).2 "vol1" ["read"] ["read"]
    (by decide) (by decide) (fun _ => le_refl _)

/-- C13: revoking what was never held is a silent no-op: when no entry of
`b.OwnVols` occurs in `a.OwnVols` and, for every key `k` of `b`, either `k` is
not a key of `a` or no action of `b`'s list for `k` occurs in `a`'s list for
`k`, then `a.Delete(b)` leaves `a.OwnVols` and every entry of
`a.AuthorizedVols` unchanged and creates no key. -/
theorem C13_Delete_of_absent_is_noop (a b : UserPolicy)
    (hown : ∀ x ∈ b.OwnVols, x ∉ a.OwnVols)
    (hmap : ∀ k bs, b.AuthorizedVols.lookup k = some bs →
      k ∉ a.AuthorizedVols ∨ ∀ as, a.AuthorizedVols.lookup k = some as → ∀ x ∈ bs, x ∉ as) :
    (a.Delete b).OwnVols = a.OwnVols
    ∧ (∀ k, (a.Delete b).AuthorizedVols.lookup k = a.AuthorizedVols.lookup k)
    ∧ (∀ k, k ∈ (a.Delete b).AuthorizedVols ↔ k ∈ a.AuthorizedVols) := by
  have hlook : ∀ k, (a.Delete b).AuthorizedVols.lookup k = a.AuthorizedVols.lookup k := by
    intro k
    rw [Delete_lookup]
    cases hb : b.AuthorizedVols.lookup k with
    | none => rfl
    | some bs =>
      cases ha : a.AuthorizedVols.lookup k with
      | none => rfl
      | some as =>
        show some (removeSlice as bs) = some as
        rcases hmap k bs hb with hk | hk
        · exact absurd ha (by rw [AList.lookup_eq_none.mpr hk]; simp)
        · rw [removeSlice_eq, removeFirstEach_of_not_mem as bs (hk as ha)]
  refine ⟨?_, hlook, ?_⟩
  · show removeSlice a.OwnVols b.OwnVols = a.OwnVols
    rw [removeSlice_eq, removeFirstEach_of_not_mem a.OwnVols b.OwnVols hown]
  · intro k
    rw [← AList.lookup_isSome, ← AList.lookup_isSome, hlook k]

/-- C13 at `a = {OwnVols: ["vol1"], "vol1": ["read"]}` and
`b = {OwnVols: ["vol2"], "vol1": ["write"]}`. -/
theorem C13_Delete_of_absent_is_noop_witness :
    ((UserPolicy.mk ["vol1"] (GoMap.single "vol1" ["read"])).Delete
      (UserPolicy.mk ["vol2"] (GoMap.single "vol1" ["write"]))).OwnVols = ["vol1"]
    ∧ ((UserPolicy.mk ["vol1"] (GoMap.single "vol1" ["read"])).Delete
      (UserPolicy.mk ["vol2"] (GoMap.single "vol1" ["write"]))).AuthorizedVols.lookup "vol1"
        = some ["read"] :=
  have h := C13_Delete_of_absent_is_noop (UserPolicy.mk ["vol1"] (GoMap.single "vol1" ["read"]))
    (UserPolicy.mk ["vol2"] (GoMap.single "vol1" ["write"]))
    (by decide)
    (by
      intro k bs hb
      right
      intro as ha x hx hx'
      by_cases hk : k = "vol1"
      · subst hk
        have e1 : bs = ["write"] := (Option.some.inj hb).symm
        have e2 : as = ["read"] := (Option.some.inj ha).symm
        subst e1 e2
        simp only [List.mem_singleton] at hx hx'
        rw [hx] at hx'
        exact absurd hx' (by decide)
      · have : AList.lookup k (GoMap.single "vol1" ["write"]) = none := by
          unfold GoMap.single
          rw [AList.lookup_insert_ne hk]
          rfl
        rw [this] at hb
        exact absurd hb (by simp))
  ⟨h.1, h.2.1 "vol1"⟩

/-- C14: the output of `CleanPolicy` satisfies the record invariants for every
input record: its `OwnVols` has no duplicate volume name and the action list of
every key has no duplicate action name. -/
theorem C14_CleanPolicy_output_nodup (r : UserPolicy) :
    (CleanPolicy r).OwnVols.Nodup
    ∧ (∀ k apis, (CleanPolicy r).AuthorizedVols.lookup k = some apis → apis.Nodup) := by
  refine ⟨CleanPolicy_clean_nodup r.OwnVols, ?_⟩
  intro k apis h
  rw [CleanPolicy_lookup] at h
  cases hr : r.AuthorizedVols.lookup k with
  | none => rw [hr] at h; simp at h
  | some v =>
    rw [hr] at h
    have : CleanPolicy.clean v = apis := Option.some.inj h
    rw [← this]
    exact CleanPolicy_clean_nodup v

/-- C14 at the record `{OwnVols: ["vol1","vol1"], "vol1": ["read","read"]}`. -/
theorem C14_CleanPolicy_output_nodup_witness :
    (CleanPolicy (UserPolicy.mk ["vol1", "vol1"]
      (GoMap.single "vol1" ["read", "read"]))).OwnVols.Nodup
    ∧ (["read"] : List String).Nodup :=
  ⟨(C14_CleanPolicy_output_nodup (UserPolicy.mk ["vol1", "vol1"]
      (GoMap.single "vol1" ["read", "read"]))).1,
    (C14_CleanPolicy_output_nodup (UserPolicy.mk ["vol1", "vol1"]
      (GoMap.single "vol1" ["read", "read"]))).2 "vol1" ["read"] (by decide)⟩

/-- C18: duplicate-freedom is preserved by every operation except `Add`: when
`r.OwnVols` has no duplicates it has none after `AddOwnVol(v)`, after
`RemoveOwnVol(v)` and after `r.Delete(b)`; when every action list of `r` has no
duplicates the same holds after `r.Delete(b)`; and `Add` can introduce a
duplicate into duplicate-free records. -/
theorem C18_nodup_preserved_except_Add (r : UserPolicy) :
    (r.OwnVols.Nodup → ∀ v, (r.AddOwnVol v).OwnVols.Nodup)
    ∧ (r.OwnVols.Nodup → ∀ v, (r.RemoveOwnVol v).OwnVols.Nodup)
    ∧ (r.OwnVols.Nodup → ∀ b, (r.Delete b).OwnVols.Nodup)
    ∧ ((∀ k as, r.AuthorizedVols.lookup k = some as → as.Nodup) →
        ∀ b k l, (r.Delete b).AuthorizedVols.lookup k = some l → l.Nodup)
    ∧ (∃ a b : UserPolicy, a.OwnVols.Nodup ∧ b.OwnVols.Nodup ∧ ¬ (a.Add b).OwnVols.Nodup) := by
  refine ⟨?_, ?_, ?_, ?_, ?_⟩
  · intro h v
    rw [AddOwnVol_OwnVols]
    by_cases hv : v ∈ r.OwnVols
    · rw [if_pos hv]; exact h
    · rw [if_neg hv]
      exact List.Nodup.append h (List.nodup_singleton v)
        (by
          intro x hx hx'
          rw [List.mem_singleton] at hx'
          exact hv (hx' ▸ hx))
  · intro h v
    rw [RemoveOwnVol_OwnVols]
    exact h.sublist (List.erase_sublist v r.OwnVols)
  · intro h b
    show (removeSlice r.OwnVols b.OwnVols).Nodup
    rw [removeSlice_eq]
    exact h.sublist (removeFirstEach_sublist r.OwnVols b.OwnVols)
  · intro h b k l hl
    rw [Delete_lookup] at hl
    cases hb : b.AuthorizedVols.lookup k with
    | none =>
      rw [hb] at hl
      exact h k l hl
    | some bs =>
      rw [hb] at hl
      cases hr : r.AuthorizedVols.lookup k with
      | none => rw [hr] at hl; simp at hl
      | some as =>
        rw [hr] at hl
        have e : removeSlice as bs = l := Option.some.inj hl
        rw [← e, removeSlice_eq]
        exact (h k as hr).sublist (removeFirstEach_sublist as bs)
  · exact ⟨UserPolicy.mk ["vol1"] ∅, UserPolicy.mk ["vol1"] ∅, by decide, by decide, by decide⟩

/-- C18 at `OwnVols = ["vol1","vol2"]`: adding `"vol3"`, removing `"vol1"` and
deleting `{OwnVols: ["vol2"]}` all leave a duplicate-free list. -/
theorem C18_nodup_preserved_except_Add_witness :
    ((UserPolicy.mk ["vol1", "vol2"] ∅).AddOwnVol "vol3").OwnVols.Nodup
    ∧ ((UserPolicy.mk ["vol1", "vol2"] ∅).RemoveOwnVol "vol1").OwnVols.Nodup
    ∧ ((UserPolicy.mk ["vol1", "vol2"] ∅).Delete (UserPolicy.mk ["vol2"] ∅)).OwnVols.Nodup :=
  ⟨(C18_nodup_preserved_except_Add (UserPolicy.mk ["vol1", "vol2"] ∅)).1 (by decide) "vol3",
    (C18_nodup_preserved_except_Add (UserPolicy.mk ["vol1", "vol2"] ∅)).2.1 (by decide) "vol1",
    (C18_nodup_preserved_except_Add (UserPolicy.mk ["vol1", "vol2"] ∅)).2.2.1 (by decide)
      (UserPolicy.mk ["vol2"] ∅)⟩

/-! ## User roles -/

/-- C20: the role name conversion round-trips: for every `UserType` value `u`
(all 256 bytes), `UserTypeFromString(u.String())` is `u` when `u.Valid()` and
`UserTypeInvalid` otherwise; and for every string `s`,
`UserTypeFromString(s).Valid()` holds exactly when `s` is one of `"root"`,
`"admin"`, `"normal"`. -/
theorem C20_UserType_roundtrip :
    (∀ u : UserType, UserTypeFromString (UserType.String u)
        = if UserType.Valid u = true then u else UserTypeInvalid)
    ∧ (∀ s : String, UserType.Valid (UserTypeFromString s) = true
        ↔ (s = "root" ∨ s = "admin" ∨ s = "normal")) := by
  constructor
  · intro u
    unfold UserType.String UserType.Valid
    by_cases h1 : u = UserTypeRoot
    · subst h1; decide
    · by_cases h2 : u = UserTypeAdmin
      · subst h2; decide
      · by_cases h3 : u = UserTypeNormal
        · subst h3; decide
        · simp only [h1, h2, h3, if_false, or_self]
          rfl
  · intro s
    unfold UserTypeFromString
    by_cases h1 : s = "root"
    · subst h1; decide
    · by_cases h2 : s = "admin"
      · subst h2; decide
      · by_cases h3 : s = "normal"
        · subst h3; decide
        · simp only [h1, h2, h3, if_false, or_self, iff_false]
          decide

/-! ## Totality: slice bounds -/

theorem boundedUpTo_of_le (s : List String) (i : Nat) (h : i ≤ s.length) :
    boundedUpTo s i = some (s.take i) := by
  unfold boundedUpTo
  rw [if_pos h]

theorem boundedFrom_of_le (s : List String) (i : Nat) (h : i ≤ s.length) :
    boundedFrom s i = some (s.drop i) := by
  unfold boundedFrom
  rw [if_pos h]

theorem RemoveOwnVol_loopBounded_eq (volume : String) (rest pre : List String) :
    RemoveOwnVol.loopBounded (pre ++ rest) volume pre.length rest
      = some (RemoveOwnVol.loop (pre ++ rest) volume pre.length rest) := by
  induction rest generalizing pre with
  | nil => simp [RemoveOwnVol.loopBounded, RemoveOwnVol.loop]
  | cons x xs ih =>
    have hle : pre.length ≤ (pre ++ x :: xs).length := by simp
    have hle' : pre.length + 1 ≤ (pre ++ x :: xs).length := by simp
    unfold RemoveOwnVol.loopBounded RemoveOwnVol.loop
    by_cases h : x = volume
    · rw [if_pos h, if_pos h, boundedUpTo_of_le _ _ hle, boundedFrom_of_le _ _ hle']
      split <;> rfl
    · rw [if_neg h, if_neg h]
      have := ih (pre ++ [x])
      simpa using this

theorem removeSlice_scanBounded_eq (elem : String) (rest pre : List String) :
    removeSlice.scanBounded (pre ++ rest) elem pre.length rest
      = some (removeSlice.scan (pre ++ rest) elem pre.length rest) := by
  induction rest generalizing pre with
  | nil => simp [removeSlice.scanBounded, removeSlice.scan]
  | cons x xs ih =>
    have hle : pre.length ≤ (pre ++ x :: xs).length := by simp
    have hle' : pre.length + 1 ≤ (pre ++ x :: xs).length := by simp
    unfold removeSlice.scanBounded removeSlice.scan
    by_cases h : x = elem
    · rw [if_pos h, if_pos h, boundedUpTo_of_le _ _ hle, boundedFrom_of_le _ _ hle']
      rfl
    · rw [if_neg h, if_neg h]
      have := ih (pre ++ [x])
      simpa using this

theorem foldlM_some_eq {α β : Type} (f : β → α → β) (g : β → α → Option β)
    (hg : ∀ b a, g b a = some (f b a)) (l : List α) (b : β) :
    l.foldlM g b = some (l.foldl f b) := by
  induction l generalizing b with
  | nil => rfl
  | cons a as ih =>
    rw [List.foldlM_cons, hg, List.foldl_cons]
    exact ih (f b a)

theorem removeSliceBounded_eq (s rm : List String) :
    removeSliceBounded s rm = some (removeSlice s rm) := by
  unfold removeSliceBounded removeSlice
  split
  · rfl
  · exact foldlM_some_eq (fun s elem => removeSlice.scan s elem 0 s) _
      (fun b a => by simpa using removeSlice_scanBounded_eq a b []) rm s

/-! ## Two concurrent callers of `AddOwnVol` -/

theorem World_Inv_start (xs ys : List String) : (World.start xs ys).Inv xs ys := by
  refine ⟨?_, ?_, ?_⟩
  · simp [World.start, Caller.remaining]
  · intro t h
    cases t <;> simp [World.start, World.caller] at h
  · intro t volume val h
    cases t <;> simp [World.start, World.caller] at h

theorem World_counts_of_Inv {xs ys : List String} {w : World} (h : w.Inv xs ys) (x : String) :
    w.OwnVols.count x + w.first.remaining.count x + w.second.remaining.count x
      = (xs ++ ys).count x := by
  have := List.perm_iff_count.mp h.1 x
  simp only [List.count_append] at this ⊢
  omega

theorem World_Inv_of_counts {xs ys : List String} {w : World}
    (h1 : ∀ x, w.OwnVols.count x + w.first.remaining.count x + w.second.remaining.count x
      = (xs ++ ys).count x)
    (h2 : ∀ t, (w.caller t).pc ≠ PC.idle → w.mu = some t)
    (h3 : ∀ t volume val, (w.caller t).pc = PC.assigning volume val →
      val = w.OwnVols ++ [volume]) : w.Inv xs ys := by
  refine ⟨?_, h2, h3⟩
  rw [List.perm_iff_count]
  intro x
  have := h1 x
  simp only [List.count_append] at this ⊢
  omega

theorem World_step_Inv (xs ys : List String) (hnd : (xs ++ ys).Nodup) (w w' : World)
    (t : Bool) (hinv : w.Inv xs ys) (hstep : w.step t = some w') : w'.Inv xs ys := by
  have hc := fun x => World_counts_of_Inv hinv x
  obtain ⟨-, h2, h3⟩ := hinv
  have hf := h2 false
  have hs := h2 true
  have hf3 := h3 false
  have hs3 := h3 true
  obtain ⟨O, mu, ⟨p1, pc1⟩, ⟨p2, pc2⟩⟩ := w
  simp only [World.caller, Bool.false_eq_true, if_false, if_true] at hf hs hf3 hs3
  simp only [Caller.remaining] at hc
  cases t
  · simp only [World.step, World.caller, Bool.false_eq_true, if_false] at hstep
    cases pc1 with
    | idle =>
      simp only at hstep
      cases p1 with
      | nil => simp at hstep
      | cons v rest =>
        cases mu with
        | some m => simp at hstep
        | none =>
          simp only [World.setCaller, Bool.false_eq_true, if_false, Option.some.injEq] at hstep
          subst hstep
          have hidle : pc2 = PC.idle := by
            by_contra hne
            exact absurd (hs hne) (by simp)
          subst hidle
          apply World_Inv_of_counts
          · intro x; simpa [Caller.remaining] using hc x
          · intro t; cases t <;> simp [World.caller]
          · intro t; cases t <;> simp [World.caller]
    | locked v =>
      have hmu : mu = some false := hf (by simp)
      have hidle : pc2 = PC.idle := by
        by_contra hne
        have := hs hne
        rw [hmu] at this
        exact absurd this (by simp)
      subst hidle
      simp only [AddOwnVol_scan_eq] at hstep
      by_cases hv : v ∈ O
      · exfalso
        have h1 := hc v
        have h2 : (xs ++ ys).count v ≤ 1 := List.nodup_iff_count_le_one.mp hnd v
        have h3 : 0 < O.count v := List.count_pos_iff.mpr hv
        simp only [List.count_cons_self] at h1
        omega
      · simp only [hv, decide_False, Bool.false_eq_true, if_false, World.setCaller, Bool.false_eq_true, if_false, Option.some.injEq] at hstep
        subst hstep
        apply World_Inv_of_counts
        · intro x; simpa [Caller.remaining] using hc x
        · intro t; cases t <;> simp [World.caller, hmu]
        · intro t; cases t <;> simp [World.caller]
    | scanned v =>
      have hmu : mu = some false := hf (by simp)
      have hidle : pc2 = PC.idle := by
        by_contra hne
        have := hs hne
        rw [hmu] at this
        exact absurd this (by simp)
      subst hidle
      simp only [World.setCaller, Bool.false_eq_true, if_false, Option.some.injEq] at hstep
      subst hstep
      apply World_Inv_of_counts
      · intro x; simpa [Caller.remaining] using hc x
      · intro t; cases t <;> simp [World.caller, hmu]
      · intro t; cases t <;> simp [World.caller]
    | assigning v val =>
      have hmu : mu = some false := hf (by simp)
      have hidle : pc2 = PC.idle := by
        by_contra hne
        have := hs hne
        rw [hmu] at this
        exact absurd this (by simp)
      subst hidle
      have hval : val = O ++ [v] := hf3 v val rfl
      subst hval
      simp only [World.setCaller, Bool.false_eq_true, if_false, Option.some.injEq] at hstep
      subst hstep
      apply World_Inv_of_counts
      · intro x
        have := hc x
        simp only [Caller.remaining, List.count_append, List.count_cons, List.count_nil] at this ⊢
        omega
      · intro t; cases t <;> simp [World.caller, hmu]
      · intro t; cases t <;> simp [World.caller]
    | leaving v =>
      have hmu : mu = some false := hf (by simp)
      have hidle : pc2 = PC.idle := by
        by_contra hne
        have := hs hne
        rw [hmu] at this
        exact absurd this (by simp)
      subst hidle
      simp only [World.setCaller, Bool.false_eq_true, if_false, Option.some.injEq] at hstep
      subst hstep
      apply World_Inv_of_counts
      · intro x; simpa [Caller.remaining] using hc x
      · intro t; cases t <;> simp [World.caller]
      · intro t; cases t <;> simp [World.caller]
  · simp only [World.step, World.caller, if_true] at hstep
    cases pc2 with
    | idle =>
      simp only at hstep
      cases p2 with
      | nil => simp at hstep
      | cons v rest =>
        cases mu with
        | some m => simp at hstep
        | none =>
          simp only [World.setCaller, if_true, Option.some.injEq] at hstep
          subst hstep
          have hidle : pc1 = PC.idle := by
            by_contra hne
            exact absurd (hf hne) (by simp)
          subst hidle
          apply World_Inv_of_counts
          · intro x; simpa [Caller.remaining] using hc x
          · intro t; cases t <;> simp [World.caller]
          · intro t; cases t <;> simp [World.caller]
    | locked v =>
      have hmu : mu = some true := hs (by simp)
      have hidle : pc1 = PC.idle := by
        by_contra hne
        have := hf hne
        rw [hmu] at this
        exact absurd this (by simp)
      subst hidle
      simp only [AddOwnVol_scan_eq] at hstep
      by_cases hv : v ∈ O
      · exfalso
        have h1 := hc v
        have h2 : (xs ++ ys).count v ≤ 1 := List.nodup_iff_count_le_one.mp hnd v
        have h3 : 0 < O.count v := List.count_pos_iff.mpr hv
        simp only [List.count_cons_self] at h1
        omega
      · simp only [hv, decide_False, Bool.false_eq_true, if_false, World.setCaller, if_true, Option.some.injEq] at hstep
        subst hstep
        apply World_Inv_of_counts
        · intro x; simpa [Caller.remaining] using hc x
        · intro t; cases t <;> simp [World.caller, hmu]
        · intro t; cases t <;> simp [World.caller]
    | scanned v =>
      have hmu : mu = some true := hs (by simp)
      have hidle : pc1 = PC.idle := by
        by_contra hne
        have := hf hne
        rw [hmu] at this
        exact absurd this (by simp)
      subst hidle
      simp only [World.setCaller, if_true, Option.some.injEq] at hstep
      subst hstep
      apply World_Inv_of_counts
      · intro x; simpa [Caller.remaining] using hc x
      · intro t; cases t <;> simp [World.caller, hmu]
      · intro t; cases t <;> simp [World.caller]
    | assigning v val =>
      have hmu : mu = some true := hs (by simp)
      have hidle : pc1 = PC.idle := by
        by_contra hne
        have := hf hne
        rw [hmu] at this
        exact absurd this (by simp)
      subst hidle
      have hval : val = O ++ [v] := hs3 v val rfl
      subst hval
      simp only [World.setCaller, if_true, Option.some.injEq] at hstep
      subst hstep
      apply World_Inv_of_counts
      · intro x
        have := hc x
        simp only [Caller.remaining, List.count_append, List.count_cons, List.count_nil] at this ⊢
        omega
      · intro t; cases t <;> simp [World.caller, hmu]
      · intro t; cases t <;> simp [World.caller]
    | leaving v =>
      have hmu : mu = some true := hs (by simp)
      have hidle : pc1 = PC.idle := by
        by_contra hne
        have := hf hne
        rw [hmu] at this
        exact absurd this (by simp)
      subst hidle
      simp only [World.setCaller, if_true, Option.some.injEq] at hstep
      subst hstep
      apply World_Inv_of_counts
      · intro x; simpa [Caller.remaining] using hc x
      · intro t; cases t <;> simp [World.caller]
      · intro t; cases t <;> simp [World.caller]

theorem World_run_Inv (xs ys : List String) (hnd : (xs ++ ys).Nodup) (sched : List Bool) :
    ∀ w w' : World, w.Inv xs ys → World.run sched w = some w' → w'.Inv xs ys := by
  induction sched with
  | nil =>
    intro w w' hinv hrun
    have : w = w' := Option.some.inj hrun
    exact this ▸ hinv
  | cons t ts ih =>
    intro w w' hinv hrun
    unfold World.run at hrun
    cases hstep : w.step t with
    | none => rw [hstep] at hrun; simp at hrun
    | some w₁ =>
      rw [hstep] at hrun
      exact ih w₁ w' (World_step_Inv xs ys hnd w w₁ t hinv hstep) hrun

/-- C16: two concurrent callers invoke `AddOwnVol` on the same record whose
`OwnVols` is initially empty, the first with the volumes `xs` and the second
with the volumes `ys`, all pairwise distinct.  Whatever the interleaving of
their steps, once both callers have completed `OwnVols` holds
`len(xs) + len(ys)` entries, all distinct, and every one of the names is
present: no update is lost.  With 1000 calls each these are exactly 2000
entries. -/
theorem C16_concurrent_AddOwnVol_loses_no_update (xs ys : List String) (sched : List Bool)
    (w : World) (hnd : (xs ++ ys).Nodup)
    (hrun : World.run sched (World.start xs ys) = some w) (hdone : w.finished) :
    w.OwnVols.length = xs.length + ys.length
    ∧ w.OwnVols.Nodup
    ∧ (∀ v, v ∈ xs ∨ v ∈ ys → v ∈ w.OwnVols)
    ∧ (xs.length = 1000 → ys.length = 1000 → w.OwnVols.length = 2000) := by
  have hinv := World_run_Inv xs ys hnd sched _ w (World_Inv_start xs ys) hrun
  have hperm : w.OwnVols.Perm (xs ++ ys) := by
    have h1 := hinv.1
    rw [hdone.1, hdone.2] at h1
    simpa [Caller.remaining] using h1
  have hlen : w.OwnVols.length = xs.length + ys.length := by
    rw [hperm.length_eq, List.length_append]
  refine ⟨hlen, hperm.nodup_iff.mpr hnd, ?_, ?_⟩
  · intro v hv
    exact hperm.mem_iff.mpr (List.mem_append.mpr hv)
  · intro hx hy
    rw [hlen, hx, hy]

/-- C16 at two callers with two volumes each, their calls alternating: the run
completes and `OwnVols` holds the four names. -/
theorem C16_concurrent_AddOwnVol_loses_no_update_witness :
    (⟨["a", "c", "b", "d"], none, ⟨[], PC.idle⟩, ⟨[], PC.idle⟩⟩ : World).OwnVols.length
        = ["a", "b"].length + ["c", "d"].length
    ∧ (⟨["a", "c", "b", "d"], none, ⟨[], PC.idle⟩, ⟨[], PC.idle⟩⟩ : World).OwnVols.Nodup :=
  have h := C16_concurrent_AddOwnVol_loses_no_update ["a", "b"] ["c", "d"]
    [false, false, false, false, false, true, true, true, true, true,
      false, false, false, false, false, true, true, true, true, true]
    ⟨["a", "c", "b", "d"], none, ⟨[], PC.idle⟩, ⟨[], PC.idle⟩⟩
    (by decide) (by decide) ⟨rfl, rfl⟩
  ⟨h.1, h.2.1⟩

/-! ## Frames: which arrays an operation writes -/

theorem Store_keeps_refl (h : Store) : h.keeps h :=
  ⟨le_refl _, fun _ _ => rfl⟩

theorem Store_keeps_trans {h₁ h₂ h₃ : Store} (h12 : h₁.keeps h₂) (h23 : h₂.keeps h₃) :
    h₁.keeps h₃ :=
  ⟨le_trans h12.1 h23.1, fun arr harr =>
    (h23.2 arr (lt_of_lt_of_le harr h12.1)).trans (h12.2 arr harr)⟩

theorem Store_keeps_of_sameExcept {h h' : Store} {arr : Nat} (hh : h.sameExcept h' arr) :
    h.keeps h' := by
  refine ⟨le_of_eq hh.1.symm, fun x _ => ?_⟩
  by_cases hx : x = arr
  · rw [hx]; exact hh.2.1
  · rw [hh.2.2 x hx]

theorem Store_keeps_inStore {h h' : Store} (hh : h.keeps h') (s : Slice) (hs : s.inStore h) :
    s.inStore h' := by
  obtain ⟨h1, h2, h3⟩ := hs
  exact ⟨lt_of_lt_of_le h1 hh.1, h2, by rw [hh.2 s.arr h1]; exact h3⟩

theorem Store_read_congr {h h' : Store} (s : Slice) (e : h'.getD s.arr [] = h.getD s.arr []) :
    h'.read s = h.read s := by
  simp only [Store.read, e]

theorem Store_getD_append_new (h : Store) (a : List String) (x : Nat) (hx : x < h.length) :
    (h ++ [a]).getD x [] = h.getD x [] := by
  rw [List.getD_eq_getElem?_getD, List.getD_eq_getElem?_getD, List.getElem?_append_left hx]

/-- The builtin `append` in the store model returns a slice that fits the new
store, in the array of `s` or in a new array; it keeps the arrays and writes to
no existing array but that of `s`. -/
theorem Store_append_frame (grow : Nat → Nat → Nat) (h : Store) (s : Slice)
    (elems : List String) (hs : s.inStore h) :
    (h.append grow s elems).1.inStore (h.append grow s elems).2
    ∧ ((h.append grow s elems).1.arr = s.arr ∨ (h.append grow s elems).1.arr = h.length)
    ∧ h.keeps (h.append grow s elems).2
    ∧ (∀ x, x < h.length → x ≠ s.arr → (h.append grow s elems).2.getD x [] = h.getD x []) := by
  obtain ⟨h1, h2, h3⟩ := hs
  unfold Store.append
  by_cases hfit : s.len + elems.length ≤ s.cap
  · rw [if_pos hfit]
    have hframe := Store_sameExcept_write h s.arr (s.off + s.len) elems h1 (by omega)
    refine ⟨?_, Or.inl rfl, Store_keeps_of_sameExcept hframe, fun x _ hx => hframe.2.2 x hx⟩
    have := Store_sameExcept_inStore hframe s ⟨h1, h2, h3⟩
    exact ⟨this.1, hfit, this.2.2⟩
  · rw [if_neg hfit]
    have hnew : ∀ a : List String, (h ++ [a]).getD h.length [] = a := by
      intro a
      rw [List.getD_eq_getElem?_getD, List.getElem?_append_right (le_refl _)]
      simp
    refine ⟨⟨by simp, by simp, ?_⟩, Or.inr rfl, ⟨by simp, fun x hx => ?_⟩,
      fun x hx _ => Store_getD_append_new h _ x hx⟩
    · show 0 + (s.len + elems.length + grow s.cap (s.len + elems.length)) ≤ _
      rw [hnew]
      simp only [List.length_append, List.length_replicate, Store_read_length h s ⟨h1, h2, h3⟩]
      omega
    · rw [Store_getD_append_new h _ x hx]

theorem Shared_loop_frame (grow : Nat → Nat → Nat) (rm : Slice) :
    ∀ n j (st : Slice × Store), st.1.inStore st.2 →
      (Shared.removeSlice.loop grow rm n j st).1.inStore (Shared.removeSlice.loop grow rm n j st).2
      ∧ (Shared.removeSlice.loop grow rm n j st).1.arr = st.1.arr
      ∧ st.2.sameExcept (Shared.removeSlice.loop grow rm n j st).2 st.1.arr := by
  intro n
  induction n with
  | zero =>
    intro j st hs
    exact ⟨hs, rfl, Store_sameExcept_refl st.2 st.1.arr⟩
  | succ n ih =>
    intro j st hs
    obtain ⟨w1, w2, -, w4⟩ :=
      Shared_scan_refines grow st.2 st.1 (st.2.cell rm.arr (rm.off + j)) hs st.1.len 0 (by omega)
    obtain ⟨r1, r2, r3⟩ := ih (j + 1) _ w1
    unfold Shared.removeSlice.loop
    rw [w2] at r2 r3
    exact ⟨r1, r2, Store_sameExcept_trans w4 r3⟩

/-- The function `removeSlice` in the store model returns a slice in the array of
`s` that fits the store, and writes to no array but that of `s`, whatever the
removal slice is. -/
theorem Shared_removeSlice_frame (grow : Nat → Nat → Nat) (h : Store) (s rm : Slice)
    (hs : s.inStore h) :
    (Shared.removeSlice grow h s rm).1.inStore (Shared.removeSlice grow h s rm).2
    ∧ (Shared.removeSlice grow h s rm).1.arr = s.arr
    ∧ h.sameExcept (Shared.removeSlice grow h s rm).2 s.arr := by
  unfold Shared.removeSlice
  by_cases h0 : s.len = 0
  · rw [if_pos h0]
    exact ⟨hs, rfl, Store_sameExcept_refl h s.arr⟩
  · rw [if_neg h0]
    exact Shared_loop_frame grow rm rm.len 0 (s, h) hs

theorem Shared_Delete_step_lookup_ne (grow : Nat → Nat → Nat) (st : SliceMap × Store)
    (e : Sigma (fun _ : String => Slice)) (k : String) (hk : k ≠ e.1) :
    (Shared.Delete.step grow st e).1.lookup k = st.1.lookup k := by
  unfold Shared.Delete.step
  cases st.1.lookup e.1 with
  | none => rfl
  | some apis => exact AList.lookup_insert_ne hk

theorem Shared_Delete_step_frame (grow : Nat → Nat → Nat) (st : SliceMap × Store)
    (e : Sigma (fun _ : String => Slice))
    (hin : ∀ s, st.1.lookup e.1 = some s → s.inStore st.2) :
    st.2.keeps (Shared.Delete.step grow st e).2
    ∧ (∀ x, (∀ s, st.1.lookup e.1 = some s → s.arr ≠ x) →
        (Shared.Delete.step grow st e).2.getD x [] = st.2.getD x []) := by
  unfold Shared.Delete.step
  cases hm : st.1.lookup e.1 with
  | none => exact ⟨Store_keeps_refl _, fun _ _ => rfl⟩
  | some apis =>
    obtain ⟨-, -, f3⟩ := Shared_removeSlice_frame grow st.2 apis e.2 (hin apis hm)
    exact ⟨Store_keeps_of_sameExcept f3, fun x hx => f3.2.2 x (Ne.symm (hx apis rfl))⟩

/-- The map loop of `Delete` in the store model keeps the arrays, writes to no
array but those of the receiver's lists at the keys it visits, and leaves the
other keys of the receiver as they are. -/
theorem Shared_Delete_fold_frame (grow : Nat → Nat → Nat)
    (l : List (Sigma (fun _ : String => Slice))) (hnd : l.NodupKeys) :
    ∀ st : SliceMap × Store, (∀ e ∈ l, ∀ s, st.1.lookup e.1 = some s → s.inStore st.2) →
      st.2.keeps (l.foldl (Shared.Delete.step grow) st).2
      ∧ (∀ x, (∀ e ∈ l, ∀ s, st.1.lookup e.1 = some s → s.arr ≠ x) →
          (l.foldl (Shared.Delete.step grow) st).2.getD x [] = st.2.getD x [])
      ∧ (∀ k, k ∉ l.keys → (l.foldl (Shared.Delete.step grow) st).1.lookup k
          = st.1.lookup k) := by
  induction l with
  | nil =>
    intro st _
    exact ⟨Store_keeps_refl _, fun _ _ => rfl, fun _ _ => rfl⟩
  | cons e es ih =>
    intro st hin
    obtain ⟨hnot, hes⟩ := List.nodupKeys_cons.mp hnd
    obtain ⟨s1, s2⟩ := Shared_Delete_step_frame grow st e (hin e (List.mem_cons_self _ _))
    have hlook : ∀ e' ∈ es, (Shared.Delete.step grow st e).1.lookup e'.1 = st.1.lookup e'.1 := by
      intro e' he'
      apply Shared_Delete_step_lookup_ne
      intro heq
      exact hnot (heq ▸ List.mem_keys_of_mem he')
    have hin' : ∀ e' ∈ es, ∀ s, (Shared.Delete.step grow st e).1.lookup e'.1 = some s →
        s.inStore (Shared.Delete.step grow st e).2 := by
      intro e' he' s hs
      rw [hlook e' he'] at hs
      exact Store_keeps_inStore s1 s (hin e' (List.mem_cons_of_mem _ he') s hs)
    obtain ⟨r1, r2, r3⟩ := ih hes (Shared.Delete.step grow st e) hin'
    rw [List.foldl_cons]
    refine ⟨Store_keeps_trans s1 r1, ?_, ?_⟩
    · intro x hx
      rw [r2 x (fun e' he' s hs => hx e' (List.mem_cons_of_mem _ he') s (hlook e' he' ▸ hs)),
        s2 x (hx e (List.mem_cons_self _ _))]
    · intro k hk
      rw [List.keys_cons, List.mem_cons, not_or] at hk
      rw [r3 k hk.2, Shared_Delete_step_lookup_ne grow st e k hk.1]

/-- The map loop of `Delete` in the store model at a key `k` of both records,
when the receiver's list `sa` for `k` lives in another array than the list `sb`
to remove and than the receiver's lists at the other keys visited: the final
list for `k` holds `removeSlice` of the elements of `sa` and of `sb`. -/
theorem Shared_Delete_fold_key (grow : Nat → Nat → Nat)
    (l : List (Sigma (fun _ : String => Slice))) (hnd : l.NodupKeys) (k : String)
    (sa sb : Slice) :
    ∀ st : SliceMap × Store, l.dlookup k = some sb → st.1.lookup k = some sa →
      (∀ e ∈ l, ∀ s, st.1.lookup e.1 = some s → s.inStore st.2) → sb.inStore st.2 →
      sa.arr ≠ sb.arr →
      (∀ e ∈ l, e.1 ≠ k → ∀ s, st.1.lookup e.1 = some s → s.arr ≠ sa.arr ∧ s.arr ≠ sb.arr) →
      ∃ s', (l.foldl (Shared.Delete.step grow) st).1.lookup k = some s'
        ∧ s'.arr = sa.arr
        ∧ (l.foldl (Shared.Delete.step grow) st).2.read s'
            = removeSlice (st.2.read sa) (st.2.read sb) := by
  induction l with
  | nil => intro st hl; simp at hl
  | cons e es ih =>
    intro st hl hk hin hsb hne hsep
    obtain ⟨hnot, hes⟩ := List.nodupKeys_cons.mp hnd
    have hlook : ∀ e' ∈ es, (Shared.Delete.step grow st e).1.lookup e'.1 = st.1.lookup e'.1 := by
      intro e' he'
      apply Shared_Delete_step_lookup_ne
      intro heq
      exact hnot (heq ▸ List.mem_keys_of_mem he')
    obtain ⟨s1, s2⟩ := Shared_Delete_step_frame grow st e (hin e (List.mem_cons_self _ _))
    have hin' : ∀ e' ∈ es, ∀ s, (Shared.Delete.step grow st e).1.lookup e'.1 = some s →
        s.inStore (Shared.Delete.step grow st e).2 := by
      intro e' he' s hs
      rw [hlook e' he'] at hs
      exact Store_keeps_inStore s1 s (hin e' (List.mem_cons_of_mem _ he') s hs)
    rw [List.foldl_cons]
    by_cases hek : k = e.1
    · subst hek
      have h2 : List.dlookup e.1 (e :: es) = some e.2 := by
        obtain ⟨x, y⟩ := e
        exact List.dlookup_cons_eq es x y
      rw [h2] at hl
      have he2 : e.2 = sb := Option.some.inj hl
      obtain ⟨f1, f2, f3⟩ := Shared_removeSlice_frame grow st.2 sa sb
        (hin e (List.mem_cons_self _ _) sa hk)
      obtain ⟨g1, -⟩ := Shared_removeSlice_refines grow st.2 sa sb
        (hin e (List.mem_cons_self _ _) sa hk) hsb hne
      have hstep : Shared.Delete.step grow st e
          = (st.1.insert e.1 (Shared.removeSlice grow st.2 sa sb).1,
              (Shared.removeSlice grow st.2 sa sb).2) := by
        unfold Shared.Delete.step
        rw [hk, he2]
      obtain ⟨-, r2, r3⟩ := Shared_Delete_fold_frame grow es hes
        (Shared.Delete.step grow st e) hin'
      refine ⟨(Shared.removeSlice grow st.2 sa sb).1, ?_, f2, ?_⟩
      · rw [r3 e.1 hnot, hstep]
        exact AList.lookup_insert _
      · rw [← g1]
        have hx := r2 sa.arr (fun e' he' s hs => by
          rw [hlook e' he'] at hs
          have hne' : e'.1 ≠ e.1 := fun heq => hnot (heq ▸ List.mem_keys_of_mem he')
          exact (hsep e' (List.mem_cons_of_mem _ he') hne' s hs).1)
        apply Store_read_congr
        rw [f2, hx, hstep]
    · have hl' : es.dlookup k = some sb := by
        rw [List.dlookup_cons_ne es e hek] at hl
        exact hl
      have hk' : (Shared.Delete.step grow st e).1.lookup k = some sa := by
        rw [Shared_Delete_step_lookup_ne grow st e k hek]
        exact hk
      have hav := hsep e (List.mem_cons_self _ _) (Ne.symm hek)
      have hra : (Shared.Delete.step grow st e).2.read sa = st.2.read sa :=
        Store_read_congr _ (s2 sa.arr (fun s hs => (hav s hs).1))
      have hrb : (Shared.Delete.step grow st e).2.read sb = st.2.read sb :=
        Store_read_congr _ (s2 sb.arr (fun s hs => (hav s hs).2))
      obtain ⟨s', q1, q2, q3⟩ := ih hes (Shared.Delete.step grow st e) hl' hk' hin'
        (Store_keeps_inStore s1 sb hsb) hne
        (fun e' he' hne' s hs => by
          rw [hlook e' he'] at hs
          exact hsep e' (List.mem_cons_of_mem _ he') hne' s hs)
      exact ⟨s', q1, q2, by rw [q3, hra, hrb]⟩

theorem Shared_Add_step_frame (grow : Nat → Nat → Nat) (addVols : SliceMap)
    (st : SliceMap × Store) (e : Sigma (fun _ : String => Slice))
    (hin : ∀ s, st.1.lookup e.1 = some s → s.inStore st.2) :
    st.2.keeps (Shared.Add.step grow addVols st e).2
    ∧ (∀ x, x < st.2.length → (∀ s, st.1.lookup e.1 = some s → s.arr ≠ x) →
        (Shared.Add.step grow addVols st e).2.getD x [] = st.2.getD x []) := by
  unfold Shared.Add.step
  cases hm : st.1.lookup e.1 with
  | none => exact ⟨Store_keeps_refl _, fun _ _ _ => rfl⟩
  | some apis =>
    obtain ⟨-, -, f3, f4⟩ := Store_append_frame grow st.2 apis
      (st.2.read ((addVols.lookup e.1).getD Slice.nil)) (hin apis hm)
    exact ⟨f3, fun x hx hne => f4 x hx (Ne.symm (hne apis rfl))⟩

/-- The map loop of `Add` in the store model keeps the arrays and writes to no
existing array but those of the receiver's lists at the keys it visits. -/
theorem Shared_Add_fold_frame (grow : Nat → Nat → Nat) (addVols : SliceMap)
    (l : List (Sigma (fun _ : String => Slice))) (hnd : l.NodupKeys) :
    ∀ st : SliceMap × Store, (∀ e ∈ l, ∀ s, st.1.lookup e.1 = some s → s.inStore st.2) →
      st.2.keeps (l.foldl (Shared.Add.step grow addVols) st).2
      ∧ (∀ x, x < st.2.length → (∀ e ∈ l, ∀ s, st.1.lookup e.1 = some s → s.arr ≠ x) →
          (l.foldl (Shared.Add.step grow addVols) st).2.getD x [] = st.2.getD x []) := by
  induction l with
  | nil =>
    intro st _
    exact ⟨Store_keeps_refl _, fun _ _ _ => rfl⟩
  | cons e es ih =>
    intro st hin
    obtain ⟨hnot, hes⟩ := List.nodupKeys_cons.mp hnd
    obtain ⟨s1, s2⟩ := Shared_Add_step_frame grow addVols st e (hin e (List.mem_cons_self _ _))
    have hlook : ∀ e' ∈ es,
        (Shared.Add.step grow addVols st e).1.lookup e'.1 = st.1.lookup e'.1 := by
      intro e' he'
      apply Shared_Add_step_lookup_ne
      intro heq
      exact hnot (heq ▸ List.mem_keys_of_mem he')
    have hin' : ∀ e' ∈ es, ∀ s, (Shared.Add.step grow addVols st e).1.lookup e'.1 = some s →
        s.inStore (Shared.Add.step grow addVols st e).2 := by
      intro e' he' s hs
      rw [hlook e' he'] at hs
      exact Store_keeps_inStore s1 s (hin e' (List.mem_cons_of_mem _ he') s hs)
    obtain ⟨r1, r2⟩ := ih hes (Shared.Add.step grow addVols st e) hin'
    rw [List.foldl_cons]
    refine ⟨Store_keeps_trans s1 r1, ?_⟩
    intro x hx hne
    rw [r2 x (lt_of_lt_of_le hx s1.1)
        (fun e' he' s hs => hne e' (List.mem_cons_of_mem _ he') s (hlook e' he' ▸ hs)),
      s2 x hx (hne e (List.mem_cons_self _ _))]

theorem MapsApart_keeps {h h' : Store} {m bm : SliceMap} {P : List Nat}
    (hh : h.keeps h') (hm : MapsApart h m bm P) : MapsApart h' m bm P := by
  obtain ⟨a1, a2, a3, a4, a5, a6⟩ := hm
  exact ⟨fun k s hs => ⟨Store_keeps_inStore hh s (a1 k s hs).1, (a1 k s hs).2⟩, a2, a3,
    fun k s hs => ⟨Store_keeps_inStore hh s (a4 k s hs).1, (a4 k s hs).2⟩, a5,
    fun x hx => lt_of_lt_of_le (a6 x hx) hh.1⟩

/-- One iteration of the map loop of `Add` keeps the lists apart. -/
theorem Shared_Add_step_apart (grow : Nat → Nat → Nat) (bm : SliceMap)
    (st : SliceMap × Store) (e : Sigma (fun _ : String => Slice)) (P : List Nat)
    (he : bm.lookup e.1 = some e.2) (hm : MapsApart st.2 st.1 bm P) :
    MapsApart (Shared.Add.step grow bm st e).2 (Shared.Add.step grow bm st e).1 bm P := by
  obtain ⟨a1, a2, a3, a4, a5, a6⟩ := hm
  unfold Shared.Add.step
  cases hlk : st.1.lookup e.1 with
  | none =>
    refine ⟨?_, ?_, ?_, a4, a5, a6⟩
    · intro k s hs
      by_cases hk : k = e.1
      · subst hk
        rw [AList.lookup_insert] at hs
        exact (Option.some.inj hs) ▸ a4 _ e.2 he
      · rw [AList.lookup_insert_ne hk] at hs
        exact a1 k s hs
    · intro k k' s s' hkk hs hs'
      by_cases hk : k = e.1
      · subst hk
        rw [AList.lookup_insert] at hs
        rw [AList.lookup_insert_ne (Ne.symm hkk)] at hs'
        rw [← Option.some.inj hs]
        exact Ne.symm (a3 k' _ s' e.2 (Ne.symm hkk) hs' he)
      · rw [AList.lookup_insert_ne hk] at hs
        by_cases hk' : k' = e.1
        · subst hk'
          rw [AList.lookup_insert] at hs'
          rw [← Option.some.inj hs']
          exact a3 k _ s e.2 hkk hs he
        · rw [AList.lookup_insert_ne hk'] at hs'
          exact a2 k k' s s' hkk hs hs'
    · intro k k' s s' hkk hs hs'
      by_cases hk : k = e.1
      · subst hk
        rw [AList.lookup_insert] at hs
        rw [← Option.some.inj hs]
        exact a5 _ k' e.2 s' hkk he hs'
      · rw [AList.lookup_insert_ne hk] at hs
        exact a3 k k' s s' hkk hs hs'
  | some apis =>
    obtain ⟨f1, f2, f3, -⟩ := Store_append_frame grow st.2 apis
      (st.2.read ((bm.lookup e.1).getD Slice.nil)) (a1 _ apis hlk).1
    have hnew : ∀ s : Slice, s.inStore st.2 →
        s.arr ≠ st.2.length := fun s hs => Nat.ne_of_lt hs.1
    refine ⟨?_, ?_, ?_, fun k s hs => ⟨Store_keeps_inStore f3 s (a4 k s hs).1, (a4 k s hs).2⟩,
      a5, fun x hx => lt_of_lt_of_le (a6 x hx) f3.1⟩
    · intro k s hs
      by_cases hk : k = e.1
      · subst hk
        rw [AList.lookup_insert] at hs
        rw [← Option.some.inj hs]
        refine ⟨f1, ?_⟩
        rcases f2 with f2 | f2
        · rw [f2]; exact (a1 _ apis hlk).2
        · rw [f2]; exact fun hmem => Nat.lt_irrefl _ (a6 _ hmem)
      · rw [AList.lookup_insert_ne hk] at hs
        exact ⟨Store_keeps_inStore f3 s (a1 k s hs).1, (a1 k s hs).2⟩
    · intro k k' s s' hkk hs hs'
      by_cases hk : k = e.1
      · subst hk
        rw [AList.lookup_insert] at hs
        rw [AList.lookup_insert_ne (Ne.symm hkk)] at hs'
        rw [← Option.some.inj hs]
        rcases f2 with f2 | f2
        · rw [f2]; exact a2 _ k' apis s' hkk hlk hs'
        · rw [f2]; exact Ne.symm (hnew s' (a1 k' s' hs').1)
      · rw [AList.lookup_insert_ne hk] at hs
        by_cases hk' : k' = e.1
        · subst hk'
          rw [AList.lookup_insert] at hs'
          rw [← Option.some.inj hs']
          rcases f2 with f2 | f2
          · rw [f2]; exact a2 k _ s apis hkk hs hlk
          · rw [f2]; exact hnew s (a1 k s hs).1
        · rw [AList.lookup_insert_ne hk'] at hs'
          exact a2 k k' s s' hkk hs hs'
    · intro k k' s s' hkk hs hs'
      by_cases hk : k = e.1
      · subst hk
        rw [AList.lookup_insert] at hs
        rw [← Option.some.inj hs]
        rcases f2 with f2 | f2
        · rw [f2]; exact a3 _ k' apis s' hkk hlk hs'
        · rw [f2]; exact Ne.symm (hnew s' (a4 k' s' hs').1)
      · rw [AList.lookup_insert_ne hk] at hs
        exact a3 k k' s s' hkk hs hs'

/-- The map loop of `Add` keeps the lists apart. -/
theorem Shared_Add_fold_apart (grow : Nat → Nat → Nat) (bm : SliceMap)
    (l : List (Sigma (fun _ : String => Slice))) (P : List Nat)
    (hsub : ∀ e ∈ l, bm.lookup e.1 = some e.2) :
    ∀ st : SliceMap × Store, MapsApart st.2 st.1 bm P →
      MapsApart (l.foldl (Shared.Add.step grow bm) st).2
        (l.foldl (Shared.Add.step grow bm) st).1 bm P := by
  induction l with
  | nil => intro st hm; exact hm
  | cons e es ih =>
    intro st hm
    rw [List.foldl_cons]
    exact ih (fun e' he' => hsub e' (List.mem_cons_of_mem _ he')) _
      (Shared_Add_step_apart grow bm st e P (hsub e (List.mem_cons_self _ _)) hm)

/-- The map loop of `Add` in the store model at a key `k` of the argument, when
the lists are apart: the final list of the receiver for `k` holds the elements
the receiver had for `k` (none if the key was absent) followed by the elements
of the argument's list `sb`. -/
theorem Shared_Add_fold_key (grow : Nat → Nat → Nat) (bm : SliceMap)
    (l : List (Sigma (fun _ : String => Slice))) (hnd : l.NodupKeys) (P : List Nat)
    (hsub : ∀ e ∈ l, bm.lookup e.1 = some e.2) (k : String) (sb : Slice) :
    ∀ st : SliceMap × Store, l.dlookup k = some sb → MapsApart st.2 st.1 bm P →
      ∃ s', (l.foldl (Shared.Add.step grow bm) st).1.lookup k = some s'
        ∧ (l.foldl (Shared.Add.step grow bm) st).2.read s'
            = ((st.1.lookup k).map st.2.read).getD [] ++ st.2.read sb := by
  induction l with
  | nil => intro st hl; simp at hl
  | cons e es ih =>
    intro st hl hm
    obtain ⟨hnot, hes⟩ := List.nodupKeys_cons.mp hnd
    have he := hsub e (List.mem_cons_self _ _)
    have hsub' : ∀ e' ∈ es, bm.lookup e'.1 = some e'.2 :=
      fun e' he' => hsub e' (List.mem_cons_of_mem _ he')
    have hm1 := Shared_Add_step_apart grow bm st e P he hm
    have hin1 : ∀ e' ∈ es, ∀ s, (Shared.Add.step grow bm st e).1.lookup e'.1 = some s →
        s.inStore (Shared.Add.step grow bm st e).2 :=
      fun e' _ s hs => (hm1.1 e'.1 s hs).1
    rw [List.foldl_cons]
    by_cases hek : k = e.1
    · subst hek
      have h2 : List.dlookup e.1 (e :: es) = some e.2 := by
        obtain ⟨x, y⟩ := e
        exact List.dlookup_cons_eq es x y
      rw [h2] at hl
      have he2 : e.2 = sb := Option.some.inj hl
      have hstep : ∃ s1, (Shared.Add.step grow bm st e).1.lookup e.1 = some s1
          ∧ (Shared.Add.step grow bm st e).2.read s1
              = ((st.1.lookup e.1).map st.2.read).getD [] ++ st.2.read sb := by
        unfold Shared.Add.step
        cases hlk : st.1.lookup e.1 with
        | none =>
          refine ⟨e.2, AList.lookup_insert _, ?_⟩
          rw [he2]
          rfl
        | some sa =>
          refine ⟨_, AList.lookup_insert _, ?_⟩
          have := Store_append_refines grow st.2 sa
            (st.2.read ((bm.lookup e.1).getD Slice.nil)) (hm.1 _ sa hlk).1
          rw [he, he2] at this
          rw [he, he2]
          exact this
      obtain ⟨s1, q1, q2⟩ := hstep
      obtain ⟨-, r2⟩ := Shared_Add_fold_frame grow bm es hes (Shared.Add.step grow bm st e) hin1
      refine ⟨s1, ?_, ?_⟩
      · rw [Shared_Add_fold_absent grow bm es e.1 hnot]
        exact q1
      · rw [← q2]
        apply Store_read_congr
        apply r2 s1.arr (hm1.1 e.1 s1 q1).1.1
        intro e' he' s hs
        have hne' : e'.1 ≠ e.1 := fun heq => hnot (heq ▸ List.mem_keys_of_mem he')
        exact hm1.2.1 e'.1 e.1 s s1 hne' hs q1
    · have hl' : es.dlookup k = some sb := by
        rw [List.dlookup_cons_ne es e hek] at hl
        exact hl
      have hbk : bm.lookup k = some sb := by
        have hmem : (⟨k, sb⟩ : Sigma (fun _ : String => Slice)) ∈ es :=
          List.of_mem_dlookup (by rw [hl']; exact rfl)
        exact hsub' ⟨k, sb⟩ hmem
      obtain ⟨a1, a2, a3, a4, -, -⟩ := hm
      obtain ⟨-, s2⟩ := Shared_Add_step_frame grow bm st e (fun s hs => (a1 e.1 s hs).1)
      have hlk : (Shared.Add.step grow bm st e).1.lookup k = st.1.lookup k :=
        Shared_Add_step_lookup_ne grow bm st e k hek
      have hrb : (Shared.Add.step grow bm st e).2.read sb = st.2.read sb :=
        Store_read_congr _ (s2 sb.arr (a4 k sb hbk).1.1
          (fun s hs => a3 e.1 k s sb (Ne.symm hek) hs hbk))
      obtain ⟨s', q1, q2⟩ := ih hes hsub' (Shared.Add.step grow bm st e) hl' hm1
      refine ⟨s', q1, ?_⟩
      rw [q2, hlk, hrb]
      cases hk : st.1.lookup k with
      | none => rfl
      | some sa =>
        have hra : (Shared.Add.step grow bm st e).2.read sa = st.2.read sa :=
          Store_read_congr _ (s2 sa.arr (a1 k sa hk).1.1
            (fun s hs => a2 e.1 k s sa (Ne.symm hek) hs hk))
        show (Shared.Add.step grow bm st e).2.read sa ++ _ = st.2.read sa ++ _
        rw [hra]

/-! ## Records that share no backing array -/

theorem SliceMap_lookup_mem (m : SliceMap) (k : String) (s : Slice)
    (hs : m.lookup k = some s) : (⟨k, s⟩ : Sigma (fun _ : String => Slice)) ∈ m.entries :=
  AList.mem_lookup_iff.mp (by rw [hs]; exact rfl)

theorem SliceMap_lookup_arr_mem (m : SliceMap) (k : String) (s : Slice)
    (hs : m.lookup k = some s) : s.arr ∈ m.entries.map (fun e => e.2.arr) :=
  List.mem_map.mpr ⟨⟨k, s⟩, SliceMap_lookup_mem m k s hs, rfl⟩

theorem SliceMap_arr_ne_of_nodup (m : SliceMap) (hnd : (m.entries.map (fun e => e.2.arr)).Nodup)
    (k k' : String) (s s' : Slice) (hkk : k ≠ k') (hs : m.lookup k = some s)
    (hs' : m.lookup k' = some s') : s.arr ≠ s'.arr := by
  intro heq
  have := List.inj_on_of_nodup_map hnd (SliceMap_lookup_mem m k s hs)
    (SliceMap_lookup_mem m k' s' hs') heq
  exact hkk (congrArg Sigma.fst this)

theorem Separate_facts {h : Store} {a b : SharedPolicy} (hsep : Separate h a b) :
    a.OwnVols.arr ≠ b.OwnVols.arr
    ∧ (∀ k s, a.AuthorizedVols.lookup k = some s →
        s.inStore h ∧ s.arr ≠ a.OwnVols.arr ∧ s.arr ≠ b.OwnVols.arr)
    ∧ (∀ k s, b.AuthorizedVols.lookup k = some s →
        s.inStore h ∧ s.arr ≠ a.OwnVols.arr ∧ s.arr ≠ b.OwnVols.arr)
    ∧ (∀ k k' s s', k ≠ k' → a.AuthorizedVols.lookup k = some s →
        a.AuthorizedVols.lookup k' = some s' → s.arr ≠ s'.arr)
    ∧ (∀ k k' s s', k ≠ k' → b.AuthorizedVols.lookup k = some s →
        b.AuthorizedVols.lookup k' = some s' → s.arr ≠ s'.arr)
    ∧ (∀ k k' s s', a.AuthorizedVols.lookup k = some s →
        b.AuthorizedVols.lookup k' = some s' → s.arr ≠ s'.arr) := by
  obtain ⟨⟨-, fa⟩, ⟨-, fb⟩, hnd⟩ := hsep
  unfold SharedPolicy.arrays at hnd
  rw [List.nodup_append] at hnd
  obtain ⟨hA, hB, hdis⟩ := hnd
  rw [List.nodup_cons] at hA hB
  have hao : a.OwnVols.arr ∈ a.OwnVols.arr :: a.AuthorizedVols.entries.map (fun e => e.2.arr) :=
    List.mem_cons_self _ _
  have hbo : b.OwnVols.arr ∈ b.OwnVols.arr :: b.AuthorizedVols.entries.map (fun e => e.2.arr) :=
    List.mem_cons_self _ _
  refine ⟨fun heq => hdis hao (heq ▸ hbo), ?_, ?_, ?_, ?_, ?_⟩
  · intro k s hs
    have hmem := SliceMap_lookup_arr_mem _ k s hs
    refine ⟨fa _ (SliceMap_lookup_mem _ k s hs), fun heq => hA.1 (heq ▸ hmem),
      fun heq => hdis (List.mem_cons_of_mem _ hmem) (heq ▸ hbo)⟩
  · intro k s hs
    have hmem := SliceMap_lookup_arr_mem _ k s hs
    refine ⟨fb _ (SliceMap_lookup_mem _ k s hs),
      fun heq => hdis hao (heq ▸ List.mem_cons_of_mem _ hmem), fun heq => hB.1 (heq ▸ hmem)⟩
  · exact fun k k' s s' hkk hs hs' => SliceMap_arr_ne_of_nodup _ hA.2 k k' s s' hkk hs hs'
  · exact fun k k' s s' hkk hs hs' => SliceMap_arr_ne_of_nodup _ hB.2 k k' s s' hkk hs hs'
  · intro k k' s s' hs hs' heq
    exact hdis (List.mem_cons_of_mem _ (SliceMap_lookup_arr_mem _ k s hs))
      (heq ▸ List.mem_cons_of_mem _ (SliceMap_lookup_arr_mem _ k' s' hs'))

theorem Separate_AddReady {h : Store} {a b : SharedPolicy} (hsep : Separate h a b) :
    AddReady h a b := by
  obtain ⟨f1, f2, f3, f4, f5, f6⟩ := Separate_facts hsep
  obtain ⟨⟨hao, -⟩, ⟨hbo, -⟩, -⟩ := hsep
  refine ⟨hao, hbo, f1, ?_, f4, fun k k' s s' _ hs hs' => f6 k k' s s' hs hs', ?_, f5, ?_⟩
  · intro k s hs
    obtain ⟨g1, g2, g3⟩ := f2 k s hs
    exact ⟨g1, by simp [g2, g3]⟩
  · intro k s hs
    obtain ⟨g1, g2, g3⟩ := f3 k s hs
    exact ⟨g1, by simp [g2, g3]⟩
  · intro x hx
    simp only [List.mem_cons, List.mem_singleton, List.not_mem_nil, or_false] at hx
    rcases hx with hx | hx
    · rw [hx]; exact hao.1
    · rw [hx]; exact hbo.1

/-- The `OwnVols` of `a.Delete(b)` in the store model, when the two `OwnVols`
live in different arrays and no action list of `a` lives in the array of
`a.OwnVols`: its elements are `removeSlice` of the elements of the two lists. -/
theorem Shared_Delete_OwnVols (grow : Nat → Nat → Nat) (h : Store) (a b : SharedPolicy)
    (hao : a.OwnVols.inStore h) (hbo : b.OwnVols.inStore h)
    (hne : a.OwnVols.arr ≠ b.OwnVols.arr)
    (hvals : ∀ k s, a.AuthorizedVols.lookup k = some s → s.inStore h ∧ s.arr ≠ a.OwnVols.arr) :
    (Shared.Delete grow h a b).2.read (Shared.Delete grow h a b).1.OwnVols
      = removeSlice (h.read a.OwnVols) (h.read b.OwnVols) := by
  obtain ⟨-, f2, f3⟩ := Shared_removeSlice_frame grow h a.OwnVols b.OwnVols hao
  obtain ⟨g1, -⟩ := Shared_removeSlice_refines grow h a.OwnVols b.OwnVols hao hbo hne
  obtain ⟨-, r2, -⟩ := Shared_Delete_fold_frame grow b.AuthorizedVols.entries
    b.AuthorizedVols.nodupKeys (a.AuthorizedVols, (Shared.removeSlice grow h a.OwnVols b.OwnVols).2)
    (fun e _ s hs => Store_keeps_inStore (Store_keeps_of_sameExcept f3) s (hvals e.1 s hs).1)
  show ((b.AuthorizedVols.entries.foldl (Shared.Delete.step grow)
      (a.AuthorizedVols, (Shared.removeSlice grow h a.OwnVols b.OwnVols).2)).2.read
      (Shared.removeSlice grow h a.OwnVols b.OwnVols).1) = _
  rw [← g1]
  apply Store_read_congr
  rw [f2]
  exact r2 a.OwnVols.arr (fun e _ s hs => (hvals e.1 s hs).2)

/-- The function `Delete` in the store model on two records that share no
backing array: `OwnVols` and the action list of every key of both records hold
`removeSlice` of the elements they held and of the elements to remove, and the
lists of the argument are unchanged. -/
theorem Shared_Delete_separate (grow : Nat → Nat → Nat) (h : Store) (a b : SharedPolicy)
    (hsep : Separate h a b) :
    (Shared.Delete grow h a b).2.read (Shared.Delete grow h a b).1.OwnVols
        = removeSlice (h.read a.OwnVols) (h.read b.OwnVols)
    ∧ (∀ k sa sb, a.AuthorizedVols.lookup k = some sa → b.AuthorizedVols.lookup k = some sb →
        ∃ s', (Shared.Delete grow h a b).1.AuthorizedVols.lookup k = some s'
          ∧ (Shared.Delete grow h a b).2.read s' = removeSlice (h.read sa) (h.read sb))
    ∧ (Shared.Delete grow h a b).2.read b.OwnVols = h.read b.OwnVols
    ∧ (∀ k sb, b.AuthorizedVols.lookup k = some sb →
        (Shared.Delete grow h a b).2.read sb = h.read sb) := by
  obtain ⟨f1, f2, f3, f4, f5, f6⟩ := Separate_facts hsep
  have hao := hsep.1.1
  have hbo := hsep.2.1.1
  obtain ⟨-, -, o3⟩ := Shared_removeSlice_frame grow h a.OwnVols b.OwnVols hao
  have hkeep := Store_keeps_of_sameExcept o3
  have hin : ∀ e ∈ b.AuthorizedVols.entries, ∀ s,
      (a.AuthorizedVols, (Shared.removeSlice grow h a.OwnVols b.OwnVols).2).1.lookup e.1 = some s →
      s.inStore (a.AuthorizedVols, (Shared.removeSlice grow h a.OwnVols b.OwnVols).2).2 :=
    fun e _ s hs => Store_keeps_inStore hkeep s (f2 e.1 s hs).1
  obtain ⟨-, r2, -⟩ := Shared_Delete_fold_frame grow b.AuthorizedVols.entries
    b.AuthorizedVols.nodupKeys (a.AuthorizedVols, (Shared.removeSlice grow h a.OwnVols b.OwnVols).2)
    hin
  refine ⟨Shared_Delete_OwnVols grow h a b hao hbo f1 (fun k s hs => ⟨(f2 k s hs).1,
    (f2 k s hs).2.1⟩), ?_, ?_, ?_⟩
  · intro k sa sb ha hb
    obtain ⟨s', q1, -, q3⟩ := Shared_Delete_fold_key grow b.AuthorizedVols.entries
      b.AuthorizedVols.nodupKeys k sa sb
      (a.AuthorizedVols, (Shared.removeSlice grow h a.OwnVols b.OwnVols).2) hb ha hin
      (Store_keeps_inStore hkeep sb (f3 k sb hb).1) (f6 k k sa sb ha hb)
      (fun e _ hek s hs => ⟨f4 e.1 k s sa hek hs ha, f6 e.1 k s sb hs hb⟩)
    refine ⟨s', q1, ?_⟩
    have e1 : (Shared.removeSlice grow h a.OwnVols b.OwnVols).2.read sa = h.read sa :=
      Store_sameExcept_read o3 sa (f2 k sa ha).2.1
    have e2 : (Shared.removeSlice grow h a.OwnVols b.OwnVols).2.read sb = h.read sb :=
      Store_sameExcept_read o3 sb (f3 k sb hb).2.1
    rw [← e1, ← e2]
    exact q3
  · have e1 : (Shared.removeSlice grow h a.OwnVols b.OwnVols).2.read b.OwnVols
        = h.read b.OwnVols := Store_sameExcept_read o3 b.OwnVols (Ne.symm f1)
    rw [← e1]
    apply Store_read_congr
    exact r2 b.OwnVols.arr (fun e _ s hs => (f2 e.1 s hs).2.2)
  · intro k sb hb
    have e1 : (Shared.removeSlice grow h a.OwnVols b.OwnVols).2.read sb = h.read sb :=
      Store_sameExcept_read o3 sb (f3 k sb hb).2.1
    rw [← e1]
    apply Store_read_congr
    exact r2 sb.arr (fun e _ s hs => f6 e.1 k s sb hs hb)

/-- The function `Add` in the store model on records that are ready for it:
`OwnVols` holds the elements it held followed by those of `b.OwnVols`; the list
of every key of `b` holds the elements `a` had for the key (none if the key was
absent) followed by those of `b`'s list; `b.OwnVols` is unchanged; and the
records are ready for another `Add`. -/
theorem Shared_Add_ready (grow : Nat → Nat → Nat) (h : Store) (a b : SharedPolicy)
    (hr : AddReady h a b) :
    (Shared.Add grow h a b).2.read (Shared.Add grow h a b).1.OwnVols
        = h.read a.OwnVols ++ h.read b.OwnVols
    ∧ (∀ k sb, b.AuthorizedVols.lookup k = some sb →
        ∃ s', (Shared.Add grow h a b).1.AuthorizedVols.lookup k = some s'
          ∧ (Shared.Add grow h a b).2.read s'
              = ((a.AuthorizedVols.lookup k).map h.read).getD [] ++ h.read sb)
    ∧ (Shared.Add grow h a b).2.read b.OwnVols = h.read b.OwnVols
    ∧ AddReady (Shared.Add grow h a b).2 (Shared.Add grow h a b).1 b
    ∧ h.keeps (Shared.Add grow h a b).2 := by
  obtain ⟨hao, hbo, hne, hm⟩ := hr
  obtain ⟨o1, o2, o3, o4⟩ := Store_append_frame grow h a.OwnVols (h.read b.OwnVols) hao
  have oread := Store_append_refines grow h a.OwnVols (h.read b.OwnVols) hao
  have hownne : ∀ s : Slice, s.inStore h → s.arr ≠ a.OwnVols.arr →
      s.arr ≠ (h.append grow a.OwnVols (h.read b.OwnVols)).1.arr := by
    intro s hs hsne
    rcases o2 with o2 | o2
    · rw [o2]; exact hsne
    · rw [o2]; exact Nat.ne_of_lt hs.1
  have hm' : MapsApart (h.append grow a.OwnVols (h.read b.OwnVols)).2 a.AuthorizedVols
      b.AuthorizedVols [(h.append grow a.OwnVols (h.read b.OwnVols)).1.arr, b.OwnVols.arr] := by
    obtain ⟨a1, a2, a3, a4, a5, -⟩ := hm
    refine ⟨?_, a2, a3, ?_, a5, ?_⟩
    · intro k s hs
      obtain ⟨g1, g2⟩ := a1 k s hs
      simp only [List.mem_cons, List.mem_singleton, List.not_mem_nil, or_false, not_or] at g2 ⊢
      exact ⟨Store_keeps_inStore o3 s g1, hownne s g1 g2.1, g2.2⟩
    · intro k s hs
      obtain ⟨g1, g2⟩ := a4 k s hs
      simp only [List.mem_cons, List.mem_singleton, List.not_mem_nil, or_false, not_or] at g2 ⊢
      exact ⟨Store_keeps_inStore o3 s g1, hownne s g1 g2.1, g2.2⟩
    · intro x hx
      simp only [List.mem_cons, List.mem_singleton, List.not_mem_nil, or_false] at hx
      rcases hx with hx | hx
      · rw [hx]; exact o1.1
      · rw [hx]; exact lt_of_lt_of_le hbo.1 o3.1
  have hnotin : ∀ (x : Nat) (P : List Nat), x ∈ P → ∀ s : Slice, s.arr ∉ P → s.arr ≠ x :=
    fun x P hx s hs heq => hs (heq ▸ hx)
  have hsubb : ∀ e ∈ b.AuthorizedVols.entries, b.AuthorizedVols.lookup e.1 = some e.2 := by
    intro e he
    obtain ⟨x, y⟩ := e
    exact AList.mem_lookup_iff.mpr he
  have hfin := Shared_Add_fold_apart grow b.AuthorizedVols b.AuthorizedVols.entries _ hsubb
    (a.AuthorizedVols, (h.append grow a.OwnVols (h.read b.OwnVols)).2) hm'
  obtain ⟨r1, r2⟩ := Shared_Add_fold_frame grow b.AuthorizedVols b.AuthorizedVols.entries
    b.AuthorizedVols.nodupKeys (a.AuthorizedVols, (h.append grow a.OwnVols (h.read b.OwnVols)).2)
    (fun e _ s hs => (hm'.1 e.1 s hs).1)
  have hbo' : b.OwnVols.inStore (h.append grow a.OwnVols (h.read b.OwnVols)).2 :=
    Store_keeps_inStore o3 _ hbo
  have hownbo : (h.append grow a.OwnVols (h.read b.OwnVols)).1.arr ≠ b.OwnVols.arr :=
    Ne.symm (hownne b.OwnVols hbo (Ne.symm hne))
  refine ⟨?_, ?_, ?_, ⟨Store_keeps_inStore r1 _ o1, Store_keeps_inStore r1 _ hbo', hownbo, hfin⟩,
    Store_keeps_trans o3 r1⟩
  · rw [← oread]
    apply Store_read_congr
    exact r2 _ o1.1 (fun e _ s hs => hnotin _ _ (List.mem_cons_self _ _) s (hm'.1 e.1 s hs).2)
  · intro k sb hb
    obtain ⟨s', q1, q2⟩ := Shared_Add_fold_key grow b.AuthorizedVols b.AuthorizedVols.entries
      b.AuthorizedVols.nodupKeys _ hsubb k sb
      (a.AuthorizedVols, (h.append grow a.OwnVols (h.read b.OwnVols)).2) hb hm'
    refine ⟨s', q1, ?_⟩
    have hP : ∀ s : Slice, s.inStore h → s.arr ∉ [a.OwnVols.arr, b.OwnVols.arr] →
        (h.append grow a.OwnVols (h.read b.OwnVols)).2.read s = h.read s := by
      intro s hs hnot'
      apply Store_read_congr
      exact o4 s.arr hs.1 (hnotin _ _ (List.mem_cons_self _ _) s hnot')
    have e1 := hP sb (hm.2.2.2.1 k sb hb).1 (hm.2.2.2.1 k sb hb).2
    refine Eq.trans q2 ?_
    show ((a.AuthorizedVols.lookup k).map
      (h.append grow a.OwnVols (h.read b.OwnVols)).2.read).getD []
      ++ (h.append grow a.OwnVols (h.read b.OwnVols)).2.read sb = _
    rw [e1]
    cases hk : a.AuthorizedVols.lookup k with
    | none => rfl
    | some sa =>
      have e2 := hP sa (hm.1 k sa hk).1 (hm.1 k sa hk).2
      show (h.append grow a.OwnVols (h.read b.OwnVols)).2.read sa ++ _ = h.read sa ++ _
      rw [e2]
  · have e1 : (h.append grow a.OwnVols (h.read b.OwnVols)).2.read b.OwnVols = h.read b.OwnVols :=
      Store_read_congr _ (o4 _ hbo.1 (Ne.symm hne))
    rw [← e1]
    apply Store_read_congr
    exact r2 _ hbo'.1 (fun e _ s hs =>
      hnotin _ _ (List.mem_cons_of_mem _ (List.mem_cons_self _ _)) s (hm'.1 e.1 s hs).2)

/-- The function `Add` in the store model on two records that share no backing
array leaves the action lists of the argument unchanged. -/
theorem Shared_Add_separate_frame (grow : Nat → Nat → Nat) (h : Store) (a b : SharedPolicy)
    (hsep : Separate h a b) (k : String) (sb : Slice)
    (hb : b.AuthorizedVols.lookup k = some sb) :
    (Shared.Add grow h a b).2.read sb = h.read sb := by
  obtain ⟨-, f2, f3, -, -, f6⟩ := Separate_facts hsep
  obtain ⟨-, -, o3, o4⟩ := Store_append_frame grow h a.OwnVols (h.read b.OwnVols) hsep.1.1
  obtain ⟨-, r2⟩ := Shared_Add_fold_frame grow b.AuthorizedVols b.AuthorizedVols.entries
    b.AuthorizedVols.nodupKeys (a.AuthorizedVols, (h.append grow a.OwnVols (h.read b.OwnVols)).2)
    (fun e _ s hs => Store_keeps_inStore o3 s (f2 e.1 s hs).1)
  have e1 : (h.append grow a.OwnVols (h.read b.OwnVols)).2.read sb = h.read sb :=
    Store_read_congr _ (o4 _ (f3 k sb hb).1.1 (f3 k sb hb).2.1)
  rw [← e1]
  apply Store_read_congr
  exact r2 _ (lt_of_lt_of_le (f3 k sb hb).1.1 o3.1) (fun e _ s hs => f6 e.1 k s sb hs hb)

/-! ## Delete never allocates -/

theorem Shared_scan_grow (grow grow' : Nat → Nat → Nat) (h : Store) (s : Slice)
    (elem : String) (hs : s.inStore h) :
    ∀ n i, i + n = s.len →
      Shared.removeSlice.scan grow h s elem n i = Shared.removeSlice.scan grow' h s elem n i := by
  intro n
  induction n with
  | zero => intro i _; rfl
  | succ n ih =>
    intro i hi
    unfold Shared.removeSlice.scan
    by_cases hm : h.cell s.arr (s.off + i) = elem
    · rw [if_pos hm, if_pos hm, Store_append_shift grow h s hs i (by omega),
        Store_append_shift grow' h s hs i (by omega)]
    · rw [if_neg hm, if_neg hm]
      exact ih (i + 1) (by omega)

theorem Shared_loop_grow (grow grow' : Nat → Nat → Nat) (rm : Slice) :
    ∀ n j (st : Slice × Store), st.1.inStore st.2 →
      Shared.removeSlice.loop grow rm n j st = Shared.removeSlice.loop grow' rm n j st := by
  intro n
  induction n with
  | zero => intro j st _; rfl
  | succ n ih =>
    intro j st hst
    unfold Shared.removeSlice.loop
    rw [Shared_scan_grow grow grow' st.2 st.1 _ hst st.1.len 0 (by omega)]
    exact ih (j + 1) _ (Shared_scan_refines grow' st.2 st.1 _ hst st.1.len 0 (by omega)).1

/-- The function `removeSlice` never allocates: `append(s[:i], s[i+1:]...)` fits
the capacity of `s`, so the result does not depend on the growth policy. -/
theorem Shared_removeSlice_grow (grow grow' : Nat → Nat → Nat) (h : Store) (s rm : Slice)
    (hs : s.inStore h) :
    Shared.removeSlice grow h s rm = Shared.removeSlice grow' h s rm := by
  unfold Shared.removeSlice
  split
  · rfl
  · exact Shared_loop_grow grow grow' rm rm.len 0 (s, h) hs

theorem Shared_Delete_step_grow (grow grow' : Nat → Nat → Nat) (st : SliceMap × Store)
    (e : Sigma (fun _ : String => Slice))
    (hin : ∀ s, st.1.lookup e.1 = some s → s.inStore st.2) :
    Shared.Delete.step grow st e = Shared.Delete.step grow' st e := by
  unfold Shared.Delete.step
  cases hm : st.1.lookup e.1 with
  | none => rfl
  | some apis =>
    simp only
    rw [Shared_removeSlice_grow grow grow' st.2 apis e.2 (hin apis hm)]

theorem Shared_Delete_fold_grow (grow grow' : Nat → Nat → Nat)
    (l : List (Sigma (fun _ : String => Slice))) (hnd : l.NodupKeys) :
    ∀ st : SliceMap × Store, (∀ e ∈ l, ∀ s, st.1.lookup e.1 = some s → s.inStore st.2) →
      l.foldl (Shared.Delete.step grow) st = l.foldl (Shared.Delete.step grow') st := by
  induction l with
  | nil => intro st _; rfl
  | cons e es ih =>
    intro st hin
    obtain ⟨hnot, hes⟩ := List.nodupKeys_cons.mp hnd
    obtain ⟨s1, -⟩ := Shared_Delete_step_frame grow' st e (hin e (List.mem_cons_self _ _))
    rw [List.foldl_cons, List.foldl_cons,
      Shared_Delete_step_grow grow grow' st e (hin e (List.mem_cons_self _ _))]
    apply ih hes
    intro e' he' s hs
    have hne : e'.1 ≠ e.1 := fun heq => hnot (heq ▸ List.mem_keys_of_mem he')
    rw [Shared_Delete_step_lookup_ne grow' st e e'.1 hne] at hs
    exact Store_keeps_inStore s1 s (hin e' (List.mem_cons_of_mem _ he') s hs)

/-- The function `Delete` never allocates: on a record whose slices fit the
store its result does not depend on the growth policy. -/
theorem Shared_Delete_grow (grow grow' : Nat → Nat → Nat) (h : Store) (a b : SharedPolicy)
    (hfit : a.fits h) :
    Shared.Delete grow h a b = Shared.Delete grow' h a b := by
  obtain ⟨hao, hvals⟩ := hfit
  obtain ⟨-, -, o3⟩ := Shared_removeSlice_frame grow' h a.OwnVols b.OwnVols hao
  have hfold := Shared_Delete_fold_grow grow grow' b.AuthorizedVols.entries
    b.AuthorizedVols.nodupKeys
    (a.AuthorizedVols, (Shared.removeSlice grow' h a.OwnVols b.OwnVols).2)
    (fun e _ s hs => Store_keeps_inStore (Store_keeps_of_sameExcept o3) s
      (hvals ⟨e.1, s⟩ (AList.mem_lookup_iff.mp hs)))
  unfold Shared.Delete
  simp only
  rw [Shared_removeSlice_grow grow grow' h a.OwnVols b.OwnVols hao, hfold]

/-! ## The scenarios under every growth policy

No call of the scenarios with shared backing arrays allocates: their outcome
under the policy `noSpare` is their outcome under every growth policy.
-/

/-- Two states are equal when their slice headers, map entries and stores are. -/
theorem state_ext (p q : SharedPolicy × Store) (h1 : p.1.OwnVols = q.1.OwnVols)
    (h2 : p.1.AuthorizedVols.entries = q.1.AuthorizedVols.entries) (h3 : p.2 = q.2) : p = q := by
  obtain ⟨⟨a, b⟩, c⟩ := p
  obtain ⟨⟨a', b'⟩, c'⟩ := q
  simp only at h1 h2 h3
  rw [h1, AList.ext h2, h3]

/-- The sharing scenario: `Add(sharingB)` onto the empty record and then
`Delete(sharingC)`, under every growth policy. -/
theorem sharingScenario_grow (grow : Nat → Nat → Nat) :
    Shared.Delete grow (Shared.Add grow sharingStore sharingA sharingB).2
        (Shared.Add grow sharingStore sharingA sharingB).1 sharingC
      = Shared.Delete noSpare (Shared.Add noSpare sharingStore sharingA sharingB).2
        (Shared.Add noSpare sharingStore sharingA sharingB).1 sharingC := by
  have hadd : Shared.Add grow sharingStore sharingA sharingB
      = Shared.Add noSpare sharingStore sharingA sharingB :=
    state_ext _ _ (of_decide_eq_true (Eq.refl true)) (of_decide_eq_true (Eq.refl true))
      (of_decide_eq_true (Eq.refl true))
  rw [hadd, Shared_Delete_grow grow noSpare _ _ _ (by decide)]

/-- The adoption scenario: `Add(adoptB)` onto the empty record leads to
`adoptedState` under every growth policy, and so does the `Delete(adoptB)` that
follows. -/
theorem adoptedState_reached (grow : Nat → Nat → Nat) :
    Shared.Add grow adoptStore sharingA adoptB = adoptedState
    ∧ Shared.Delete grow adoptedState.2 adoptedState.1 adoptB
        = Shared.Delete noSpare adoptedState.2 adoptedState.1 adoptB :=
  ⟨state_ext _ _ (of_decide_eq_true (Eq.refl true)) (of_decide_eq_true (Eq.refl true))
      (of_decide_eq_true (Eq.refl true)),
    Shared_Delete_grow grow noSpare _ _ _ (by decide)⟩

/-- The self-argument scenario: `a.Add(a)` followed by `a.Delete(a)`, under every
growth policy. -/
theorem selfScenario_grow (grow : Nat → Nat → Nat) :
    Shared.AddDeleteSelf grow selfStore selfA = Shared.AddDeleteSelf noSpare selfStore selfA := by
  have hadd : Shared.Add grow selfStore selfA selfA = Shared.Add noSpare selfStore selfA selfA :=
    state_ext _ _ (of_decide_eq_true (Eq.refl true)) (of_decide_eq_true (Eq.refl true))
      (of_decide_eq_true (Eq.refl true))
  unfold Shared.AddDeleteSelf
  rw [hadd, Shared_Delete_grow grow noSpare _ _ _ (by decide)]

/-- The calls of the trimming scenario lead to `trimmedState` under every growth
policy. -/
theorem trimmedState_reached (grow : Nat → Nat → Nat) :
    Shared.Delete grow (Shared.Add grow trimStore sharingA trimB).2
      (Shared.Add grow trimStore sharingA trimB).1 trimC = trimmedState := by
  have hadd : Shared.Add grow trimStore sharingA trimB
      = Shared.Add noSpare trimStore sharingA trimB :=
    state_ext _ _ (of_decide_eq_true (Eq.refl true)) (of_decide_eq_true (Eq.refl true))
      (of_decide_eq_true (Eq.refl true))
  rw [hadd, Shared_Delete_grow grow noSpare _ _ _ (by decide)]
  rfl

/-- In the trimming scenario `Add` appends in place, under every growth policy. -/
theorem trimmedState_Add_grow (grow : Nat → Nat → Nat) :
    Shared.Add grow trimmedState.2 trimmedState.1 trimB
      = Shared.Add noSpare trimmedState.2 trimmedState.1 trimB :=
  state_ext _ _ (of_decide_eq_true (Eq.refl true)) (of_decide_eq_true (Eq.refl true))
    (of_decide_eq_true (Eq.refl true))

/-- In the trimming scenario the second `Add` appends in place as well. -/
theorem trimmedState_AddTwice_grow (grow : Nat → Nat → Nat) :
    Shared.AddTwice grow trimmedState.2 trimmedState.1 trimB
      = Shared.AddTwice noSpare trimmedState.2 trimmedState.1 trimB := by
  have hadd : Shared.Add grow (Shared.Add noSpare trimmedState.2 trimmedState.1 trimB).2
        (Shared.Add noSpare trimmedState.2 trimmedState.1 trimB).1 trimB
      = Shared.Add noSpare (Shared.Add noSpare trimmedState.2 trimmedState.1 trimB).2
        (Shared.Add noSpare trimmedState.2 trimmedState.1 trimB).1 trimB :=
    state_ext _ _ (of_decide_eq_true (Eq.refl true)) (of_decide_eq_true (Eq.refl true))
      (of_decide_eq_true (Eq.refl true))
  unfold Shared.AddTwice
  rw [trimmedState_Add_grow grow, hadd]

/-! ## Delete keeps the keys, whatever the sharing -/

theorem Shared_Delete_step_mem (grow : Nat → Nat → Nat) (st : SliceMap × Store)
    (e : Sigma (fun _ : String => Slice)) (k : String) :
    k ∈ (Shared.Delete.step grow st e).1 ↔ k ∈ st.1 := by
  unfold Shared.Delete.step
  cases hm : st.1.lookup e.1 with
  | none => exact Iff.rfl
  | some apis =>
    have he : e.1 ∈ st.1 := by
      rw [← AList.lookup_isSome, hm]
      rfl
    simp only [AList.mem_insert]
    constructor
    · rintro (hk | hk)
      · exact hk ▸ he
      · exact hk
    · exact fun hk => Or.inr hk

/-- In the store model, whatever arrays the records share, `Delete` neither
removes nor creates a key of the receiver. -/
theorem Shared_Delete_keeps_keys (grow : Nat → Nat → Nat) (h : Store) (a b : SharedPolicy)
    (k : String) :
    k ∈ (Shared.Delete grow h a b).1.AuthorizedVols ↔ k ∈ a.AuthorizedVols := by
  have hfold : ∀ (l : List (Sigma (fun _ : String => Slice))) (st : SliceMap × Store),
      k ∈ (l.foldl (Shared.Delete.step grow) st).1 ↔ k ∈ st.1 := by
    intro l
    induction l with
    | nil => intro st; exact Iff.rfl
    | cons e es ih =>
      intro st
      rw [List.foldl_cons]
      exact (ih _).trans (Shared_Delete_step_mem grow st e k)
  exact hfold b.AuthorizedVols.entries _

/-! ## Two records: Delete, Add then Delete, Add twice

The statements of this section are made in the store model, where a record is
a set of slice headers and the elements are read from the backing arrays: it is
the model in which the argument of a call can share an array with the receiver,
or be the receiver.
-/

/-- The list `OwnVols` after `a.Add(b)` followed by `a.Delete(b)` on two records
that share no backing array, in terms of the elements before the calls. -/
theorem Shared_AddDelete_OwnVols (grow : Nat → Nat → Nat) (h : Store) (a b : SharedPolicy)
    (hsep : Separate h a b) :
    (Shared.AddDelete grow h a b).2.read (Shared.AddDelete grow h a b).1.OwnVols
      = removeFirstEach (h.read a.OwnVols ++ h.read b.OwnVols) (h.read b.OwnVols) := by
  obtain ⟨r1, -, r3, ⟨q1, q2, q3, q4⟩, -⟩ := Shared_Add_ready grow h a b (Separate_AddReady hsep)
  have hd := Shared_Delete_OwnVols grow (Shared.Add grow h a b).2 (Shared.Add grow h a b).1 b
    q1 q2 q3 (fun k s hs => ⟨(q4.1 k s hs).1, fun heq => (q4.1 k s hs).2
      (heq ▸ List.mem_cons_self _ _)⟩)
  unfold Shared.AddDelete
  rw [hd, r1, r3, removeSlice_eq]

/-- C2, as stated for every pair of records, fails when a list of `a` shares its
backing array with the list of `b` for the same key, as it does after `a.Add(b)`
has adopted the list: with `b = {"vol1": ["read","write","list"]}` and `a` the
empty record after `a.Add(b)`, both records hold the same slice for `"vol1"`,
and `a.Delete(b)` leaves `a` with `["write"]`, where deleting the first match of
each action of `b`'s list in order leaves nothing.  No call allocates, so this
is the outcome under every growth policy (`adoptedState_reached`). -/
theorem C2_Delete_of_adopted_list_leaves_write :
    adoptedState.1.AuthorizedVols.lookup "vol1"
        = some { arr := 0, off := 0, len := 3, cap := 3 }
    ∧ adoptB.AuthorizedVols.lookup "vol1" = some { arr := 0, off := 0, len := 3, cap := 3 }
    ∧ adoptedState.2.read { arr := 0, off := 0, len := 3, cap := 3 } = ["read", "write", "list"]
    ∧ (Shared.Delete noSpare adoptedState.2 adoptedState.1 adoptB).1.AuthorizedVols.lookup "vol1"
        = some { arr := 0, off := 0, len := 1, cap := 3 }
    ∧ (Shared.Delete noSpare adoptedState.2 adoptedState.1 adoptB).2.read
        { arr := 0, off := 0, len := 1, cap := 3 } = ["write"]
    ∧ removeFirstEach ["read", "write", "list"] ["read", "write", "list"] = [] := by
  decide

/-- C2, amended: for every pair of records `a` and `b` that share no backing
array, after `a.Delete(b)` the list `a.OwnVols` holds its old elements from
which, for each entry of `b.OwnVols` in order, the first remaining exact match
has been deleted, and likewise the action list of every key of both records; so
each entry of the removal list takes away at most one copy, and the number of
copies of `x` left is the old number minus the number of copies of `x` in the
removal list. -/
theorem C2_Delete_removes_first_matches (grow : Nat → Nat → Nat) (h : Store)
    (a b : SharedPolicy) (hsep : Separate h a b) :
    (Shared.Delete grow h a b).2.read (Shared.Delete grow h a b).1.OwnVols
        = removeFirstEach (h.read a.OwnVols) (h.read b.OwnVols)
    ∧ (∀ x, ((Shared.Delete grow h a b).2.read (Shared.Delete grow h a b).1.OwnVols).count x
        = (h.read a.OwnVols).count x - (h.read b.OwnVols).count x)
    ∧ (∀ k sa sb, a.AuthorizedVols.lookup k = some sa → b.AuthorizedVols.lookup k = some sb →
        ∃ s', (Shared.Delete grow h a b).1.AuthorizedVols.lookup k = some s'
          ∧ (Shared.Delete grow h a b).2.read s' = removeFirstEach (h.read sa) (h.read sb)
          ∧ ∀ x, ((Shared.Delete grow h a b).2.read s').count x
              = (h.read sa).count x - (h.read sb).count x) := by
  obtain ⟨d1, d2, -, -⟩ := Shared_Delete_separate grow h a b hsep
  rw [removeSlice_eq] at d1
  refine ⟨d1, fun x => ?_, fun k sa sb ha hb => ?_⟩
  · rw [d1, removeFirstEach_count]
  · obtain ⟨s', e1, e2⟩ := d2 k sa sb ha hb
    rw [removeSlice_eq] at e2
    exact ⟨s', e1, e2, fun x => by rw [e2, removeFirstEach_count]⟩

/-- C2 amended, at `a = {OwnVols: ["vol1","vol2"], "vol1": ["read","write"]}` and
`b = {OwnVols: ["vol1"], "vol1": ["read"]}`, every list in an array of its own:
`a` is left with `OwnVols = ["vol2"]` and `{"vol1": ["write"]}`. -/
theorem C2_Delete_removes_first_matches_witness :
    Separate apartStore apartA apartB
    ∧ (Shared.Delete noSpare apartStore apartA apartB).2.read
        (Shared.Delete noSpare apartStore apartA apartB).1.OwnVols = ["vol2"]
    ∧ (Shared.Delete noSpare apartStore apartA apartB).1.actions
        (Shared.Delete noSpare apartStore apartA apartB).2 "vol1" = ["write"] := by
  obtain ⟨d1, -, d3⟩ :=
    C2_Delete_removes_first_matches noSpare apartStore apartA apartB (by decide)
  obtain ⟨s', e1, e2, -⟩ := d3 "vol1" { arr := 2, off := 0, len := 2, cap := 2 }
    { arr := 3, off := 0, len := 1, cap := 1 } (by decide) (by decide)
  refine ⟨by decide, d1.trans (by decide), ?_⟩
  unfold SharedPolicy.actions
  rw [e1]
  exact e2.trans (by decide)

/-- C7, as stated for all records, fails when the argument is the receiver:
with `a.OwnVols = ["vol1","vol2"]`, the call `a.Add(a)` gives
`["vol1","vol2","vol1","vol2"]` and `a.Delete(a)` then removes all four entries,
so the number of entries is 0 and not 2.  No call allocates, so this is the
outcome under every growth policy (`selfScenario_grow`). -/
theorem C7_Add_Delete_of_itself_empties_OwnVols :
    selfStore.read selfA.OwnVols = ["vol1", "vol2"]
    ∧ (Shared.Add noSpare selfStore selfA selfA).2.read
        (Shared.Add noSpare selfStore selfA selfA).1.OwnVols = ["vol1", "vol2", "vol1", "vol2"]
    ∧ ((Shared.AddDeleteSelf noSpare selfStore selfA).2.read
        (Shared.AddDeleteSelf noSpare selfStore selfA).1.OwnVols).length = 0
    ∧ (selfStore.read selfA.OwnVols).length = 2 := by
  decide

/-- C7, amended: for all records `a` and `b` that share no backing array,
`a.Add(b)` followed immediately by `a.Delete(b)` restores the number of entries
of `a.OwnVols`. -/
theorem C7_Add_Delete_restores_OwnVols_count (grow : Nat → Nat → Nat) (h : Store)
    (a b : SharedPolicy) (hsep : Separate h a b) :
    ((Shared.AddDelete grow h a b).2.read (Shared.AddDelete grow h a b).1.OwnVols).length
      = (h.read a.OwnVols).length := by
  rw [Shared_AddDelete_OwnVols grow h a b hsep]
  exact (removeFirstEach_append _ _).length_eq

/-- C7 amended, at `a.OwnVols = ["vol1","vol2"]` and `b.OwnVols = ["vol1"]` in
arrays of their own: two entries before, two entries after. -/
theorem C7_Add_Delete_restores_OwnVols_count_witness :
    Separate apartStore apartA apartB
    ∧ ((Shared.AddDelete noSpare apartStore apartA apartB).2.read
        (Shared.AddDelete noSpare apartStore apartA apartB).1.OwnVols).length = 2 :=
  ⟨by decide,
    (C7_Add_Delete_restores_OwnVols_count noSpare apartStore apartA apartB (by decide)).trans
      (by decide)⟩

/-- C8: `Add` followed immediately by `Delete` is not an inverse on action-list
counts.  There are records `a` and `b` with a key `k` in both maps and an action
name in both lists for `k`, such that after `a.Add(b)` followed by `a.Delete(b)`
the length of `a`'s list for `k` differs from its length before the `Add`,
whatever the growth policy of `append`.  The records are those of the trimming
scenario: `a = {"vol1": ["read"]}` is a window of length 1 into the array of
`b = {"vol1": ["read","write","list","delete"]}`, the state that the empty record
reaches by `Add(b)` followed by `Delete` of `{"vol1": ["delete","list","write"]}`
(`trimmedState_reached`); `Add` appends in place over the cells of `b`'s list,
`Delete` then reads the actions to remove from the overwritten cells, and `a` is
left with `["read","list"]`. -/
theorem C8_Add_Delete_changes_action_count :
    ∃ (h : Store) (a b : SharedPolicy) (k : String) (sa sb : Slice),
      a.fits h ∧ b.fits h
      ∧ a.AuthorizedVols.lookup k = some sa ∧ b.AuthorizedVols.lookup k = some sb
      ∧ (∃ x, x ∈ h.read sa ∧ x ∈ h.read sb)
      ∧ ∀ grow : Nat → Nat → Nat, ∃ s',
          (Shared.AddDelete grow h a b).1.AuthorizedVols.lookup k = some s'
          ∧ ((Shared.AddDelete grow h a b).2.read s').length ≠ (h.read sa).length := by
  refine ⟨trimmedState.2, trimmedState.1, trimB, "vol1",
    { arr := 0, off := 0, len := 1, cap := 10 }, { arr := 0, off := 0, len := 4, cap := 10 },
    by decide, by decide, by decide, by decide, ⟨"read", by decide, by decide⟩, ?_⟩
  intro grow
  unfold Shared.AddDelete
  rw [trimmedState_Add_grow grow, Shared_Delete_grow grow noSpare _ _ _ (by decide)]
  exact ⟨{ arr := 0, off := 0, len := 2, cap := 10 }, by decide, by decide⟩

/-- C9, as stated for all records, fails when `a`'s list for a key is a window
into the array of `b`'s list with spare capacity: in the trimming scenario
`a = {"vol1": ["read"]}` and `b = {"vol1": ["read","write","list","delete"]}`
share array 0, the first `a.Add(b)` appends in place and rewrites `b`'s list to
`["read","read","write","list"]`, and the second call appends that list: `a`
ends with nine actions that are not `["read"]` followed by `b`'s list twice.
No call allocates, so this is the outcome under every growth policy
(`trimmedState_AddTwice_grow`). -/
theorem C9_Add_twice_onto_shared_list :
    trimmedState.1.AuthorizedVols.lookup "vol1"
        = some { arr := 0, off := 0, len := 1, cap := 10 }
    ∧ trimB.AuthorizedVols.lookup "vol1" = some { arr := 0, off := 0, len := 4, cap := 10 }
    ∧ trimmedState.2.read { arr := 0, off := 0, len := 1, cap := 10 } = ["read"]
    ∧ trimmedState.2.read { arr := 0, off := 0, len := 4, cap := 10 }
        = ["read", "write", "list", "delete"]
    ∧ (Shared.AddTwice noSpare trimmedState.2 trimmedState.1 trimB).1.AuthorizedVols.lookup "vol1"
        = some { arr := 0, off := 0, len := 9, cap := 10 }
    ∧ (Shared.AddTwice noSpare trimmedState.2 trimmedState.1 trimB).2.read
        { arr := 0, off := 0, len := 9, cap := 10 }
        = ["read", "read", "write", "list", "delete", "read", "read", "write", "list"]
    ∧ (Shared.AddTwice noSpare trimmedState.2 trimmedState.1 trimB).2.read
        { arr := 0, off := 0, len := 9, cap := 10 }
        ≠ ["read"] ++ ["read", "write", "list", "delete"] ++ ["read", "write", "list", "delete"] := by
  decide

/-- C9, amended: for all records `a` and `b` that share no backing array,
calling `a.Add(b)` twice in a row leaves `a.OwnVols` holding its original
elements followed by those of `b.OwnVols` twice, and for every key of `b` leaves
`a`'s action list holding `a`'s original list for that key (empty if the key
was absent) followed by `b`'s list twice; so whenever `b.OwnVols` is non-empty
the second call changes `a` again. -/
theorem C9_Add_twice_doubles (grow : Nat → Nat → Nat) (h : Store) (a b : SharedPolicy)
    (hsep : Separate h a b) :
    (Shared.AddTwice grow h a b).2.read (Shared.AddTwice grow h a b).1.OwnVols
        = h.read a.OwnVols ++ h.read b.OwnVols ++ h.read b.OwnVols
    ∧ (∀ k sb, b.AuthorizedVols.lookup k = some sb →
        ∃ s', (Shared.AddTwice grow h a b).1.AuthorizedVols.lookup k = some s'
          ∧ (Shared.AddTwice grow h a b).2.read s'
              = ((a.AuthorizedVols.lookup k).map h.read).getD [] ++ h.read sb ++ h.read sb)
    ∧ (h.read b.OwnVols ≠ [] →
        (Shared.AddTwice grow h a b).2.read (Shared.AddTwice grow h a b).1.OwnVols
          ≠ (Shared.Add grow h a b).2.read (Shared.Add grow h a b).1.OwnVols) := by
  obtain ⟨r1, r2, r3, r4, -⟩ := Shared_Add_ready grow h a b (Separate_AddReady hsep)
  obtain ⟨t1, t2, -, -, -⟩ := Shared_Add_ready grow (Shared.Add grow h a b).2
    (Shared.Add grow h a b).1 b r4
  have hown : (Shared.AddTwice grow h a b).2.read (Shared.AddTwice grow h a b).1.OwnVols
      = h.read a.OwnVols ++ h.read b.OwnVols ++ h.read b.OwnVols := by
    unfold Shared.AddTwice
    rw [t1, r1, r3]
  refine ⟨hown, fun k sb hb => ?_, fun hne heq => ?_⟩
  · obtain ⟨s1, e1, e2⟩ := r2 k sb hb
    obtain ⟨s2, f1, f2⟩ := t2 k sb hb
    refine ⟨s2, f1, ?_⟩
    unfold Shared.AddTwice
    rw [f2, e1, Shared_Add_separate_frame grow h a b hsep k sb hb]
    show (Shared.Add grow h a b).2.read s1 ++ h.read sb = _
    rw [e2]
  · rw [hown, r1] at heq
    exact hne (List.append_cancel_left (heq.trans (List.append_nil _).symm))

/-- C9 amended, at `a = {OwnVols: ["vol1","vol2"], "vol1": ["read","write"]}` and
`b = {OwnVols: ["vol1"], "vol1": ["read"]}`, every list in an array of its
own. -/
theorem C9_Add_twice_doubles_witness :
    Separate apartStore apartA apartB
    ∧ (Shared.AddTwice noSpare apartStore apartA apartB).2.read
        (Shared.AddTwice noSpare apartStore apartA apartB).1.OwnVols
        = ["vol1", "vol2", "vol1", "vol1"]
    ∧ (Shared.AddTwice noSpare apartStore apartA apartB).1.actions
        (Shared.AddTwice noSpare apartStore apartA apartB).2 "vol1"
        = ["read", "write", "read", "read"]
    ∧ (Shared.AddTwice noSpare apartStore apartA apartB).2.read
        (Shared.AddTwice noSpare apartStore apartA apartB).1.OwnVols
        ≠ (Shared.Add noSpare apartStore apartA apartB).2.read
          (Shared.Add noSpare apartStore apartA apartB).1.OwnVols := by
  obtain ⟨d1, d2, d3⟩ := C9_Add_twice_doubles noSpare apartStore apartA apartB (by decide)
  obtain ⟨s', e1, e2⟩ := d2 "vol1" { arr := 3, off := 0, len := 1, cap := 1 } (by decide)
  refine ⟨by decide, d1.trans (by decide), ?_, d3 (by decide)⟩
  unfold SharedPolicy.actions
  rw [e1]
  exact e2.trans (by decide)

/-- C17, as stated for all records, fails when a duplicate-free list of `a` is
the list of `b` itself, adopted by `a.Add(b)`: with
`b = {"vol1": ["read","write","list"]}` and `a` the empty record after
`a.Add(b)`, the record `a` is duplicate-free, yet `a.Delete(b)` leaves `a` with
`["write"]`, an action of `b`'s list (of the list as it was before the call and
as it is after it).  No call allocates, so this is the outcome under every
growth policy (`adoptedState_reached`). -/
theorem C17_Delete_of_adopted_list_keeps_an_action :
    (adoptedState.2.read adoptedState.1.OwnVols).Nodup
    ∧ adoptedState.1.AuthorizedVols.entries
        = [⟨"vol1", { arr := 0, off := 0, len := 3, cap := 3 }⟩]
    ∧ adoptB.AuthorizedVols.lookup "vol1" = some { arr := 0, off := 0, len := 3, cap := 3 }
    ∧ (adoptedState.2.read { arr := 0, off := 0, len := 3, cap := 3 }).Nodup
    ∧ (Shared.Delete noSpare adoptedState.2 adoptedState.1 adoptB).1.AuthorizedVols.lookup "vol1"
        = some { arr := 0, off := 0, len := 1, cap := 3 }
    ∧ "write" ∈ (Shared.Delete noSpare adoptedState.2 adoptedState.1 adoptB).2.read
        { arr := 0, off := 0, len := 1, cap := 3 }
    ∧ "write" ∈ adoptedState.2.read { arr := 0, off := 0, len := 3, cap := 3 }
    ∧ "write" ∈ (Shared.Delete noSpare adoptedState.2 adoptedState.1 adoptB).2.read
        { arr := 0, off := 0, len := 3, cap := 3 } := by
  decide

/-- C17, amended: on a duplicate-free record `Delete` of a record that shares no
backing array with it is a true set difference: when `a.OwnVols` and every
action list of `a` have no duplicates, then after `a.Delete(b)` no entry of
`b.OwnVols` occurs in `a.OwnVols`, and for every key of both records no action
of `b`'s list occurs in `a`'s list. -/
theorem C17_Delete_is_set_difference (grow : Nat → Nat → Nat) (h : Store) (a b : SharedPolicy)
    (hsep : Separate h a b) (hown : (h.read a.OwnVols).Nodup)
    (hmap : ∀ e ∈ a.AuthorizedVols.entries, (h.read e.2).Nodup) :
    (∀ x ∈ h.read b.OwnVols,
        x ∉ (Shared.Delete grow h a b).2.read (Shared.Delete grow h a b).1.OwnVols)
    ∧ (∀ k sa sb, a.AuthorizedVols.lookup k = some sa → b.AuthorizedVols.lookup k = some sb →
        ∃ s', (Shared.Delete grow h a b).1.AuthorizedVols.lookup k = some s'
          ∧ ∀ x ∈ h.read sb, x ∉ (Shared.Delete grow h a b).2.read s') := by
  obtain ⟨d1, d2, -, -⟩ := Shared_Delete_separate grow h a b hsep
  rw [removeSlice_eq] at d1
  constructor
  · rw [d1]
    exact removeFirstEach_nodup_not_mem _ _ hown
  · intro k sa sb ha hb
    obtain ⟨s', e1, e2⟩ := d2 k sa sb ha hb
    rw [removeSlice_eq] at e2
    refine ⟨s', e1, ?_⟩
    rw [e2]
    exact removeFirstEach_nodup_not_mem _ _ (hmap ⟨k, sa⟩ (SliceMap_lookup_mem _ k sa ha))

/-- C17 amended, at `a = {OwnVols: ["vol1","vol2"], "vol1": ["read","write"]}` and
`b = {OwnVols: ["vol1"], "vol1": ["read"]}`, every list in an array of its
own. -/
theorem C17_Delete_is_set_difference_witness :
    Separate apartStore apartA apartB
    ∧ "vol1" ∉ (Shared.Delete noSpare apartStore apartA apartB).2.read
        (Shared.Delete noSpare apartStore apartA apartB).1.OwnVols
    ∧ "read" ∉ (Shared.Delete noSpare apartStore apartA apartB).1.actions
        (Shared.Delete noSpare apartStore apartA apartB).2 "vol1" := by
  obtain ⟨d1, d2⟩ := C17_Delete_is_set_difference noSpare apartStore apartA apartB
    (by decide) (by decide) (by decide)
  obtain ⟨s', e1, e2⟩ := d2 "vol1" { arr := 2, off := 0, len := 2, cap := 2 }
    { arr := 3, off := 0, len := 1, cap := 1 } (by decide) (by decide)
  refine ⟨by decide, d1 "vol1" (by decide), ?_⟩
  unfold SharedPolicy.actions
  rw [e1]
  exact e2 "read" (by decide)

/-- C19, as stated for all records, fails when the argument is the receiver:
with `a.OwnVols = ["vol1","vol2"]`, after `a.Add(a)` followed by `a.Delete(a)`
the list `a.OwnVols` is empty, which is no permutation of `["vol1","vol2"]`.
No call allocates, so this is the outcome under every growth policy
(`selfScenario_grow`). -/
theorem C19_Add_Delete_of_itself_is_no_permutation :
    selfStore.read selfA.OwnVols = ["vol1", "vol2"]
    ∧ (Shared.AddDeleteSelf noSpare selfStore selfA).2.read
        (Shared.AddDeleteSelf noSpare selfStore selfA).1.OwnVols = []
    ∧ ¬ ((Shared.AddDeleteSelf noSpare selfStore selfA).2.read
        (Shared.AddDeleteSelf noSpare selfStore selfA).1.OwnVols).Perm
          (selfStore.read selfA.OwnVols) := by
  decide

/-- C19, amended: for all records `a` and `b` that share no backing array, after
`a.Add(b)` followed immediately by `a.Delete(b)` the list `a.OwnVols` is a
permutation of `a.OwnVols` before the `Add`; and the order of the entries can
differ from the original order. -/
theorem C19_Add_Delete_permutes_OwnVols (grow : Nat → Nat → Nat) (h : Store)
    (a b : SharedPolicy) (hsep : Separate h a b) :
    ((Shared.AddDelete grow h a b).2.read (Shared.AddDelete grow h a b).1.OwnVols).Perm
        (h.read a.OwnVols)
    ∧ (∃ (h' : Store) (a' b' : SharedPolicy), Separate h' a' b'
        ∧ (Shared.AddDelete grow h' a' b').2.read (Shared.AddDelete grow h' a' b').1.OwnVols
            ≠ h'.read a'.OwnVols) := by
  constructor
  · rw [Shared_AddDelete_OwnVols grow h a b hsep]
    exact removeFirstEach_append _ _
  · refine ⟨apartStore, apartA, apartB, by decide, ?_⟩
    rw [Shared_AddDelete_OwnVols grow apartStore apartA apartB (by decide)]
    decide

/-- C19 amended, at `a.OwnVols = ["vol1","vol2"]` and `b.OwnVols = ["vol1"]` in
arrays of their own: the result `["vol2","vol1"]` is a permutation of
`["vol1","vol2"]` in another order. -/
theorem C19_Add_Delete_permutes_OwnVols_witness :
    Separate apartStore apartA apartB
    ∧ ((Shared.AddDelete noSpare apartStore apartA apartB).2.read
        (Shared.AddDelete noSpare apartStore apartA apartB).1.OwnVols).Perm ["vol1", "vol2"]
    ∧ (Shared.AddDelete noSpare apartStore apartA apartB).2.read
        (Shared.AddDelete noSpare apartStore apartA apartB).1.OwnVols = ["vol2", "vol1"] :=
  ⟨by decide,
    (C19_Add_Delete_permutes_OwnVols noSpare apartStore apartA apartB (by decide)).1,
    by decide⟩

/-! ## Totality: the nil map -/

theorem foldlM_some_embed {α β γ : Type} (f : β → α → β) (g : γ → α → Option γ) (φ : β → γ)
    (hg : ∀ b a, g (φ b) a = some (φ (f b a))) (l : List α) (b : β) :
    l.foldlM g (φ b) = some (φ (l.foldl f b)) := by
  induction l generalizing b with
  | nil => rfl
  | cons a as ih =>
    rw [List.foldlM_cons, hg, List.foldl_cons]
    exact ih (f b a)

theorem foldlM_isSome {α β : Type} (g : β → α → Option β)
    (hg : ∀ b a, (g b a).isSome = true) (l : List α) (b : β) :
    (l.foldlM g b).isSome = true := by
  induction l generalizing b with
  | nil => rfl
  | cons a as ih =>
    rw [List.foldlM_cons]
    obtain ⟨b', hb'⟩ := Option.isSome_iff_exists.mp (hg b a)
    rw [hb']
    exact ih b'

theorem foldlM_isSome_of_inv {α β : Type} (g : β → α → Option β) (P : β → Prop)
    (hg : ∀ b a, P b → ∃ b', g b a = some b' ∧ P b') (l : List α) (b : β) (hb : P b) :
    (l.foldlM g b).isSome = true := by
  induction l generalizing b with
  | nil => rfl
  | cons a as ih =>
    obtain ⟨b', hb', hP⟩ := hg b a hb
    rw [List.foldlM_cons, hb']
    exact ih b' hP

theorem RawPolicy_Add_step_some (addVols : Option GoMap) (g : GoMap)
    (e : Sigma (fun _ : String => List String)) :
    ∃ g', RawPolicy.Add.step addVols (some g) e = some (some g') := by
  unfold RawPolicy.Add.step
  cases mapIndex (some g) e.1 with
  | none => exact ⟨_, rfl⟩
  | some apis => exact ⟨_, rfl⟩

theorem RawPolicy_Add_fold_some (addVols : Option GoMap)
    (l : List (Sigma (fun _ : String => List String))) (g : GoMap) :
    ∃ g', l.foldlM (RawPolicy.Add.step addVols) (some g) = some (some g') := by
  induction l generalizing g with
  | nil => exact ⟨g, rfl⟩
  | cons e es ih =>
    obtain ⟨g', hg'⟩ := RawPolicy_Add_step_some addVols g e
    rw [List.foldlM_cons, hg']
    exact ih g'

theorem RawPolicy_Add_step_initialised (bm m : GoMap) (e : Sigma (fun _ : String => List String)) :
    RawPolicy.Add.step (some bm) (some m) e = some (some (Add.step bm m e)) := by
  unfold RawPolicy.Add.step Add.step
  show (match m.lookup e.1 with
    | some apis => mapAssign (some m) e.1 (apis ++ (bm.lookup e.1).getD [])
    | none => mapAssign (some m) e.1 e.2) = _
  cases m.lookup e.1 with
  | none => rfl
  | some apis => rfl

theorem RawPolicy_Delete_step_isSome (m : Option GoMap)
    (e : Sigma (fun _ : String => List String)) :
    (RawPolicy.Delete.step m e).isSome = true := by
  unfold RawPolicy.Delete.step
  cases m with
  | none => rfl
  | some g =>
    show (match g.lookup e.1 with
      | some apis => (removeSliceBounded apis e.2).bind (fun l => mapAssign (some g) e.1 l)
      | none => some (some g)).isSome = true
    cases g.lookup e.1 with
    | none => rfl
    | some apis =>
      show ((removeSliceBounded apis e.2).bind (fun l => mapAssign (some g) e.1 l)).isSome = true
      rw [removeSliceBounded_eq]
      rfl

theorem RawPolicy_Delete_step_initialised (m : GoMap)
    (e : Sigma (fun _ : String => List String)) :
    RawPolicy.Delete.step (some m) e = some (some (Delete.step m e)) := by
  unfold RawPolicy.Delete.step Delete.step
  show (match m.lookup e.1 with
    | some apis => (removeSliceBounded apis e.2).bind (fun l => mapAssign (some m) e.1 l)
    | none => some (some m)) = _
  cases m.lookup e.1 with
  | none => rfl
  | some apis =>
    show (removeSliceBounded apis e.2).bind (fun l => mapAssign (some m) e.1 l) = _
    rw [removeSliceBounded_eq]
    rfl

theorem RawPolicy_CleanPolicy_fold_some (l : List (Sigma (fun _ : String => List String)))
    (g : GoMap) :
    l.foldlM RawPolicy.CleanPolicy.step (some g)
      = some (some (l.foldl (fun (m : GoMap) (e : Sigma (fun _ : String => List String)) =>
          m.insert e.1 (CleanPolicy.clean e.2)) g)) :=
  foldlM_some_embed (fun (m : GoMap) (e : Sigma (fun _ : String => List String)) =>
      m.insert e.1 (CleanPolicy.clean e.2))
    RawPolicy.CleanPolicy.step some (fun _ _ => rfl) l g

theorem Shared_scanChecked_eq (grow : Nat → Nat → Nat) (h : Store) (s : Slice) (elem : String) :
    ∀ n i, i + n = s.len →
      Shared.removeSlice.scanChecked grow h s elem n i
        = some (Shared.removeSlice.scan grow h s elem n i) := by
  intro n
  induction n with
  | zero => intro i _; rfl
  | succ n ih =>
    intro i hi
    unfold Shared.removeSlice.scanChecked Shared.removeSlice.scan
    by_cases hm : h.cell s.arr (s.off + i) = elem
    · rw [if_pos hm, if_pos hm]
      unfold Slice.upToChecked Slice.fromIdxChecked
      rw [if_pos (by omega), if_pos (by omega)]
      rfl
    · rw [if_neg hm, if_neg hm]
      exact ih (i + 1) (by omega)

theorem Shared_loopChecked_eq (grow : Nat → Nat → Nat) (rm : Slice) :
    ∀ n j (st : Slice × Store),
      Shared.removeSlice.loopChecked grow rm n j st
        = some (Shared.removeSlice.loop grow rm n j st) := by
  intro n
  induction n with
  | zero => intro j st; rfl
  | succ n ih =>
    intro j st
    unfold Shared.removeSlice.loopChecked Shared.removeSlice.loop
    rw [Shared_scanChecked_eq grow st.2 st.1 _ st.1.len 0 (by omega)]
    exact ih (j + 1) _

/-- In the store model, whatever arrays the two slices share, every slice
expression that `removeSlice` evaluates has its bounds within the current length
of `s`. -/
theorem Shared_removeSliceChecked_eq (grow : Nat → Nat → Nat) (h : Store) (s rm : Slice) :
    Shared.removeSliceChecked grow h s rm = some (Shared.removeSlice grow h s rm) := by
  unfold Shared.removeSliceChecked Shared.removeSlice
  split
  · rfl
  · exact Shared_loopChecked_eq grow rm rm.len 0 (s, h)

/-- C15, as stated for every record, fails on a record whose `AuthorizedVols` is
nil, such as the zero value `&UserPolicy{}`: `Add` of the record
`{"vol1": ["read"]}` reaches the assignment `policy.AuthorizedVols[k] = v` of
line 137 on a nil map and panics. -/
theorem C15_Add_on_nil_map_panics :
    (RawPolicy.mk [] none).Add (RawPolicy.mk [] (some (GoMap.single "vol1" ["read"]))) = none := by
  rfl

/-- C15, amended: the operations fail only in `Add` on a nil map.  On records
with an initialised map (as `NewUserPolicy` and `CleanPolicy` build them) the
five operations complete, without a failing map assignment or slice expression,
and return what the value model returns.  `AddOwnVol`, `RemoveOwnVol`, `Delete`
and `CleanPolicy` complete on every record and argument, nil maps included.
`Add` completes exactly when the map of the receiver is initialised or the
argument has no key.  Every slice expression `s[:i]` and `s[i+1:]` evaluated by
`removeSlice` has its bounds within the current length of the slice, also in the
store model, whatever backing arrays the slices share. -/
theorem C15_operations_fail_only_on_nil_map :
    (∀ (r : UserPolicy) (v : String), r.raw.AddOwnVol v = some (r.AddOwnVol v).raw)
    ∧ (∀ (r : UserPolicy) (v : String), r.raw.RemoveOwnVol v = some (r.RemoveOwnVol v).raw)
    ∧ (∀ a b : UserPolicy, a.raw.Add b.raw = some (a.Add b).raw)
    ∧ (∀ a b : UserPolicy, a.raw.Delete b.raw = some (a.Delete b).raw)
    ∧ (∀ r : UserPolicy, r.raw.CleanPolicy = some (CleanPolicy r).raw)
    ∧ (∀ (r : RawPolicy) (v : String), (r.AddOwnVol v).isSome = true)
    ∧ (∀ (r : RawPolicy) (v : String), (r.RemoveOwnVol v).isSome = true)
    ∧ (∀ a b : RawPolicy, (a.Delete b).isSome = true)
    ∧ (∀ r : RawPolicy, r.CleanPolicy.isSome = true)
    ∧ (∀ a b : RawPolicy, (a.Add b).isSome = true
        ↔ (a.AuthorizedVols.isSome = true ∨ mapRange b.AuthorizedVols = []))
    ∧ (∀ s rm : List String, removeSliceBounded s rm = some (removeSlice s rm))
    ∧ (∀ (grow : Nat → Nat → Nat) (h : Store) (s rm : Slice),
        Shared.removeSliceChecked grow h s rm = some (Shared.removeSlice grow h s rm)) := by
  have hrem : ∀ (vols : List String) (v : String),
      RemoveOwnVol.loopBounded vols v 0 vols = some (RemoveOwnVol.loop vols v 0 vols) := by
    intro vols v
    have := RemoveOwnVol_loopBounded_eq v vols []
    simpa using this
  refine ⟨?_, ?_, ?_, ?_, ?_, ?_, ?_, ?_, ?_, ?_, removeSliceBounded_eq,
    Shared_removeSliceChecked_eq⟩
  · intro r v
    unfold RawPolicy.AddOwnVol UserPolicy.AddOwnVol
    show (if AddOwnVol.scan v r.OwnVols then _ else _) = _
    split <;> rfl
  · intro r v
    unfold RawPolicy.RemoveOwnVol UserPolicy.RemoveOwnVol
    show (RemoveOwnVol.loopBounded r.OwnVols v 0 r.OwnVols).map _ = _
    rw [hrem]
    rfl
  · intro a b
    unfold RawPolicy.Add UserPolicy.Add
    show ((b.AuthorizedVols.entries.foldlM (RawPolicy.Add.step (some b.AuthorizedVols))
      (some a.AuthorizedVols)).map _) = _
    rw [foldlM_some_embed (Add.step b.AuthorizedVols) (RawPolicy.Add.step (some b.AuthorizedVols))
      some (RawPolicy_Add_step_initialised b.AuthorizedVols)]
    rfl
  · intro a b
    unfold RawPolicy.Delete UserPolicy.Delete
    show (removeSliceBounded a.OwnVols b.OwnVols).bind (fun own =>
      ((b.AuthorizedVols.entries.foldlM RawPolicy.Delete.step (some a.AuthorizedVols)).map _)) = _
    rw [removeSliceBounded_eq, foldlM_some_embed Delete.step RawPolicy.Delete.step some
      RawPolicy_Delete_step_initialised]
    rfl
  · intro r
    unfold RawPolicy.CleanPolicy CleanPolicy
    show ((r.AuthorizedVols.entries.foldlM RawPolicy.CleanPolicy.step
      (some NewUserPolicy.AuthorizedVols)).map _) = _
    rw [RawPolicy_CleanPolicy_fold_some]
    rfl
  · intro r v
    unfold RawPolicy.AddOwnVol
    split <;> rfl
  · intro r v
    unfold RawPolicy.RemoveOwnVol
    rw [hrem]
    rfl
  · intro a b
    unfold RawPolicy.Delete
    rw [removeSliceBounded_eq]
    obtain ⟨m, hm⟩ := Option.isSome_iff_exists.mp
      (foldlM_isSome RawPolicy.Delete.step RawPolicy_Delete_step_isSome
        (mapRange b.AuthorizedVols) a.AuthorizedVols)
    show (Option.map _ (List.foldlM RawPolicy.Delete.step a.AuthorizedVols
      (mapRange b.AuthorizedVols))).isSome = true
    rw [hm]
    rfl
  · intro r
    unfold RawPolicy.CleanPolicy
    obtain ⟨m, hm⟩ := Option.isSome_iff_exists.mp
      (foldlM_isSome_of_inv RawPolicy.CleanPolicy.step (fun m => m.isSome = true)
        (fun m e hm => by
          obtain ⟨g, hg⟩ := Option.isSome_iff_exists.mp hm
          rw [hg]
          exact ⟨some (g.insert e.1 (CleanPolicy.clean e.2)), rfl, rfl⟩)
        (mapRange r.AuthorizedVols) (some NewUserPolicy.AuthorizedVols) rfl)
    rw [hm]
    rfl
  · intro a b
    unfold RawPolicy.Add
    constructor
    · intro hsome
      cases ha : a.AuthorizedVols with
      | some g => exact Or.inl rfl
      | none =>
        right
        cases hl : mapRange b.AuthorizedVols with
        | nil => rfl
        | cons e es =>
          rw [ha, hl] at hsome
          exact absurd hsome (by simp [List.foldlM_cons, RawPolicy.Add.step, mapIndex, mapAssign])
    · intro hor
      rcases hor with hinit | hnil
      · obtain ⟨g, hg⟩ := Option.isSome_iff_exists.mp hinit
        obtain ⟨g', hg'⟩ := RawPolicy_Add_fold_some b.AuthorizedVols (mapRange b.AuthorizedVols) g
        rw [hg, hg']
        rfl
      · rw [hnil]
        rfl

/-- C15 amended, at a removal of the last element on a record with a nil map, at
an `Add` onto the empty record of `NewUserPolicy`, and at a removal list with
repeated and empty names. -/
theorem C15_operations_fail_only_on_nil_map_witness :
    ((RawPolicy.mk ["vol1", "vol2"] none).RemoveOwnVol "vol2").isSome = true
    ∧ (NewUserPolicy.raw.Add (RawPolicy.mk [""] (some (GoMap.single "vol1" ["read"])))).isSome
        = true
    ∧ removeSliceBounded ["vol1"] ["vol1", "vol1", ""] = some [] :=
  ⟨C15_operations_fail_only_on_nil_map.2.2.2.2.2.2.1 (RawPolicy.mk ["vol1", "vol2"] none) "vol2",
    (C15_operations_fail_only_on_nil_map.2.2.2.2.2.2.2.2.2.1 NewUserPolicy.raw
      (RawPolicy.mk [""] (some (GoMap.single "vol1" ["read"])))).mpr (Or.inl rfl),
    (C15_operations_fail_only_on_nil_map.2.2.2.2.2.2.2.2.2.2.1 ["vol1"] ["vol1", "vol1", ""]).trans
      (by decide)⟩

end Proto
